import Mathlib

/-!
Verification of `scripts/build_sbdb_index.py`.

The program is embedded shallowly:
* text is a `List Nat` of Unicode code points, bytes are a `List Nat` of values `< 256`;
* JSON values are the inductive `JVal`; number literals are kept as their source
  character sequence (the program never interprets them numerically), string
  contents are kept as raw code points (documents in all theorems use strings
  without backslash escapes, so escape processing never triggers);
* Python exceptions are modelled with `Option` (`none` = the call raises).
-/

namespace SBDB

/-- JSON whitespace, the exact set skipped by Python's `json` scanner
(space, tab, linefeed, carriage return). -/
def isWsChar (c : Nat) : Bool := c == 32 || c == 9 || c == 10 || c == 13

/-- The whitespace skipped by `str.isspace` in the outer loop of
`iter_json_array` (ASCII range; also vertical tab and form feed). -/
def isPySpace (c : Nat) : Bool := isWsChar c || c == 11 || c == 12

/-- ASCII decimal digit. -/
def isDigit (c : Nat) : Bool := 48 ≤ c && c ≤ 57

/-- A JSON value as produced by `json.JSONDecoder`.  Numbers are kept as their
literal character sequence and strings as their raw contents. -/
inductive JVal where
  | null : JVal
  | bool : Bool → JVal
  | num : List Nat → JVal
  | str : List Nat → JVal
  | arr : List JVal → JVal
  | obj : List (List Nat × JVal) → JVal

mutual

/-- Canonical (whitespace-free) rendering of a JSON value. -/
def renderVal : JVal → List Nat
  | .null => [110, 117, 108, 108]
  | .bool true => [116, 114, 117, 101]
  | .bool false => [102, 97, 108, 115, 101]
  | .num lit => lit
  | .str s => 34 :: s ++ [34]
  | .arr xs => 91 :: renderElems xs ++ [93]
  | .obj ms => 123 :: renderMembers ms ++ [125]

/-- Rendering of array elements, comma separated. -/
def renderElems : List JVal → List Nat
  | [] => []
  | [x] => renderVal x
  | x :: y :: xs => renderVal x ++ 44 :: renderElems (y :: xs)

/-- Rendering of object members, comma separated. -/
def renderMembers : List (List Nat × JVal) → List Nat
  | [] => []
  | [(k, v)] => 34 :: k ++ 34 :: 58 :: renderVal v
  | (k, v) :: m :: ms => 34 :: k ++ 34 :: 58 :: renderVal v ++ 44 :: renderMembers (m :: ms)

end

/-- Skip JSON whitespace. -/
def skipWsL (l : List Nat) : List Nat := l.dropWhile (fun c => isWsChar c)

/-- Scan a JSON string body up to the closing quote.  Backslash escapes are not
modelled (the scan fails on them) and control characters are rejected, as in
the strict-mode Python scanner. -/
def parseStringBody : List Nat → Option (List Nat × List Nat)
  | [] => none
  | c :: t =>
    if c = 34 then some ([], t)
    else if c = 92 || c < 32 then none
    else (parseStringBody t).map (fun p => (c :: p.1, p.2))

/-- Integer part of a JSON number: a single `0`, or a nonzero digit followed by
more digits (maximal munch, as the `NUMBER_RE` regex of Python's `json`). -/
def parseIntPart : List Nat → Option (List Nat × List Nat)
  | [] => none
  | c :: t =>
    if c = 48 then some ([48], t)
    else if isDigit c then some (c :: t.takeWhile isDigit, t.dropWhile isDigit)
    else none

/-- Optional fraction part: a dot followed by at least one digit; a dot not
followed by a digit is left unconsumed. -/
def parseFrac : List Nat → List Nat × List Nat
  | [] => ([], [])
  | c :: t =>
    if c = 46 then
      match t.takeWhile isDigit with
      | [] => ([], c :: t)
      | d :: ds => (46 :: d :: ds, t.dropWhile isDigit)
    else ([], c :: t)

/-- A JSON number literal: optional minus, integer part, optional fraction.
(The sources feeding `iter_json_array` use no exponents; the exponent clause of
`NUMBER_RE` is not modelled.) -/
def parseNumber : List Nat → Option (List Nat × List Nat)
  | [] => none
  | c :: t =>
    if c = 45 then
      (parseIntPart t).map (fun p =>
        let q := parseFrac p.2
        (45 :: (p.1 ++ q.1), q.2))
    else
      (parseIntPart (c :: t)).map (fun p =>
        let q := parseFrac p.2
        (p.1 ++ q.1, q.2))

/-- Parsing mode of the recursive-descent JSON scanner: a whole value, the
inside of an array (before the first element / after an element), one object
member, the inside of an object (before the first member / after a member). -/
inductive PMode where
  | val | arrBody | arrRest | member | objBody | objRest

/-- Result type of each parsing mode. -/
def POutT : PMode → Type
  | .val => JVal
  | .arrBody => List JVal
  | .arrRest => List JVal
  | .member => List Nat × JVal
  | .objBody => List (List Nat × JVal)
  | .objRest => List (List Nat × JVal)

/-- One step of value scanning, abstracted over the array/object
continuations.  Mirrors the CPython `json.scanner` dispatch on the first
character: string, object, array, the three literals, otherwise a number. -/
def valStep (pArr : List Nat → Option (List JVal × List Nat))
    (pObj : List Nat → Option (List (List Nat × JVal) × List Nat)) :
    List Nat → Option (JVal × List Nat)
  | [] => none
  | c :: t =>
    if c = 34 then (parseStringBody t).map (fun p => (JVal.str p.1, p.2))
    else if c = 123 then (pObj t).map (fun p => (JVal.obj p.1, p.2))
    else if c = 91 then (pArr t).map (fun p => (JVal.arr p.1, p.2))
    else if c = 110 then
      match t with
      | 117 :: 108 :: 108 :: t2 => some (JVal.null, t2)
      | _ => none
    else if c = 116 then
      match t with
      | 114 :: 117 :: 101 :: t2 => some (JVal.bool true, t2)
      | _ => none
    else if c = 102 then
      match t with
      | 97 :: 108 :: 115 :: 101 :: t2 => some (JVal.bool false, t2)
      | _ => none
    else (parseNumber (c :: t)).map (fun p => (JVal.num p.1, p.2))

/-- Array contents after the opening bracket: `]` or a first element. -/
def arrBodyStep (pv : List Nat → Option (JVal × List Nat))
    (pr : List Nat → Option (List JVal × List Nat)) (l : List Nat) :
    Option (List JVal × List Nat) :=
  match skipWsL l with
  | [] => none
  | c :: t =>
    if c = 93 then some ([], t)
    else (pv (c :: t)).bind (fun p => (pr p.2).map (fun q => (p.1 :: q.1, q.2)))

/-- Array contents after one element: `]`, or `,` and a further element. -/
def arrRestStep (pv : List Nat → Option (JVal × List Nat))
    (pr : List Nat → Option (List JVal × List Nat)) (l : List Nat) :
    Option (List JVal × List Nat) :=
  match skipWsL l with
  | [] => none
  | c :: t =>
    if c = 93 then some ([], t)
    else if c = 44 then
      (pv (skipWsL t)).bind (fun p => (pr p.2).map (fun q => (p.1 :: q.1, q.2)))
    else none

/-- One `"key": value` member of an object. -/
def memberStep (pv : List Nat → Option (JVal × List Nat)) :
    List Nat → Option ((List Nat × JVal) × List Nat)
  | [] => none
  | c :: t =>
    if c = 34 then
      (parseStringBody t).bind (fun k =>
        match skipWsL k.2 with
        | [] => none
        | c2 :: r =>
          if c2 = 58 then (pv (skipWsL r)).map (fun p => ((k.1, p.1), p.2))
          else none)
    else none

/-- Object contents after the opening brace: `}` or a first member. -/
def objBodyStep (pm : List Nat → Option ((List Nat × JVal) × List Nat))
    (pr : List Nat → Option (List (List Nat × JVal) × List Nat)) (l : List Nat) :
    Option (List (List Nat × JVal) × List Nat) :=
  match skipWsL l with
  | [] => none
  | c :: t =>
    if c = 125 then some ([], t)
    else (pm (c :: t)).bind (fun p => (pr p.2).map (fun q => (p.1 :: q.1, q.2)))

/-- Object contents after one member: `}`, or `,` and a further member. -/
def objRestStep (pm : List Nat → Option ((List Nat × JVal) × List Nat))
    (pr : List Nat → Option (List (List Nat × JVal) × List Nat)) (l : List Nat) :
    Option (List (List Nat × JVal) × List Nat) :=
  match skipWsL l with
  | [] => none
  | c :: t =>
    if c = 125 then some ([], t)
    else if c = 44 then
      (pm (skipWsL t)).bind (fun p => (pr p.2).map (fun q => (p.1 :: q.1, q.2)))
    else none

/-- The model of `json.JSONDecoder().raw_decode`, written as one fuel-indexed
structurally recursive function over the parsing mode (so that it reduces
definitionally); every lemma about it holds for every sufficient fuel. -/
def parseF : Nat → (m : PMode) → List Nat → Option (POutT m × List Nat)
  | 0, _, _ => none
  | n + 1, .val, l => valStep (parseF n .arrBody) (parseF n .objBody) l
  | n + 1, .arrBody, l => arrBodyStep (parseF n .val) (parseF n .arrRest) l
  | n + 1, .arrRest, l => arrRestStep (parseF n .val) (parseF n .arrRest) l
  | n + 1, .member, l => memberStep (parseF n .val) l
  | n + 1, .objBody, l => objBodyStep (parseF n .member) (parseF n .objRest) l
  | n + 1, .objRest, l => objRestStep (parseF n .member) (parseF n .objRest) l

/-- One JSON value: `raw_decode` at the front of the input. -/
def parseVal (n : Nat) (l : List Nat) : Option (JVal × List Nat) := parseF n .val l

theorem parseF_zero (m : PMode) (l : List Nat) : parseF 0 m l = none := rfl

theorem parseF_val (n : Nat) (l : List Nat) :
    parseF (n + 1) .val l = valStep (parseF n .arrBody) (parseF n .objBody) l := rfl

theorem parseF_arrBody (n : Nat) (l : List Nat) :
    parseF (n + 1) .arrBody l = arrBodyStep (parseF n .val) (parseF n .arrRest) l := rfl

theorem parseF_arrRest (n : Nat) (l : List Nat) :
    parseF (n + 1) .arrRest l = arrRestStep (parseF n .val) (parseF n .arrRest) l := rfl

theorem parseF_member (n : Nat) (l : List Nat) :
    parseF (n + 1) .member l = memberStep (parseF n .val) l := rfl

theorem parseF_objBody (n : Nat) (l : List Nat) :
    parseF (n + 1) .objBody l = objBodyStep (parseF n .member) (parseF n .objRest) l := rfl

theorem parseF_objRest (n : Nat) (l : List Nat) :
    parseF (n + 1) .objRest l = objRestStep (parseF n .member) (parseF n .objRest) l := rfl

/-- A string character the modelled scanner passes through unchanged:
not a quote, not a backslash, not a control character. -/
def strOkChar (c : Nat) : Prop := c ≠ 34 ∧ c ≠ 92 ∧ 32 ≤ c

/-- String contents the modelled scanner handles. -/
def strOk (s : List Nat) : Prop := ∀ c ∈ s, strOkChar c

/-- All characters are ASCII digits. -/
def digitsOk (l : List Nat) : Prop := ∀ c ∈ l, isDigit c = true

/-- A well-formed integer part: `0` alone, or a nonzero leading digit. -/
def intPartOkP (ip : List Nat) : Prop :=
  ip = [48] ∨ ∃ d ds, ip = d :: ds ∧ 49 ≤ d ∧ d ≤ 57 ∧ digitsOk ds

/-- A well-formed (possibly empty) fraction part. -/
def fracOkP (fp : List Nat) : Prop :=
  fp = [] ∨ ∃ e es, fp = 46 :: e :: es ∧ isDigit e = true ∧ digitsOk es

/-- A well-formed JSON number literal (without exponent). -/
def numLitOkP (lit : List Nat) : Prop :=
  ∃ sign ip fp, (sign = [] ∨ sign = [45]) ∧ intPartOkP ip ∧ fracOkP fp ∧
    lit = sign ++ ip ++ fp

/-- The input does not begin with a character that could extend a preceding
number literal (a digit or a dot). -/
def numBoundary (l : List Nat) : Prop :=
  ∀ c, l.head? = some c → isDigit c = false ∧ c ≠ 46

/-- Well-formed JSON values: number literals match the number grammar and
strings avoid the unmodelled escapes. -/
inductive Wf : JVal → Prop where
  | null : Wf .null
  | bool (b : Bool) : Wf (.bool b)
  | num (lit : List Nat) : numLitOkP lit → Wf (.num lit)
  | str (s : List Nat) : strOk s → Wf (.str s)
  | arr (xs : List JVal) : (∀ v ∈ xs, Wf v) → Wf (.arr xs)
  | obj (ms : List (List Nat × JVal)) : (∀ m ∈ ms, strOk m.1) → (∀ m ∈ ms, Wf m.2) →
      Wf (.obj ms)

theorem numBoundary_nil : numBoundary [] := by
  intro c hc
  simp at hc

theorem numBoundary_cons {c : Nat} (t : List Nat) (h1 : isDigit c = false) (h2 : c ≠ 46) :
    numBoundary (c :: t) := by
  intro d hd
  simp at hd
  subst hd
  exact ⟨h1, h2⟩

theorem parseStringBody_rt (s rest : List Nat) (h : strOk s) :
    parseStringBody (s ++ 34 :: rest) = some (s, rest) := by
  induction s with
  | nil => simp [parseStringBody]
  | cons c t ih =>
    obtain ⟨h1, h2, h3⟩ := h c (by simp)
    have ht : strOk t := fun d hd => h d (by simp [hd])
    simp only [List.cons_append, parseStringBody, if_neg h1]
    rw [if_neg (by simp; omega)]
    simp [ih ht]

theorem parseStringBody_unterminated (s : List Nat) (h : strOk s) :
    parseStringBody s = none := by
  induction s with
  | nil => simp [parseStringBody]
  | cons c t ih =>
    obtain ⟨h1, h2, h3⟩ := h c (by simp)
    have ht : strOk t := fun d hd => h d (by simp [hd])
    simp only [parseStringBody, if_neg h1]
    rw [if_neg (by simp; omega)]
    simp [ih ht]

theorem parseStringBody_len {t : List Nat} {p : List Nat × List Nat}
    (h : parseStringBody t = some p) : p.2.length < t.length := by
  induction t generalizing p with
  | nil => simp [parseStringBody] at h
  | cons c t ih =>
    simp only [parseStringBody] at h
    by_cases h1 : c = 34
    · rw [if_pos h1] at h
      obtain rfl : ([], t) = p := by simpa using h
      simp
    · rw [if_neg h1] at h
      by_cases h2 : (c = 92 || decide (c < 32)) = true
      · rw [if_pos h2] at h
        simp at h
      · rw [if_neg h2] at h
        obtain ⟨q, hq, rfl⟩ := Option.map_eq_some'.mp h
        have := ih hq
        simp at this ⊢
        omega

theorem digits_span {ds rest : List Nat} (h : digitsOk ds)
    (hb : ∀ c, rest.head? = some c → isDigit c = false) :
    (ds ++ rest).takeWhile isDigit = ds ∧ (ds ++ rest).dropWhile isDigit = rest := by
  induction ds with
  | nil =>
    simp only [List.nil_append]
    cases rest with
    | nil => simp
    | cons c t =>
      have := hb c (by simp)
      simp [List.takeWhile_cons, List.dropWhile_cons, this]
  | cons d ds ih =>
    have hd := h d (by simp)
    have hds : digitsOk ds := fun c hc => h c (by simp [hc])
    obtain ⟨ih1, ih2⟩ := ih hds
    simp [List.takeWhile_cons, List.dropWhile_cons, hd, ih1, ih2]

theorem parseIntPart_rt {ip : List Nat} (rest : List Nat) (h : intPartOkP ip)
    (hb : ∀ c, rest.head? = some c → isDigit c = false) :
    parseIntPart (ip ++ rest) = some (ip, rest) := by
  rcases h with rfl | ⟨d, ds, rfl, hd1, hd2, hds⟩
  · cases rest with
    | nil => simp [parseIntPart]
    | cons c t =>
      have := hb c (by simp)
      simp [parseIntPart]
  · obtain ⟨h1, h2⟩ := digits_span hds hb
    have hd48 : d ≠ 48 := by omega
    have hdd : isDigit d = true := by simp [isDigit]; omega
    simp [parseIntPart, hd48, hdd, h1, h2]

theorem parseFrac_rt {fp : List Nat} (rest : List Nat) (h : fracOkP fp)
    (hb : numBoundary rest) : parseFrac (fp ++ rest) = (fp, rest) := by
  rcases h with rfl | ⟨e, es, rfl, he, hes⟩
  · cases rest with
    | nil => simp [parseFrac]
    | cons c t =>
      obtain ⟨hc1, hc2⟩ := hb c (by simp)
      simp [parseFrac, hc2, hc1]
  · have hb' : ∀ c, rest.head? = some c → isDigit c = false := fun c hc => (hb c hc).1
    have hdig : digitsOk (e :: es) := by
      intro c hc
      rcases List.mem_cons.mp hc with rfl | hc
      · exact he
      · exact hes c hc
    obtain ⟨h1, h2⟩ := digits_span hdig hb'
    simp only [List.cons_append] at h1 h2 ⊢
    simp [parseFrac, h1, h2]

theorem parseNumber_rt {lit : List Nat} (rest : List Nat) (h : numLitOkP lit)
    (hb : numBoundary rest) : parseNumber (lit ++ rest) = some (lit, rest) := by
  obtain ⟨sign, ip, fp, hsign, hip, hfp, rfl⟩ := h
  have hfrac : parseFrac (fp ++ rest) = (fp, rest) := parseFrac_rt rest hfp hb
  have hbnd : ∀ c, (fp ++ rest).head? = some c → isDigit c = false := by
    rcases hfp with rfl | ⟨e, es, rfl, he, hes⟩
    · intro c hc
      exact ((hb c hc).1)
    · intro c hc
      simp at hc
      subst hc
      simp [isDigit]
  have hint : parseIntPart (ip ++ (fp ++ rest)) = some (ip, fp ++ rest) :=
    parseIntPart_rt (fp ++ rest) hip hbnd
  have hipne : ip ≠ [] := by
    rcases hip with rfl | ⟨d, ds, rfl, _, _, _⟩ <;> simp
  rcases hsign with rfl | rfl
  · obtain ⟨c, t, hct⟩ : ∃ c t, ip ++ (fp ++ rest) = c :: t := by
      cases hip' : ip with
      | nil => exact absurd hip' hipne
      | cons c t => exact ⟨c, t ++ (fp ++ rest), by simp⟩
    have hc45 : c ≠ 45 := by
      rcases hip with rfl | ⟨d, ds, hds, hd1, hd2, _⟩
      · simp at hct
        omega
      · rw [hds] at hct
        simp at hct
        omega
    have : (([] : List Nat) ++ ip ++ fp) ++ rest = c :: t := by
      rw [List.nil_append, List.append_assoc, hct]
    rw [this]
    simp only [parseNumber, if_neg hc45]
    rw [← hct, hint]
    simp [hfrac]
  · have : (([45] : List Nat) ++ ip ++ fp) ++ rest = 45 :: (ip ++ (fp ++ rest)) := by
      simp
    rw [this]
    simp only [parseNumber, if_pos rfl]
    rw [hint]
    simp [hfrac]

/-- The rendered text of one object member. -/
def memberText (m : List Nat × JVal) : List Nat := 34 :: m.1 ++ 34 :: 58 :: renderVal m.2

/-- The rendered text of array elements after the first: `, e` for each. -/
def elemsTail (xs : List JVal) : List Nat := (xs.map (fun v => 44 :: renderVal v)).flatten

/-- The rendered text of object members after the first: `, m` for each. -/
def membersTail (ms : List (List Nat × JVal)) : List Nat :=
  (ms.map (fun m => 44 :: memberText m)).flatten

theorem renderElems_cons : ∀ (xs : List JVal) (x : JVal),
    renderElems (x :: xs) = renderVal x ++ elemsTail xs := by
  intro xs
  induction xs with
  | nil =>
    intro x
    simp [renderElems, elemsTail]
  | cons y t ih =>
    intro x
    rw [show renderElems (x :: y :: t) = renderVal x ++ 44 :: renderElems (y :: t) from by
      simp [renderElems]]
    rw [ih y]
    simp [elemsTail]

theorem renderMembers_cons : ∀ (ms : List (List Nat × JVal)) (m : List Nat × JVal),
    renderMembers (m :: ms) = memberText m ++ membersTail ms := by
  intro ms
  induction ms with
  | nil =>
    intro m
    cases m with
    | mk k v => simp [renderMembers, memberText, membersTail]
  | cons y t ih =>
    intro m
    cases m with
    | mk k v =>
      cases y with
      | mk k2 v2 =>
        rw [show renderMembers ((k, v) :: (k2, v2) :: t) =
            34 :: k ++ 34 :: 58 :: renderVal v ++ 44 :: renderMembers ((k2, v2) :: t) from by
          simp [renderMembers]]
        rw [ih (k2, v2)]
        simp [memberText, membersTail]

/-- Characters that can begin a rendered well-formed value. -/
def goodHead (c : Nat) : Prop :=
  c = 34 ∨ c = 123 ∨ c = 91 ∨ c = 110 ∨ c = 116 ∨ c = 102 ∨ c = 45 ∨ isDigit c = true

theorem goodHead_props {c : Nat} (h : goodHead c) :
    isWsChar c = false ∧ isPySpace c = false ∧ c ≠ 93 ∧ c ≠ 44 ∧ c ≠ 125 ∧ c ≠ 58 := by
  have hx : c = 34 ∨ c = 123 ∨ c = 91 ∨ c = 110 ∨ c = 116 ∨ c = 102 ∨ c = 45 ∨
      (48 ≤ c ∧ c ≤ 57) := by
    simp only [goodHead, isDigit, Bool.and_eq_true, decide_eq_true_eq] at h
    exact h
  simp [isWsChar, isPySpace]
  omega

theorem renderVal_head {v : JVal} (h : Wf v) :
    ∃ c t, renderVal v = c :: t ∧ goodHead c := by
  cases h with
  | null => exact ⟨110, [117, 108, 108], by simp [renderVal], by simp [goodHead]⟩
  | bool b =>
    cases b
    · exact ⟨102, [97, 108, 115, 101], by simp [renderVal], by simp [goodHead]⟩
    · exact ⟨116, [114, 117, 101], by simp [renderVal], by simp [goodHead]⟩
  | num lit hlit =>
    obtain ⟨sign, ip, fp, hsign, hip, hfp, rfl⟩ := hlit
    rcases hsign with rfl | rfl
    · rcases hip with rfl | ⟨d, ds, rfl, hd1, hd2, _⟩
      · exact ⟨48, fp, by simp [renderVal], by simp [goodHead, isDigit]⟩
      · refine ⟨d, ds ++ fp, by simp [renderVal], ?_⟩
        right; right; right; right; right; right; right
        simp [isDigit]
        omega
    · exact ⟨45, ip ++ fp, by simp [renderVal], by simp [goodHead]⟩
  | str s hs => exact ⟨34, s ++ [34], by simp [renderVal], by simp [goodHead]⟩
  | arr xs hxs =>
    exact ⟨91, renderElems xs ++ [93], by simp [renderVal], by simp [goodHead]⟩
  | obj ms h1 h2 =>
    exact ⟨123, renderMembers ms ++ [125], by simp [renderVal], by simp [goodHead]⟩

theorem dropWhile_len (p : Nat → Bool) (l : List Nat) : (l.dropWhile p).length ≤ l.length := by
  induction l with
  | nil => simp
  | cons c t ih =>
    rw [List.dropWhile_cons]
    by_cases h : p c
    · simp only [if_pos h]
      simp
      omega
    · simp [if_neg h]

theorem skipWsL_len (l : List Nat) : (skipWsL l).length ≤ l.length :=
  dropWhile_len _ l

theorem skipWsL_cons_of_not_ws {c : Nat} (t : List Nat) (h : isWsChar c = false) :
    skipWsL (c :: t) = c :: t := by
  simp [skipWsL, List.dropWhile_cons, h]

theorem skipWsL_nil : skipWsL [] = [] := rfl

theorem parseIntPart_len {l : List Nat} {p : List Nat × List Nat}
    (h : parseIntPart l = some p) : p.2.length < l.length := by
  cases l with
  | nil => simp [parseIntPart] at h
  | cons c t =>
    simp only [parseIntPart] at h
    by_cases h1 : c = 48
    · rw [if_pos h1] at h
      obtain rfl : ([48], t) = p := by simpa using h
      simp
    · rw [if_neg h1] at h
      by_cases h2 : isDigit c = true
      · rw [if_pos h2] at h
        obtain rfl : (c :: t.takeWhile isDigit, t.dropWhile isDigit) = p := by simpa using h
        have := dropWhile_len isDigit t
        simp
        omega
      · rw [if_neg h2] at h
        simp at h

section Mono

variable {pv pv' : List Nat → Option (JVal × List Nat)}
variable {pa pa' : List Nat → Option (List JVal × List Nat)}
variable {po po' : List Nat → Option (List (List Nat × JVal) × List Nat)}
variable {pm pm' : List Nat → Option ((List Nat × JVal) × List Nat)}

theorem valStep_mono (hA : ∀ l r, pa l = some r → pa' l = some r)
    (hO : ∀ l r, po l = some r → po' l = some r) :
    ∀ l r, valStep pa po l = some r → valStep pa' po' l = some r := by
  intro l r h
  cases l with
  | nil => simp [valStep] at h
  | cons c t =>
    simp only [valStep] at h ⊢
    split_ifs at h ⊢ with h1 h2 h3 h4 h5 h6
    · exact h
    · obtain ⟨p, hp, hr⟩ := Option.map_eq_some'.mp h
      rw [hO t p hp]
      simp [hr]
    · obtain ⟨p, hp, hr⟩ := Option.map_eq_some'.mp h
      rw [hA t p hp]
      simp [hr]
    · exact h
    · exact h
    · exact h
    · exact h

theorem arrBodyStep_mono (hV : ∀ l r, pv l = some r → pv' l = some r)
    (hR : ∀ l r, pa l = some r → pa' l = some r) :
    ∀ l r, arrBodyStep pv pa l = some r → arrBodyStep pv' pa' l = some r := by
  intro l r h
  cases hs : skipWsL l with
  | nil => simp [arrBodyStep, hs] at h
  | cons c t =>
    simp only [arrBodyStep, hs] at h ⊢
    split_ifs at h ⊢ with h1
    · exact h
    · obtain ⟨p, hp, hr⟩ := Option.bind_eq_some.mp h
      obtain ⟨q, hq, hr2⟩ := Option.map_eq_some'.mp hr
      rw [hV _ p hp]
      simp only [Option.some_bind]
      rw [hR _ q hq]
      simp [hr2]

theorem arrRestStep_mono (hV : ∀ l r, pv l = some r → pv' l = some r)
    (hR : ∀ l r, pa l = some r → pa' l = some r) :
    ∀ l r, arrRestStep pv pa l = some r → arrRestStep pv' pa' l = some r := by
  intro l r h
  cases hs : skipWsL l with
  | nil => simp [arrRestStep, hs] at h
  | cons c t =>
    simp only [arrRestStep, hs] at h ⊢
    split_ifs at h ⊢ with h1 h2
    · exact h
    · obtain ⟨p, hp, hr⟩ := Option.bind_eq_some.mp h
      obtain ⟨q, hq, hr2⟩ := Option.map_eq_some'.mp hr
      rw [hV _ p hp]
      simp only [Option.some_bind]
      rw [hR _ q hq]
      simp [hr2]

theorem memberStep_mono (hV : ∀ l r, pv l = some r → pv' l = some r) :
    ∀ l r, memberStep pv l = some r → memberStep pv' l = some r := by
  intro l r h
  cases l with
  | nil => simp [memberStep] at h
  | cons c t =>
    simp only [memberStep] at h ⊢
    split_ifs at h ⊢ with h1
    · obtain ⟨k, hk, hr⟩ := Option.bind_eq_some.mp h
      rw [hk]
      simp only [Option.some_bind] at hr ⊢
      cases hs : skipWsL k.2 with
      | nil => rw [hs] at hr; simp at hr
      | cons c2 r2 =>
        rw [hs] at hr
        simp only at hr ⊢
        split_ifs at hr ⊢ with h2
        · obtain ⟨p, hp, hr2⟩ := Option.map_eq_some'.mp hr
          rw [hV _ p hp]
          simp [hr2]

theorem objBodyStep_mono (hM : ∀ l r, pm l = some r → pm' l = some r)
    (hR : ∀ l r, po l = some r → po' l = some r) :
    ∀ l r, objBodyStep pm po l = some r → objBodyStep pm' po' l = some r := by
  intro l r h
  cases hs : skipWsL l with
  | nil => simp [objBodyStep, hs] at h
  | cons c t =>
    simp only [objBodyStep, hs] at h ⊢
    split_ifs at h ⊢ with h1
    · exact h
    · obtain ⟨p, hp, hr⟩ := Option.bind_eq_some.mp h
      obtain ⟨q, hq, hr2⟩ := Option.map_eq_some'.mp hr
      rw [hM _ p hp]
      simp only [Option.some_bind]
      rw [hR _ q hq]
      simp [hr2]

theorem objRestStep_mono (hM : ∀ l r, pm l = some r → pm' l = some r)
    (hR : ∀ l r, po l = some r → po' l = some r) :
    ∀ l r, objRestStep pm po l = some r → objRestStep pm' po' l = some r := by
  intro l r h
  cases hs : skipWsL l with
  | nil => simp [objRestStep, hs] at h
  | cons c t =>
    simp only [objRestStep, hs] at h ⊢
    split_ifs at h ⊢ with h1 h2
    · exact h
    · obtain ⟨p, hp, hr⟩ := Option.bind_eq_some.mp h
      obtain ⟨q, hq, hr2⟩ := Option.map_eq_some'.mp hr
      rw [hM _ p hp]
      simp only [Option.some_bind]
      rw [hR _ q hq]
      simp [hr2]

end Mono

/-- Giving the scanner more fuel never changes a successful parse. -/
theorem parseF_mono : ∀ n (m : PMode) (l : List Nat) (r : POutT m × List Nat),
    parseF n m l = some r → parseF (n + 1) m l = some r := by
  intro n
  induction n with
  | zero =>
    intro m l r h
    rw [parseF_zero] at h
    exact absurd h (by simp)
  | succ n ih =>
    intro m l r h
    cases m with
    | val =>
      rw [parseF_val] at h ⊢
      exact valStep_mono (ih .arrBody) (ih .objBody) l r h
    | arrBody =>
      rw [parseF_arrBody] at h ⊢
      exact arrBodyStep_mono (ih .val) (ih .arrRest) l r h
    | arrRest =>
      rw [parseF_arrRest] at h ⊢
      exact arrRestStep_mono (ih .val) (ih .arrRest) l r h
    | member =>
      rw [parseF_member] at h ⊢
      exact memberStep_mono (ih .val) l r h
    | objBody =>
      rw [parseF_objBody] at h ⊢
      exact objBodyStep_mono (ih .member) (ih .objRest) l r h
    | objRest =>
      rw [parseF_objRest] at h ⊢
      exact objRestStep_mono (ih .member) (ih .objRest) l r h

/-- Fuel monotonicity, unbundled to any larger fuel. -/
theorem parseF_mono_le {n n' : Nat} (h : n ≤ n') (m : PMode) (l : List Nat)
    (r : POutT m × List Nat) (hp : parseF n m l = some r) : parseF n' m l = some r := by
  induction n' with
  | zero =>
    obtain rfl : n = 0 := by omega
    exact hp
  | succ k ih =>
    rcases Nat.lt_or_ge n (k + 1) with hlt | hge
    · exact parseF_mono k m l r (ih (by omega))
    · obtain rfl : n = k + 1 := by omega
      exact hp

theorem numLit_head {lit : List Nat} (h : numLitOkP lit) :
    ∃ c t, lit = c :: t ∧ (c = 45 ∨ isDigit c = true) := by
  obtain ⟨sign, ip, fp, hsign, hip, hfp, rfl⟩ := h
  rcases hsign with rfl | rfl
  · rcases hip with rfl | ⟨d, ds, rfl, hd1, hd2, _⟩
    · exact ⟨48, fp, by simp, Or.inr (by simp [isDigit])⟩
    · exact ⟨d, ds ++ fp, by simp, Or.inr (by simp [isDigit]; omega)⟩
  · exact ⟨45, ip ++ fp, by simp, Or.inl rfl⟩

theorem renderVal_ne_nil {v : JVal} (h : Wf v) : renderVal v ≠ [] := by
  obtain ⟨c, t, hct, _⟩ := renderVal_head h
  simp [hct]

theorem skipWsL_good {c : Nat} (t : List Nat) (h : goodHead c) : skipWsL (c :: t) = c :: t :=
  skipWsL_cons_of_not_ws t (goodHead_props h).1

theorem elemsTail_cons (x : JVal) (xs : List JVal) :
    elemsTail (x :: xs) = 44 :: (renderVal x ++ elemsTail xs) := by
  simp [elemsTail]

theorem membersTail_cons (m : List Nat × JVal) (ms : List (List Nat × JVal)) :
    membersTail (m :: ms) = 44 :: (memberText m ++ membersTail ms) := by
  simp [membersTail]

theorem elemsTail_boundary (xs : List JVal) (rest : List Nat) :
    numBoundary (elemsTail xs ++ 93 :: rest) := by
  cases xs with
  | nil =>
    rw [show elemsTail [] = [] from by simp [elemsTail]]
    exact numBoundary_cons rest (by decide) (by decide)
  | cons y t =>
    rw [elemsTail_cons]
    exact numBoundary_cons _ (by decide) (by decide)

theorem membersTail_boundary (ms : List (List Nat × JVal)) (rest : List Nat) :
    numBoundary (membersTail ms ++ 125 :: rest) := by
  cases ms with
  | nil =>
    rw [show membersTail [] = [] from by simp [membersTail]]
    exact numBoundary_cons rest (by decide) (by decide)
  | cons m t =>
    rw [membersTail_cons]
    exact numBoundary_cons _ (by decide) (by decide)

theorem parseF_val_num (n : Nat) {lit rest : List Nat} (hlit : numLitOkP lit)
    (hb : numBoundary rest) : parseF (n + 1) .val (lit ++ rest) = some (.num lit, rest) := by
  obtain ⟨c, t, rfl, hc⟩ := numLit_head hlit
  have hcs : c ≠ 34 ∧ c ≠ 123 ∧ c ≠ 91 ∧ c ≠ 110 ∧ c ≠ 116 ∧ c ≠ 102 := by
    rcases hc with rfl | hd
    · exact ⟨by decide, by decide, by decide, by decide, by decide, by decide⟩
    · simp [isDigit] at hd
      omega
  rw [parseF_val]
  rw [show (c :: t) ++ rest = c :: (t ++ rest) from by simp]
  simp only [valStep]
  rw [if_neg hcs.1, if_neg hcs.2.1, if_neg hcs.2.2.1, if_neg hcs.2.2.2.1,
    if_neg hcs.2.2.2.2.1, if_neg hcs.2.2.2.2.2]
  rw [show c :: (t ++ rest) = (c :: t) ++ rest from by simp]
  rw [parseNumber_rt rest hlit hb]
  rfl

theorem parseF_val_str (n : Nat) {s : List Nat} (rest : List Nat) (hs : strOk s) :
    parseF (n + 1) .val ((34 :: s ++ [34]) ++ rest) = some (.str s, rest) := by
  rw [parseF_val]
  rw [show (34 :: s ++ [34]) ++ rest = 34 :: (s ++ 34 :: rest) from by simp]
  simp only [valStep, if_pos rfl]
  rw [parseStringBody_rt s rest hs]
  rfl

/-- Round-trip of the modelled scanner on rendered well-formed values, in all
six modes simultaneously (strong induction on the fuel). -/
theorem parseF_rt : ∀ n : Nat,
    (∀ v rest, Wf v → (renderVal v).length ≤ n → numBoundary rest →
      parseF n .val (renderVal v ++ rest) = some (v, rest)) ∧
    (∀ xs rest, (∀ v ∈ xs, Wf v) → (renderElems xs).length + 1 ≤ n →
      parseF n .arrBody (renderElems xs ++ 93 :: rest) = some (xs, rest)) ∧
    (∀ xs rest, (∀ v ∈ xs, Wf v) → (elemsTail xs).length + 1 ≤ n →
      parseF n .arrRest (elemsTail xs ++ 93 :: rest) = some (xs, rest)) ∧
    (∀ k v rest, strOk k → Wf v → k.length + (renderVal v).length + 3 ≤ n →
      numBoundary rest →
      parseF n .member (34 :: k ++ 34 :: 58 :: renderVal v ++ rest) = some ((k, v), rest)) ∧
    (∀ ms rest, (∀ m ∈ ms, strOk m.1) → (∀ m ∈ ms, Wf m.2) →
      (renderMembers ms).length + 1 ≤ n →
      parseF n .objBody (renderMembers ms ++ 125 :: rest) = some (ms, rest)) ∧
    (∀ ms rest, (∀ m ∈ ms, strOk m.1) → (∀ m ∈ ms, Wf m.2) →
      (membersTail ms).length + 1 ≤ n →
      parseF n .objRest (membersTail ms ++ 125 :: rest) = some (ms, rest)) := by
  intro n
  induction n using Nat.strong_induction_on with
  | _ n ih =>
  refine ⟨?_, ?_, ?_, ?_, ?_, ?_⟩
  · -- value mode
    intro v rest hwf hlen hb
    cases hwf with
    | null =>
      rw [show renderVal JVal.null = [110, 117, 108, 108] from by simp [renderVal]] at hlen ⊢
      simp at hlen
      cases n with
      | zero => omega
      | succ k =>
        rw [parseF_val]
        simp [valStep]
    | bool b =>
      cases b
      · rw [show renderVal (JVal.bool false) = [102, 97, 108, 115, 101] from by
          simp [renderVal]] at hlen ⊢
        simp at hlen
        cases n with
        | zero => omega
        | succ k =>
          rw [parseF_val]
          simp [valStep]
      · rw [show renderVal (JVal.bool true) = [116, 114, 117, 101] from by
          simp [renderVal]] at hlen ⊢
        simp at hlen
        cases n with
        | zero => omega
        | succ k =>
          rw [parseF_val]
          simp [valStep]
    | num lit hlit =>
      rw [show renderVal (JVal.num lit) = lit from by simp [renderVal]] at hlen ⊢
      have hne : lit ≠ [] := by
        obtain ⟨c, t, rfl, _⟩ := numLit_head hlit
        simp
      cases n with
      | zero =>
        cases lit with
        | nil => exact absurd rfl hne
        | cons c t => simp at hlen
      | succ k => exact parseF_val_num k hlit hb
    | str s hs =>
      rw [show renderVal (JVal.str s) = 34 :: s ++ [34] from by simp [renderVal]] at hlen ⊢
      simp at hlen
      cases n with
      | zero => omega
      | succ k => exact parseF_val_str k rest hs
    | arr xs hxs =>
      rw [show renderVal (JVal.arr xs) = 91 :: renderElems xs ++ [93] from by
        simp [renderVal]] at hlen ⊢
      simp at hlen
      cases n with
      | zero => omega
      | succ k =>
        rw [parseF_val]
        rw [show (91 :: renderElems xs ++ [93]) ++ rest =
          91 :: (renderElems xs ++ 93 :: rest) from by simp]
        simp only [valStep]
        rw [((ih k (by omega)).2.1) xs rest hxs (by omega)]
        simp
    | obj ms h1 h2 =>
      rw [show renderVal (JVal.obj ms) = 123 :: renderMembers ms ++ [125] from by
        simp [renderVal]] at hlen ⊢
      simp at hlen
      cases n with
      | zero => omega
      | succ k =>
        rw [parseF_val]
        rw [show (123 :: renderMembers ms ++ [125]) ++ rest =
          123 :: (renderMembers ms ++ 125 :: rest) from by simp]
        simp only [valStep]
        rw [((ih k (by omega)).2.2.2.2.1) ms rest h1 h2 (by omega)]
        simp
  · -- array body mode
    intro xs rest hxs hlen
    cases n with
    | zero => omega
    | succ k =>
      rw [parseF_arrBody]
      cases xs with
      | nil =>
        rw [show renderElems [] = [] from by simp [renderElems]]
        simp only [List.nil_append, arrBodyStep]
        rw [skipWsL_cons_of_not_ws rest (by decide)]
        simp
      | cons x t =>
        rw [renderElems_cons] at hlen ⊢
        obtain ⟨c, tl, hct, hgood⟩ := renderVal_head (hxs x (by simp))
        have hprops := goodHead_props hgood
        have hlx : 0 < (renderVal x).length := by
          rw [hct]; simp
        have hsk : skipWsL ((renderVal x ++ elemsTail t) ++ 93 :: rest) =
            c :: (tl ++ (elemsTail t ++ 93 :: rest)) := by
          rw [hct]
          simp only [List.cons_append, List.append_assoc]
          exact skipWsL_cons_of_not_ws _ hprops.1
        simp only [arrBodyStep, hsk]
        rw [if_neg hprops.2.2.1]
        rw [show c :: (tl ++ (elemsTail t ++ 93 :: rest)) =
          renderVal x ++ (elemsTail t ++ 93 :: rest) from by rw [hct]; simp]
        simp at hlen
        rw [((ih k (by omega)).1) x (elemsTail t ++ 93 :: rest) (hxs x (by simp))
          (by omega) (elemsTail_boundary t rest)]
        simp only [Option.some_bind]
        rw [((ih k (by omega)).2.2.1) t rest (fun v hv => hxs v (by simp [hv])) (by omega)]
        rfl
  · -- array rest mode
    intro xs rest hxs hlen
    cases n with
    | zero => omega
    | succ k =>
      rw [parseF_arrRest]
      cases xs with
      | nil =>
        rw [show elemsTail [] = [] from by simp [elemsTail]]
        simp only [List.nil_append, arrRestStep]
        rw [skipWsL_cons_of_not_ws rest (by decide)]
        simp
      | cons x t =>
        rw [elemsTail_cons] at hlen ⊢
        obtain ⟨c, tl, hct, hgood⟩ := renderVal_head (hxs x (by simp))
        have hprops := goodHead_props hgood
        have hlx : 0 < (renderVal x).length := by
          rw [hct]; simp
        have hsk : skipWsL ((44 :: (renderVal x ++ elemsTail t)) ++ 93 :: rest) =
            44 :: (renderVal x ++ elemsTail t ++ 93 :: rest) := by
          simp only [List.cons_append, List.append_assoc]
          exact skipWsL_cons_of_not_ws _ (by decide)
        simp only [arrRestStep, hsk]
        rw [if_pos trivial]
        have hsk2 : skipWsL (renderVal x ++ elemsTail t ++ 93 :: rest) =
            renderVal x ++ (elemsTail t ++ 93 :: rest) := by
          rw [hct]
          simp only [List.cons_append, List.append_assoc]
          exact skipWsL_cons_of_not_ws _ hprops.1
        rw [hsk2]
        simp at hlen
        rw [((ih k (by omega)).1) x (elemsTail t ++ 93 :: rest) (hxs x (by simp))
          (by omega) (elemsTail_boundary t rest)]
        simp only [Option.some_bind]
        rw [((ih k (by omega)).2.2.1) t rest (fun v hv => hxs v (by simp [hv])) (by omega)]
        rfl
  · -- member mode
    intro k v rest hk hv hlen hb
    cases n with
    | zero => omega
    | succ kk =>
      rw [parseF_member]
      obtain ⟨c, tl, hct, hgood⟩ := renderVal_head hv
      have hprops := goodHead_props hgood
      rw [show (34 :: k ++ 34 :: 58 :: renderVal v ++ rest) =
        34 :: (k ++ 34 :: (58 :: (renderVal v ++ rest))) from by simp]
      simp only [memberStep, if_pos rfl]
      rw [parseStringBody_rt k _ hk]
      simp only [Option.some_bind]
      have hsk : skipWsL (58 :: (renderVal v ++ rest)) = 58 :: (renderVal v ++ rest) :=
        skipWsL_cons_of_not_ws _ (by decide)
      simp only [hsk]
      rw [if_pos trivial]
      have hsk2 : skipWsL (renderVal v ++ rest) = renderVal v ++ rest := by
        rw [hct]
        simp only [List.cons_append]
        exact skipWsL_cons_of_not_ws _ hprops.1
      rw [hsk2]
      rw [((ih kk (by omega)).1) v rest hv (by omega) hb]
      rfl
  · -- object body mode
    intro ms rest h1 h2 hlen
    cases n with
    | zero => omega
    | succ k =>
      rw [parseF_objBody]
      cases ms with
      | nil =>
        rw [show renderMembers [] = [] from by simp [renderMembers]]
        simp only [List.nil_append, objBodyStep]
        rw [skipWsL_cons_of_not_ws rest (by decide)]
        simp
      | cons m t =>
        rw [renderMembers_cons] at hlen ⊢
        have hmt : memberText m = 34 :: (m.1 ++ 34 :: 58 :: renderVal m.2) := by
          simp [memberText]
        have hsk : skipWsL ((memberText m ++ membersTail t) ++ 125 :: rest) =
            34 :: (m.1 ++ 34 :: 58 :: renderVal m.2 ++ (membersTail t ++ 125 :: rest)) := by
          rw [hmt]
          simp only [List.cons_append, List.append_assoc]
          exact skipWsL_cons_of_not_ws _ (by decide)
        simp only [objBodyStep, hsk]
        have hmem := ((ih k (by omega)).2.2.2.1) m.1 m.2 (membersTail t ++ 125 :: rest)
          (h1 m (by simp)) (h2 m (by simp))
          (by rw [hmt] at hlen; simp at hlen; omega) (membersTail_boundary t rest)
        rw [show (34 : Nat) :: (m.1 ++ 34 :: 58 :: renderVal m.2 ++
            (membersTail t ++ 125 :: rest)) =
          34 :: m.1 ++ 34 :: 58 :: renderVal m.2 ++ (membersTail t ++ 125 :: rest) from by
          simp]
        rw [hmem]
        simp only [Option.some_bind]
        rw [((ih k (by omega)).2.2.2.2.2) t rest (fun x hx => h1 x (by simp [hx]))
          (fun x hx => h2 x (by simp [hx])) (by rw [hmt] at hlen; simp at hlen; omega)]
        rfl
  · -- object rest mode
    intro ms rest h1 h2 hlen
    cases n with
    | zero => omega
    | succ k =>
      rw [parseF_objRest]
      cases ms with
      | nil =>
        rw [show membersTail [] = [] from by simp [membersTail]]
        simp only [List.nil_append, objRestStep]
        rw [skipWsL_cons_of_not_ws rest (by decide)]
        simp
      | cons m t =>
        rw [membersTail_cons] at hlen ⊢
        have hmt : memberText m = 34 :: (m.1 ++ 34 :: 58 :: renderVal m.2) := by
          simp [memberText]
        have hsk : skipWsL ((44 :: (memberText m ++ membersTail t)) ++ 125 :: rest) =
            44 :: (memberText m ++ membersTail t ++ 125 :: rest) := by
          simp only [List.cons_append, List.append_assoc]
          exact skipWsL_cons_of_not_ws _ (by decide)
        simp only [objRestStep, hsk]
        rw [if_pos trivial]
        have hsk2 : skipWsL (memberText m ++ membersTail t ++ 125 :: rest) =
            34 :: m.1 ++ 34 :: 58 :: renderVal m.2 ++ (membersTail t ++ 125 :: rest) := by
          rw [hmt]
          simp only [List.cons_append, List.append_assoc]
          exact skipWsL_cons_of_not_ws _ (by decide)
        rw [hsk2]
        have hmem := ((ih k (by omega)).2.2.2.1) m.1 m.2 (membersTail t ++ 125 :: rest)
          (h1 m (by simp)) (h2 m (by simp))
          (by rw [hmt] at hlen; simp at hlen; omega) (membersTail_boundary t rest)
        rw [hmem]
        simp only [Option.some_bind]
        rw [((ih k (by omega)).2.2.2.2.2) t rest (fun x hx => h1 x (by simp [hx]))
          (fun x hx => h2 x (by simp [hx])) (by rw [hmt] at hlen; simp at hlen; omega)]
        rfl

theorem parseFrac_le (l : List Nat) : (parseFrac l).2.length ≤ l.length := by
  cases l with
  | nil => simp [parseFrac]
  | cons c t =>
    simp only [parseFrac]
    by_cases h : c = 46
    · rw [if_pos h]
      cases ht : t.takeWhile isDigit with
      | nil => simp [ht]
      | cons d ds =>
        simp only [ht]
        have := dropWhile_len isDigit t
        simp
        omega
    · rw [if_neg h]

theorem parseNumber_len {l : List Nat} {p : List Nat × List Nat}
    (h : parseNumber l = some p) : p.2.length < l.length := by
  cases l with
  | nil => simp [parseNumber] at h
  | cons c t =>
    simp only [parseNumber] at h
    by_cases hc : c = 45
    · rw [if_pos hc] at h
      obtain ⟨q, hq, rfl⟩ := Option.map_eq_some'.mp h
      have h1 := parseIntPart_len hq
      have h2 := parseFrac_le q.2
      simp
      omega
    · rw [if_neg hc] at h
      obtain ⟨q, hq, rfl⟩ := Option.map_eq_some'.mp h
      have h1 := parseIntPart_len hq
      have h2 := parseFrac_le q.2
      simp at h1 ⊢
      omega

/-- A successful parse consumes at least one character. -/
theorem parseF_len : ∀ (n : Nat) (m : PMode) (l : List Nat) (r : POutT m × List Nat),
    parseF n m l = some r → r.2.length < l.length := by
  intro n
  induction n with
  | zero =>
    intro m l r h
    rw [parseF_zero] at h
    simp at h
  | succ n ih =>
    intro m l r h
    cases m with
    | val =>
      rw [parseF_val] at h
      cases l with
      | nil => simp [valStep] at h
      | cons c t =>
        simp only [valStep] at h
        split_ifs at h with h1 h2 h3 h4 h5 h6
        · obtain ⟨p, hp, rfl⟩ := Option.map_eq_some'.mp h
          have := parseStringBody_len hp
          simp
          omega
        · obtain ⟨p, hp, rfl⟩ := Option.map_eq_some'.mp h
          have := ih .objBody t p hp
          simp
          omega
        · obtain ⟨p, hp, rfl⟩ := Option.map_eq_some'.mp h
          have := ih .arrBody t p hp
          simp
          omega
        · split at h
          · obtain rfl : _ = r := by simpa using h
            simp
            omega
          · simp at h
        · split at h
          · obtain rfl : _ = r := by simpa using h
            simp
            omega
          · simp at h
        · split at h
          · obtain rfl : _ = r := by simpa using h
            simp
            omega
          · simp at h
        · obtain ⟨p, hp, rfl⟩ := Option.map_eq_some'.mp h
          exact parseNumber_len hp
    | arrBody =>
      rw [parseF_arrBody] at h
      cases hs : skipWsL l with
      | nil => simp [arrBodyStep, hs] at h
      | cons c t =>
        have hlen : (c :: t).length ≤ l.length := hs ▸ skipWsL_len l
        simp only [arrBodyStep, hs] at h
        split_ifs at h with h1
        · obtain rfl : _ = r := by simpa using h
          simp at hlen ⊢
          omega
        · obtain ⟨p, hp, hr⟩ := Option.bind_eq_some.mp h
          obtain ⟨q, hq, rfl⟩ := Option.map_eq_some'.mp hr
          have l1 := ih .val (c :: t) p hp
          have l2 := ih .arrRest p.2 q hq
          simp at l1 hlen ⊢
          omega
    | arrRest =>
      rw [parseF_arrRest] at h
      cases hs : skipWsL l with
      | nil => simp [arrRestStep, hs] at h
      | cons c t =>
        have hlen : (c :: t).length ≤ l.length := hs ▸ skipWsL_len l
        simp only [arrRestStep, hs] at h
        split_ifs at h with h1 h2
        · obtain rfl : _ = r := by simpa using h
          simp at hlen ⊢
          omega
        · obtain ⟨p, hp, hr⟩ := Option.bind_eq_some.mp h
          obtain ⟨q, hq, rfl⟩ := Option.map_eq_some'.mp hr
          have l1 := ih .val (skipWsL t) p hp
          have l2 := ih .arrRest p.2 q hq
          have l3 := skipWsL_len t
          simp at l1 hlen ⊢
          omega
    | member =>
      rw [parseF_member] at h
      cases l with
      | nil => simp [memberStep] at h
      | cons c t =>
        simp only [memberStep] at h
        split_ifs at h with h1
        · obtain ⟨k, hk, hr⟩ := Option.bind_eq_some.mp h
          have lk := parseStringBody_len hk
          cases hs : skipWsL k.2 with
          | nil => rw [hs] at hr; simp at hr
          | cons c2 r2 =>
            have hlen2 : (c2 :: r2).length ≤ k.2.length := hs ▸ skipWsL_len k.2
            rw [hs] at hr
            simp only at hr
            split_ifs at hr with h2
            · obtain ⟨p, hp, rfl⟩ := Option.map_eq_some'.mp hr
              have l1 := ih .val (skipWsL r2) p hp
              have l2 := skipWsL_len r2
              simp at hlen2 ⊢
              omega
    | objBody =>
      rw [parseF_objBody] at h
      cases hs : skipWsL l with
      | nil => simp [objBodyStep, hs] at h
      | cons c t =>
        have hlen : (c :: t).length ≤ l.length := hs ▸ skipWsL_len l
        simp only [objBodyStep, hs] at h
        split_ifs at h with h1
        · obtain rfl : _ = r := by simpa using h
          simp at hlen ⊢
          omega
        · obtain ⟨p, hp, hr⟩ := Option.bind_eq_some.mp h
          obtain ⟨q, hq, rfl⟩ := Option.map_eq_some'.mp hr
          have l1 := ih .member (c :: t) p hp
          have l2 := ih .objRest p.2 q hq
          simp at l1 hlen ⊢
          omega
    | objRest =>
      rw [parseF_objRest] at h
      cases hs : skipWsL l with
      | nil => simp [objRestStep, hs] at h
      | cons c t =>
        have hlen : (c :: t).length ≤ l.length := hs ▸ skipWsL_len l
        simp only [objRestStep, hs] at h
        split_ifs at h with h1 h2
        · obtain rfl : _ = r := by simpa using h
          simp at hlen ⊢
          omega
        · obtain ⟨p, hp, hr⟩ := Option.bind_eq_some.mp h
          obtain ⟨q, hq, rfl⟩ := Option.map_eq_some'.mp hr
          have l1 := ih .member (skipWsL t) p hp
          have l2 := ih .objRest p.2 q hq
          have l3 := skipWsL_len t
          simp at l1 hlen ⊢
          omega

/-- Skip the whitespace the outer loop of `iter_json_array` skips
(`buffer[pos].isspace()`). -/
def skipPyWs (l : List Nat) : List Nat := l.dropWhile (fun c => isPySpace c)

/-- The inner `while True` loop of `iter_json_array` on one buffer: skip
whitespace; skip `[` and `,`; stop scanning at `]` (the generator returns);
otherwise try `raw_decode` — on success yield the value and continue past it,
on `JSONDecodeError` stop and report the unconsumed tail (the buffer is then
trimmed to `buffer[pos:]`).  Returns the values yielded by this pass and
`none` when `]` was reached (generator done) or `some tail` when the pass
stalled with `tail` left unconsumed. -/
def innerScan (buf : List Nat) : List JVal × Option (List Nat) :=
  match h : skipPyWs buf with
  | [] => ([], some [])
  | c :: t =>
    if c = 91 ∨ c = 44 then innerScan t
    else if c = 93 then ([], none)
    else
      match hp : parseVal (2 * (c :: t).length + 2) (c :: t) with
      | some p => (p.1 :: (innerScan p.2).1, (innerScan p.2).2)
      | none => ([], some (c :: t))
termination_by buf.length
decreasing_by
  · have h1 := dropWhile_len (fun c => isPySpace c) buf
    rw [show buf.dropWhile (fun c => isPySpace c) = skipPyWs buf from rfl, h] at h1
    simp at h1
    omega
  · have h1 := dropWhile_len (fun c => isPySpace c) buf
    rw [show buf.dropWhile (fun c => isPySpace c) = skipPyWs buf from rfl, h] at h1
    have h2 := parseF_len (2 * (c :: t).length + 2) .val (c :: t) p hp
    simp at h1 h2
    omega

/-- The outer loop of `iter_json_array`: feed the reads of the decompressed
text one chunk at a time into the buffer, run the inner scan, trim the buffer
to the unconsumed tail, and stop either when `]` is reached (second component
`true`) or when the stream is exhausted and the last pass over the remaining
buffer still cannot make progress (second component `false` — the generator
just ends).  The chunk list is the sequence of non-empty `stream.read` results
before end of file. -/
def iterJsonArray : List (List Nat) → List Nat → List JVal × Bool
  | [], buf => ((innerScan buf).1, (innerScan buf).2.isNone)
  | c :: rest, buf =>
    match innerScan (buf ++ c) with
    | (ys, none) => (ys, true)
    | (ys, some tail) =>
      ((ys ++ (iterJsonArray rest tail).1), (iterJsonArray rest tail).2)

theorem parseF_val_nil (n : Nat) : parseF n .val [] = none := by
  cases n with
  | zero => rfl
  | succ k => rfl

theorem parseF_arrBody_nil (n : Nat) : parseF n .arrBody [] = none := by
  cases n with
  | zero => rfl
  | succ k => rfl

theorem parseF_arrRest_nil (n : Nat) : parseF n .arrRest [] = none := by
  cases n with
  | zero => rfl
  | succ k => rfl

theorem parseF_arrRest_dot (n : Nat) : parseF n .arrRest [46] = none := by
  cases n with
  | zero => rfl
  | succ k => rfl

theorem parseF_member_nil (n : Nat) : parseF n .member [] = none := by
  cases n with
  | zero => rfl
  | succ k => rfl

theorem parseF_objBody_nil (n : Nat) : parseF n .objBody [] = none := by
  cases n with
  | zero => rfl
  | succ k => rfl

theorem parseF_objRest_nil (n : Nat) : parseF n .objRest [] = none := by
  cases n with
  | zero => rfl
  | succ k => rfl

theorem parseF_objRest_dot (n : Nat) : parseF n .objRest [46] = none := by
  cases n with
  | zero => rfl
  | succ k => rfl

theorem strOk_of_append_left {a b : List Nat} (h : strOk (a ++ b)) : strOk a :=
  fun c hc => h c (by simp [hc])

theorem digitsOk_of_append_left {a b : List Nat} (h : digitsOk (a ++ b)) : digitsOk a :=
  fun c hc => h c (by simp [hc])

/-- A successful parse of a rendered value followed by a boundary suffix can
only be the value itself (fuel monotonicity plus the round trip). -/
theorem parse_render_unique {k : Nat} {v : JVal} {rest : List Nat} {r : JVal × List Nat}
    (hwf : Wf v) (hb : numBoundary rest)
    (h : parseF k .val (renderVal v ++ rest) = some r) : r = (v, rest) := by
  have hN : parseF (max k (renderVal v).length) .val (renderVal v ++ rest) = some r :=
    parseF_mono_le (Nat.le_max_left _ _) .val _ r h
  have hrt := (parseF_rt (max k (renderVal v).length)).1 v rest hwf
    (Nat.le_max_right _ _) hb
  rw [hrt] at hN
  simpa using hN.symm

/-- A successful parse of a rendered member followed by a boundary suffix can
only be the member itself. -/
theorem parse_member_unique {kk : Nat} {k1 : List Nat} {v : JVal} {rest : List Nat}
    {r : (List Nat × JVal) × List Nat} (hk : strOk k1) (hwf : Wf v) (hb : numBoundary rest)
    (h : parseF kk .member (34 :: k1 ++ 34 :: 58 :: renderVal v ++ rest) = some r) :
    r = ((k1, v), rest) := by
  have hN : parseF (max kk (k1.length + (renderVal v).length + 3)) .member
      (34 :: k1 ++ 34 :: 58 :: renderVal v ++ rest) = some r :=
    parseF_mono_le (Nat.le_max_left _ _) .member _ r h
  have hrt := (parseF_rt (max kk (k1.length + (renderVal v).length + 3))).2.2.2.1 k1 v rest
    hk hwf (Nat.le_max_right _ _) hb
  rw [hrt] at hN
  simpa using hN.symm

/-- What `parseFrac` does on a proper prefix of a well-formed fraction part:
it consumes the whole prefix, or leaves exactly a lone dot. -/
theorem parseFrac_prefix {fp P Q : List Nat} (hfp : fracOkP fp) (h : fp = P ++ Q)
    (hQ : Q ≠ []) : parseFrac P = (P, []) ∨ (P ≠ [] ∧ parseFrac P = (P.dropLast, [46]) ∧
      P.getLast? = some 46) ∨ (P = [] ∧ parseFrac P = ([], [])) := by
  rcases hfp with rfl | ⟨e, es, rfl, he, hes⟩
  · obtain ⟨rfl, rfl⟩ := List.append_eq_nil.mp h.symm
    exact absurd rfl hQ
  · cases P with
    | nil => exact Or.inr (Or.inr ⟨rfl, by simp [parseFrac]⟩)
    | cons c P1 =>
      obtain ⟨rfl, h2⟩ : 46 = c ∧ e :: es = P1 ++ Q := by
        simpa using h
      cases P1 with
      | nil =>
        refine Or.inr (Or.inl ⟨by simp, ?_, by simp⟩)
        simp [parseFrac]
      | cons d ds =>
        obtain ⟨heq, h3⟩ : e = d ∧ es = ds ++ Q :=
          ⟨(List.cons_eq_cons.mp h2).1, (List.cons_eq_cons.mp h2).2⟩
        have hds : digitsOk (d :: ds) := by
          intro x hx
          rcases List.mem_cons.mp hx with rfl | hx
          · rw [← heq]
            exact he
          · exact hes x (h3 ▸ List.mem_append_left Q hx)
        have hspan := @digits_span (d :: ds) [] hds (by simp)
        simp only [List.append_nil] at hspan
        left
        simp only [parseFrac, if_pos rfl]
        rw [hspan.1, hspan.2]
        simp

/-- Core of the number-prefix analysis: scanning a non-empty proper prefix of
a well-formed (unsigned) number literal succeeds and leaves either nothing or
a lone dot unconsumed. -/
theorem intFrac_prefix {ip fp P1 Q : List Nat} (hip : intPartOkP ip) (hfp : fracOkP fp)
    (h : ip ++ fp = P1 ++ Q) (hQ : Q ≠ []) (hP : P1 ≠ []) :
    ∃ ipl r1, parseIntPart P1 = some (ipl, r1) ∧
      ((parseFrac r1).2 = [] ∨ (parseFrac r1).2 = [46]) := by
  rcases hip with rfl | ⟨d, ds, rfl, hd1, hd2, hds⟩
  · -- ip = [48]
    cases P1 with
    | nil => exact absurd rfl hP
    | cons c P2 =>
      obtain ⟨rfl, h2⟩ : (48 : Nat) = c ∧ fp = P2 ++ Q := by
        rw [List.cons_append] at h
        simpa using h
      refine ⟨[48], P2, by simp [parseIntPart], ?_⟩
      rcases parseFrac_prefix hfp h2 hQ with h3 | ⟨_, h3, _⟩ | ⟨_, h3⟩ <;> simp [h3]
  · -- ip = d :: ds
    cases P1 with
    | nil => exact absurd rfl hP
    | cons c P2 =>
      obtain ⟨rfl, h2⟩ : d = c ∧ ds ++ fp = P2 ++ Q := by
        rw [List.cons_append] at h
        simpa using h
      have hd48 : d ≠ 48 := by omega
      have hdd : isDigit d = true := by simp [isDigit]; omega
      rcases List.append_eq_append_iff.mp h2 with ⟨w, hw1, hw2⟩ | ⟨w, hw1, hw2⟩
      · -- P2 = ds ++ w, fp = w ++ Q
        cases w with
        | nil =>
          subst hw1
          have hspan := @digits_span ds [] hds (by simp)
          refine ⟨d :: ds, [], ?_, by simp [parseFrac]⟩
          simp only [parseIntPart, if_neg hd48, if_pos hdd]
          simp only [List.append_nil] at hspan
          rw [List.append_nil, hspan.1, hspan.2]
        | cons w0 w1 =>
          have hw0 : w0 = 46 := by
            rcases hfp with rfl | ⟨e, es, hfp2, _, _⟩
            · simp at hw2
            · rw [hfp2] at hw2
              exact ((List.cons_eq_cons.mp hw2).1).symm
          subst hw0
          have hspan := @digits_span ds (46 :: w1) hds
            (by intro x hx; simp at hx; subst hx; decide)
          subst hw1
          refine ⟨d :: ds, 46 :: w1, ?_, ?_⟩
          · simp only [parseIntPart, if_neg hd48, if_pos hdd]
            rw [hspan.1, hspan.2]
          · rcases parseFrac_prefix hfp hw2 hQ with h3 | ⟨_, h3, _⟩ | ⟨hne, _⟩
            · simp [h3]
            · simp [h3]
            · simp at hne
      · -- ds = P2 ++ w, Q = w ++ fp
        have hP2 : digitsOk P2 := digitsOk_of_append_left (hw1 ▸ hds)
        have hspan := @digits_span P2 [] hP2 (by simp)
        simp only [List.append_nil] at hspan
        refine ⟨d :: P2, [], ?_, by simp [parseFrac]⟩
        simp only [parseIntPart, if_neg hd48, if_pos hdd]
        rw [hspan.1, hspan.2]

/-- Scanning a proper prefix of a well-formed number literal: the prefix is
empty, a lone minus sign, or parses as a number leaving nothing or a lone dot. -/
theorem parseNumber_prefix {lit P Q : List Nat} (h : numLitOkP lit) (hPQ : lit = P ++ Q)
    (hQ : Q ≠ []) :
    P = [] ∨ P = [45] ∨ ∃ l2 r2, parseNumber P = some (l2, r2) ∧ (r2 = [] ∨ r2 = [46]) := by
  obtain ⟨sign, ip, fp, hsign, hip, hfp, rfl⟩ := h
  rcases hsign with rfl | rfl
  · cases P with
    | nil => exact Or.inl rfl
    | cons c P1 =>
      right; right
      rw [List.nil_append] at hPQ
      have hcore := intFrac_prefix hip hfp hPQ hQ (List.cons_ne_nil c P1)
      obtain ⟨ipl, r1, hint, hfr⟩ := hcore
      have hc45 : c ≠ 45 := by
        have : (ip ++ fp).head? = some c := by rw [hPQ]; simp
        rcases hip with rfl | ⟨d, ds, rfl, hd1, hd2, _⟩
        · simp at this
          omega
        · simp at this
          omega
      refine ⟨ipl ++ (parseFrac r1).1, (parseFrac r1).2, ?_, hfr⟩
      simp only [parseNumber, if_neg hc45]
      rw [hint]
      rfl
  · cases P with
    | nil => exact Or.inl rfl
    | cons c P1 =>
      obtain ⟨rfl, h2⟩ : (45 : Nat) = c ∧ ip ++ fp = P1 ++ Q := by
        rw [List.cons_append] at hPQ
        simpa using hPQ
      rcases P1 with _ | ⟨e, P2⟩
      · exact Or.inr (Or.inl rfl)
      · right; right
        have hcore := intFrac_prefix hip hfp h2 hQ (by simp)
        obtain ⟨ipl, r1, hint, hfr⟩ := hcore
        refine ⟨45 :: (ipl ++ (parseFrac r1).1), (parseFrac r1).2, ?_, hfr⟩
        simp only [parseNumber, if_pos rfl]
        rw [hint]
        rfl

theorem numBoundary_of_append {w q : List Nat} (h : numBoundary (w ++ q)) :
    numBoundary w := by
  intro c hc
  cases w with
  | nil => simp at hc
  | cons a t =>
    have ha : a = c := by simpa using hc
    subst ha
    exact h a (by simp)

/-- The weak form of the value-prefix property used by the chain helpers. -/
def PfValWeak (k : Nat) : Prop :=
  ∀ v P Q, Wf v → renderVal v = P ++ Q → Q ≠ [] →
    parseF k .val P = none ∨ ∃ v', parseF k .val P = some (v', ([] : List Nat)) ∨
      parseF k .val P = some (v', [46])

/-- The array-rest prefix property. -/
def PfArrRest (k : Nat) : Prop :=
  ∀ xs P Q, (∀ v ∈ xs, Wf v) → elemsTail xs ++ [93] = P ++ Q → Q ≠ [] →
    parseF k .arrRest P = none

/-- The member prefix property (weak form). -/
def PfMemWeak (k : Nat) : Prop :=
  ∀ k1 v P Q, strOk k1 → Wf v → 34 :: k1 ++ 34 :: 58 :: renderVal v = P ++ Q → Q ≠ [] →
    parseF k .member P = none ∨ ∃ m', parseF k .member P = some (m', ([] : List Nat)) ∨
      parseF k .member P = some (m', [46])

/-- The object-rest prefix property. -/
def PfObjRest (k : Nat) : Prop :=
  ∀ ms P Q, (∀ m ∈ ms, strOk m.1) → (∀ m ∈ ms, Wf m.2) →
    membersTail ms ++ [125] = P ++ Q → Q ≠ [] → parseF k .objRest P = none

/-- A cut anywhere inside `element ⬝ rest-of-array` makes the
value-then-array-rest chain fail. -/
theorem chainArr {k : Nat} {x : JVal} {t : List JVal} {P2 Q : List Nat}
    (ihval : PfValWeak k) (ihrest : PfArrRest k)
    (hwf : Wf x) (ht : ∀ v ∈ t, Wf v)
    (hPQ : P2 ++ Q = renderVal x ++ (elemsTail t ++ [93])) (hQ : Q ≠ []) :
    (parseF k .val P2).bind (fun p => (parseF k .arrRest p.2).map
      (fun q => (p.1 :: q.1, q.2))) = none := by
  cases hv : parseF k .val P2 with
  | none => rfl
  | some r =>
    rcases List.append_eq_append_iff.mp hPQ with ⟨w, hw1, hw2⟩ | ⟨w, hw1, hw2⟩
    · -- renderVal x = P2 ++ w
      cases w with
      | nil =>
        rw [List.append_nil] at hw1
        have hr : r = (x, []) := parse_render_unique hwf numBoundary_nil
          (by rw [List.append_nil, hw1]; exact hv)
        subst hr
        simp [parseF_arrRest_nil]
      | cons w0 w1 =>
        rcases ihval x P2 (w0 :: w1) hwf hw1 (by simp) with hnone | ⟨v', h1 | h1⟩
        · rw [hv] at hnone
          exact absurd hnone (by simp)
        · rw [hv] at h1
          obtain rfl := Option.some_inj.mp h1.symm
          simp [parseF_arrRest_nil]
        · rw [hv] at h1
          obtain rfl := Option.some_inj.mp h1.symm
          simp [parseF_arrRest_dot]
    · -- P2 = renderVal x ++ w
      have hbw : numBoundary w :=
        @numBoundary_of_append w Q
          (by rw [← hw2]; exact elemsTail_boundary t [])
      have hr : r = (x, w) := parse_render_unique hwf hbw (by rw [← hw1]; exact hv)
      subst hr
      simp [ihrest t w Q ht hw2 hQ]

/-- A cut anywhere inside `member ⬝ rest-of-object` makes the
member-then-object-rest chain fail. -/
theorem chainObj {k : Nat} {m : List Nat × JVal} {t : List (List Nat × JVal)}
    {P2 Q : List Nat}
    (ihmem : PfMemWeak k) (ihrest : PfObjRest k)
    (hk : strOk m.1) (hv : Wf m.2)
    (h1 : ∀ x ∈ t, strOk x.1) (h2 : ∀ x ∈ t, Wf x.2)
    (hPQ : P2 ++ Q = memberText m ++ (membersTail t ++ [125])) (hQ : Q ≠ []) :
    (parseF k .member P2).bind (fun p => (parseF k .objRest p.2).map
      (fun q => (p.1 :: q.1, q.2))) = none := by
  have hmt : memberText m = 34 :: m.1 ++ 34 :: 58 :: renderVal m.2 := by
    simp [memberText]
  cases hm : parseF k .member P2 with
  | none => rfl
  | some r =>
    rcases List.append_eq_append_iff.mp hPQ with ⟨w, hw1, hw2⟩ | ⟨w, hw1, hw2⟩
    · -- memberText m = P2 ++ w
      cases w with
      | nil =>
        rw [List.append_nil] at hw1
        have hr : r = (m, []) := by
          refine @parse_member_unique k _ _ _ _ hk hv numBoundary_nil ?_
          rw [show (34 :: m.1 ++ 34 :: 58 :: renderVal m.2 ++ ([] : List Nat)) =
            memberText m from by simp [memberText], hw1]
          exact hm
        subst hr
        simp [parseF_objRest_nil]
      | cons w0 w1 =>
        rcases ihmem m.1 m.2 P2 (w0 :: w1) hk hv (by rw [← hmt, hw1]) (by simp) with
          hnone | ⟨m', hh | hh⟩
        · rw [hm] at hnone
          exact absurd hnone (by simp)
        · rw [hm] at hh
          obtain rfl := Option.some_inj.mp hh.symm
          simp [parseF_objRest_nil]
        · rw [hm] at hh
          obtain rfl := Option.some_inj.mp hh.symm
          simp [parseF_objRest_dot]
    · -- P2 = memberText m ++ w
      have hbw : numBoundary w :=
        @numBoundary_of_append w Q
          (by rw [← hw2]; exact membersTail_boundary t [])
      have hr : r = (m, w) := by
        refine @parse_member_unique k _ _ _ _ hk hv hbw ?_
        rw [show (34 :: m.1 ++ 34 :: 58 :: renderVal m.2 ++ w) =
          memberText m ++ w from by simp [memberText], ← hw1]
        exact hm
      subst hr
      simp [ihrest t w Q h1 h2 hw2 hQ]

theorem pf_lit_null : ∀ (n : Nat) (P Q : List Nat), [110, 117, 108, 108] = P ++ Q →
    Q ≠ [] → parseF n .val P = none := by
  intro n P Q hPQ hQ
  rcases P with _ | ⟨a, _ | ⟨b, _ | ⟨c, _ | ⟨d, P5⟩⟩⟩⟩
  · exact parseF_val_nil n
  · obtain ⟨rfl, -⟩ : (110 : Nat) = a ∧ [117, 108, 108] = Q := by simpa using hPQ
    cases n with
    | zero => rfl
    | succ k => rfl
  · obtain ⟨rfl, rfl, -⟩ : (110 : Nat) = a ∧ (117 : Nat) = b ∧ [108, 108] = Q := by
      simpa using hPQ
    cases n with
    | zero => rfl
    | succ k => rfl
  · obtain ⟨rfl, rfl, rfl, -⟩ :
        (110 : Nat) = a ∧ (117 : Nat) = b ∧ (108 : Nat) = c ∧ [108] = Q := by
      simpa using hPQ
    cases n with
    | zero => rfl
    | succ k => rfl
  · exfalso
    obtain ⟨-, -, -, -, h5⟩ :
        (110 : Nat) = a ∧ (117 : Nat) = b ∧ (108 : Nat) = c ∧ (108 : Nat) = d ∧
          [] = P5 ++ Q := by simpa using hPQ
    obtain ⟨-, rfl⟩ := List.append_eq_nil.mp h5.symm
    exact hQ rfl

theorem pf_lit_true : ∀ (n : Nat) (P Q : List Nat), [116, 114, 117, 101] = P ++ Q →
    Q ≠ [] → parseF n .val P = none := by
  intro n P Q hPQ hQ
  rcases P with _ | ⟨a, _ | ⟨b, _ | ⟨c, _ | ⟨d, P5⟩⟩⟩⟩
  · exact parseF_val_nil n
  · obtain ⟨rfl, -⟩ : (116 : Nat) = a ∧ [114, 117, 101] = Q := by simpa using hPQ
    cases n with
    | zero => rfl
    | succ k => rfl
  · obtain ⟨rfl, rfl, -⟩ : (116 : Nat) = a ∧ (114 : Nat) = b ∧ [117, 101] = Q := by
      simpa using hPQ
    cases n with
    | zero => rfl
    | succ k => rfl
  · obtain ⟨rfl, rfl, rfl, -⟩ :
        (116 : Nat) = a ∧ (114 : Nat) = b ∧ (117 : Nat) = c ∧ [101] = Q := by
      simpa using hPQ
    cases n with
    | zero => rfl
    | succ k => rfl
  · exfalso
    obtain ⟨-, -, -, -, h5⟩ :
        (116 : Nat) = a ∧ (114 : Nat) = b ∧ (117 : Nat) = c ∧ (101 : Nat) = d ∧
          [] = P5 ++ Q := by simpa using hPQ
    obtain ⟨-, rfl⟩ := List.append_eq_nil.mp h5.symm
    exact hQ rfl

theorem pf_lit_false : ∀ (n : Nat) (P Q : List Nat), [102, 97, 108, 115, 101] = P ++ Q →
    Q ≠ [] → parseF n .val P = none := by
  intro n P Q hPQ hQ
  rcases P with _ | ⟨a, _ | ⟨b, _ | ⟨c, _ | ⟨d, _ | ⟨e, P6⟩⟩⟩⟩⟩
  · exact parseF_val_nil n
  · obtain ⟨rfl, -⟩ : (102 : Nat) = a ∧ [97, 108, 115, 101] = Q := by simpa using hPQ
    cases n with
    | zero => rfl
    | succ k => rfl
  · obtain ⟨rfl, rfl, -⟩ : (102 : Nat) = a ∧ (97 : Nat) = b ∧ [108, 115, 101] = Q := by
      simpa using hPQ
    cases n with
    | zero => rfl
    | succ k => rfl
  · obtain ⟨rfl, rfl, rfl, -⟩ :
        (102 : Nat) = a ∧ (97 : Nat) = b ∧ (108 : Nat) = c ∧ [115, 101] = Q := by
      simpa using hPQ
    cases n with
    | zero => rfl
    | succ k => rfl
  · obtain ⟨rfl, rfl, rfl, rfl, -⟩ :
        (102 : Nat) = a ∧ (97 : Nat) = b ∧ (108 : Nat) = c ∧ (115 : Nat) = d ∧
          [101] = Q := by simpa using hPQ
    cases n with
    | zero => rfl
    | succ k => rfl
  · exfalso
    obtain ⟨-, -, -, -, -, h6⟩ :
        (102 : Nat) = a ∧ (97 : Nat) = b ∧ (108 : Nat) = c ∧ (115 : Nat) = d ∧
          (101 : Nat) = e ∧ [] = P6 ++ Q := by simpa using hPQ
    obtain ⟨-, rfl⟩ := List.append_eq_nil.mp h6.symm
    exact hQ rfl

/-- Scanning any proper prefix of rendered well-formed input fails (or, for a
prefix that ends inside a number literal or just after one, succeeds consuming
the whole prefix except possibly a lone trailing dot).  All six modes, by
strong induction on the fuel; the conclusion holds for every fuel. -/
theorem parseF_pf : ∀ n : Nat,
    (∀ v P Q, Wf v → renderVal v = P ++ Q → Q ≠ [] →
      parseF n .val P = none ∨ ∃ lit v', v = JVal.num lit ∧
        (parseF n .val P = some (v', ([] : List Nat)) ∨
          parseF n .val P = some (v', [46]))) ∧
    (∀ xs P Q, (∀ v ∈ xs, Wf v) → renderElems xs ++ [93] = P ++ Q → Q ≠ [] →
      parseF n .arrBody P = none) ∧
    (∀ xs P Q, (∀ v ∈ xs, Wf v) → elemsTail xs ++ [93] = P ++ Q → Q ≠ [] →
      parseF n .arrRest P = none) ∧
    (∀ k1 v P Q, strOk k1 → Wf v → 34 :: k1 ++ 34 :: 58 :: renderVal v = P ++ Q →
      Q ≠ [] → parseF n .member P = none ∨ ∃ m', parseF n .member P = some (m', ([] : List Nat)) ∨
        parseF n .member P = some (m', [46])) ∧
    (∀ ms P Q, (∀ m ∈ ms, strOk m.1) → (∀ m ∈ ms, Wf m.2) →
      renderMembers ms ++ [125] = P ++ Q → Q ≠ [] → parseF n .objBody P = none) ∧
    (∀ ms P Q, (∀ m ∈ ms, strOk m.1) → (∀ m ∈ ms, Wf m.2) →
      membersTail ms ++ [125] = P ++ Q → Q ≠ [] → parseF n .objRest P = none) := by
  intro n
  induction n using Nat.strong_induction_on with
  | _ n ih =>
  have ihvalweak : ∀ k, k < n → PfValWeak k := by
    intro k hk v P Q hwf hPQ hQ
    rcases (ih k hk).1 v P Q hwf hPQ hQ with hnone | ⟨lit, v', -, hh⟩
    · exact Or.inl hnone
    · exact Or.inr ⟨v', hh⟩
  refine ⟨?_, ?_, ?_, ?_, ?_, ?_⟩
  · -- value mode
    intro v P Q hwf hPQ hQ
    cases hwf with
    | null =>
      rw [show renderVal JVal.null = [110, 117, 108, 108] from by simp [renderVal]] at hPQ
      exact Or.inl (pf_lit_null n P Q hPQ hQ)
    | bool b =>
      cases b
      · rw [show renderVal (JVal.bool false) = [102, 97, 108, 115, 101] from by
          simp [renderVal]] at hPQ
        exact Or.inl (pf_lit_false n P Q hPQ hQ)
      · rw [show renderVal (JVal.bool true) = [116, 114, 117, 101] from by
          simp [renderVal]] at hPQ
        exact Or.inl (pf_lit_true n P Q hPQ hQ)
    | num lit hlit =>
      rw [show renderVal (JVal.num lit) = lit from by simp [renderVal]] at hPQ
      rcases parseNumber_prefix hlit hPQ hQ with rfl | rfl | ⟨l2, r2, hp, hr2⟩
      · exact Or.inl (parseF_val_nil n)
      · left
        cases n with
        | zero => rfl
        | succ k => rfl
      · cases n with
        | zero => exact Or.inl rfl
        | succ k =>
          right
          refine ⟨lit, JVal.num l2, rfl, ?_⟩
          obtain ⟨c, P1, rfl⟩ : ∃ c P1, P = c :: P1 := by
            cases P with
            | nil => simp [parseNumber] at hp
            | cons c P1 => exact ⟨c, P1, rfl⟩
          have hhead : c = 45 ∨ isDigit c = true := by
            obtain ⟨c2, t2, hct, hc2⟩ := numLit_head hlit
            rw [hct] at hPQ
            obtain rfl : c2 = c := by simpa using (List.cons_eq_cons.mp hPQ).1
            exact hc2
          have hcs : c ≠ 34 ∧ c ≠ 123 ∧ c ≠ 91 ∧ c ≠ 110 ∧ c ≠ 116 ∧ c ≠ 102 := by
            rcases hhead with rfl | hd
            · exact ⟨by decide, by decide, by decide, by decide, by decide, by decide⟩
            · simp [isDigit] at hd
              omega
          have hv : parseF (k + 1) .val (c :: P1) = some (JVal.num l2, r2) := by
            rw [parseF_val]
            simp only [valStep]
            rw [if_neg hcs.1, if_neg hcs.2.1, if_neg hcs.2.2.1, if_neg hcs.2.2.2.1,
              if_neg hcs.2.2.2.2.1, if_neg hcs.2.2.2.2.2, hp]
            rfl
          rcases hr2 with rfl | rfl
          · exact Or.inl hv
          · exact Or.inr hv
    | str s hs =>
      rw [show renderVal (JVal.str s) = 34 :: s ++ [34] from by simp [renderVal]] at hPQ
      left
      rcases P with _ | ⟨c, P1⟩
      · exact parseF_val_nil n
      · obtain ⟨rfl, h2⟩ : (34 : Nat) = c ∧ s ++ [34] = P1 ++ Q := by simpa using hPQ
        cases n with
        | zero => rfl
        | succ k =>
          rw [parseF_val]
          have hnone : parseStringBody P1 = none := by
            rcases List.append_eq_append_iff.mp h2 with ⟨w, hw1, hw2⟩ | ⟨w, hw1, hw2⟩
            · -- P1 = s ++ w, [34] = w ++ Q
              cases w with
              | nil =>
                rw [List.append_nil] at hw1
                subst hw1
                exact parseStringBody_unterminated P1 hs
              | cons w0 w1 =>
                exfalso
                obtain ⟨-, h3⟩ : (34 : Nat) = w0 ∧ [] = w1 ++ Q := by simpa using hw2
                obtain ⟨-, rfl⟩ := List.append_eq_nil.mp h3.symm
                exact hQ rfl
            · -- s = P1 ++ w
              exact parseStringBody_unterminated P1 (strOk_of_append_left (hw1 ▸ hs))
          simp [valStep, hnone]
    | arr xs hxs =>
      rw [show renderVal (JVal.arr xs) = 91 :: (renderElems xs ++ [93]) from by
        simp [renderVal]] at hPQ
      left
      rcases P with _ | ⟨c, P1⟩
      · exact parseF_val_nil n
      · obtain ⟨rfl, h2⟩ : (91 : Nat) = c ∧ renderElems xs ++ [93] = P1 ++ Q := by
          simpa using hPQ
        cases n with
        | zero => rfl
        | succ k =>
          rw [parseF_val]
          have := (ih k (by omega)).2.1 xs P1 Q hxs h2 hQ
          simp [valStep, this]
    | obj ms h1 h2 =>
      rw [show renderVal (JVal.obj ms) = 123 :: (renderMembers ms ++ [125]) from by
        simp [renderVal]] at hPQ
      left
      rcases P with _ | ⟨c, P1⟩
      · exact parseF_val_nil n
      · obtain ⟨rfl, h3⟩ : (123 : Nat) = c ∧ renderMembers ms ++ [125] = P1 ++ Q := by
          simpa using hPQ
        cases n with
        | zero => rfl
        | succ k =>
          rw [parseF_val]
          have := (ih k (by omega)).2.2.2.2.1 ms P1 Q h1 h2 h3 hQ
          simp [valStep, this]
  · -- array body mode
    intro xs P Q hxs hPQ hQ
    cases n with
    | zero => rfl
    | succ k =>
      cases xs with
      | nil =>
        rw [show renderElems [] = [] from by simp [renderElems], List.nil_append] at hPQ
        obtain rfl : P = [] := by
          rcases P with _ | ⟨a, P1⟩
          · rfl
          · exfalso
            obtain ⟨-, h3⟩ : (93 : Nat) = a ∧ [] = P1 ++ Q := by simpa using hPQ
            obtain ⟨-, rfl⟩ := List.append_eq_nil.mp h3.symm
            exact hQ rfl
        exact parseF_arrBody_nil _
      | cons x t =>
        rw [renderElems_cons, List.append_assoc] at hPQ
        rcases P with _ | ⟨c, P1⟩
        · exact parseF_arrBody_nil _
        · obtain ⟨c2, tl, hct, hgood⟩ := renderVal_head (hxs x (by simp))
          have hprops := goodHead_props hgood
          obtain rfl : c = c2 := by
            rw [hct] at hPQ
            exact ((List.cons_eq_cons.mp (by simpa using hPQ)).1).symm
          rw [parseF_arrBody]
          have hsk : skipWsL (c :: P1) = c :: P1 := skipWsL_cons_of_not_ws _ hprops.1
          simp only [arrBodyStep, hsk]
          rw [if_neg hprops.2.2.1]
          exact chainArr (ihvalweak k (by omega)) ((ih k (by omega)).2.2.1)
            (hxs x (by simp)) (fun v hv => hxs v (by simp [hv]))
            hPQ.symm hQ
  · -- array rest mode
    intro xs P Q hxs hPQ hQ
    cases n with
    | zero => rfl
    | succ k =>
      cases xs with
      | nil =>
        rw [show elemsTail [] = [] from by simp [elemsTail], List.nil_append] at hPQ
        obtain rfl : P = [] := by
          rcases P with _ | ⟨a, P1⟩
          · rfl
          · exfalso
            obtain ⟨-, h3⟩ : (93 : Nat) = a ∧ [] = P1 ++ Q := by simpa using hPQ
            obtain ⟨-, rfl⟩ := List.append_eq_nil.mp h3.symm
            exact hQ rfl
        exact parseF_arrRest_nil _
      | cons x t =>
        rw [elemsTail_cons] at hPQ
        rw [show (44 :: (renderVal x ++ elemsTail t)) ++ [93] =
          44 :: (renderVal x ++ (elemsTail t ++ [93])) from by simp] at hPQ
        rcases P with _ | ⟨c, P1⟩
        · exact parseF_arrRest_nil _
        · obtain ⟨rfl, h2⟩ : (44 : Nat) = c ∧
              renderVal x ++ (elemsTail t ++ [93]) = P1 ++ Q := by simpa using hPQ
          rw [parseF_arrRest]
          have hsk : skipWsL (44 :: P1) = 44 :: P1 := skipWsL_cons_of_not_ws _ (by decide)
          simp only [arrRestStep, hsk]
          rw [if_pos trivial]
          cases P1 with
          | nil =>
            rw [skipWsL_nil]
            simp [parseF_val_nil]
          | cons c2 P2 =>
            obtain ⟨c3, tl, hct, hgood⟩ := renderVal_head (hxs x (by simp))
            have hprops := goodHead_props hgood
            obtain rfl : c2 = c3 := by
              rw [hct] at h2
              exact ((List.cons_eq_cons.mp (by simpa using h2)).1).symm
            rw [skipWsL_cons_of_not_ws _ hprops.1]
            exact chainArr (ihvalweak k (by omega)) ((ih k (by omega)).2.2.1)
              (hxs x (by simp)) (fun v hv => hxs v (by simp [hv])) h2.symm hQ
  · -- member mode
    intro k1 v P Q hk hwf hPQ hQ
    cases n with
    | zero => exact Or.inl rfl
    | succ kk =>
      rcases P with _ | ⟨c, P1⟩
      · exact Or.inl (parseF_member_nil _)
      · obtain ⟨rfl, h2⟩ : (34 : Nat) = c ∧ k1 ++ (34 :: 58 :: renderVal v) = P1 ++ Q := by
          rw [show (34 : Nat) :: k1 ++ 34 :: 58 :: renderVal v =
            34 :: (k1 ++ (34 :: 58 :: renderVal v)) from by simp] at hPQ
          simpa using hPQ
        rw [parseF_member]
        simp only [memberStep]
        rw [if_pos trivial]
        rcases List.append_eq_append_iff.mp h2 with ⟨w, hw1, hw2⟩ | ⟨w, hw1, hw2⟩
        · -- P1 = k1 ++ w, 34 :: 58 :: renderVal v = w ++ Q
          cases w with
          | nil =>
            rw [List.append_nil] at hw1
            subst hw1
            rw [parseStringBody_unterminated P1 hk]
            exact Or.inl rfl
          | cons w0 w1 =>
            obtain ⟨rfl, hw2b⟩ : (34 : Nat) = w0 ∧ 58 :: renderVal v = w1 ++ Q := by
              simpa using hw2
            subst hw1
            rw [parseStringBody_rt k1 w1 hk]
            simp only [Option.some_bind]
            cases w1 with
            | nil =>
              rw [skipWsL_nil]
              exact Or.inl rfl
            | cons w2 w3 =>
              obtain ⟨rfl, hw3⟩ : (58 : Nat) = w2 ∧ renderVal v = w3 ++ Q := by
                simpa using hw2b
              rw [skipWsL_cons_of_not_ws _ (by decide)]
              simp only
              rw [if_pos trivial]
              cases w3 with
              | nil =>
                rw [skipWsL_nil]
                simp [parseF_val_nil]
              | cons w4 w5 =>
                obtain ⟨c5, tl, hct, hgood⟩ := renderVal_head hwf
                have hprops := goodHead_props hgood
                obtain rfl : w4 = c5 := by
                  rw [hct] at hw3
                  exact ((List.cons_eq_cons.mp hw3).1).symm
                rw [skipWsL_cons_of_not_ws _ hprops.1]
                rcases ihvalweak kk (by omega) v (w4 :: w5) Q hwf hw3 hQ with
                  hnone | ⟨v', hh | hh⟩
                · rw [hnone]
                  exact Or.inl rfl
                · rw [hh]
                  exact Or.inr ⟨(k1, v'), Or.inl rfl⟩
                · rw [hh]
                  exact Or.inr ⟨(k1, v'), Or.inr rfl⟩
        · -- k1 = P1 ++ w
          rw [parseStringBody_unterminated P1 (strOk_of_append_left (hw1 ▸ hk))]
          exact Or.inl rfl
  · -- object body mode
    intro ms P Q h1 h2 hPQ hQ
    cases n with
    | zero => rfl
    | succ k =>
      cases ms with
      | nil =>
        rw [show renderMembers [] = [] from by simp [renderMembers], List.nil_append] at hPQ
        obtain rfl : P = [] := by
          rcases P with _ | ⟨a, P1⟩
          · rfl
          · exfalso
            obtain ⟨-, h3⟩ : (125 : Nat) = a ∧ [] = P1 ++ Q := by simpa using hPQ
            obtain ⟨-, rfl⟩ := List.append_eq_nil.mp h3.symm
            exact hQ rfl
        exact parseF_objBody_nil _
      | cons m t =>
        rw [renderMembers_cons, List.append_assoc] at hPQ
        rcases P with _ | ⟨c, P1⟩
        · exact parseF_objBody_nil _
        · obtain ⟨rfl, h3⟩ : (34 : Nat) = c ∧
              m.1 ++ 34 :: 58 :: renderVal m.2 ++ (membersTail t ++ [125]) = P1 ++ Q := by
            rw [show memberText m ++ (membersTail t ++ [125]) =
              34 :: (m.1 ++ 34 :: 58 :: renderVal m.2 ++ (membersTail t ++ [125])) from by
              simp [memberText]] at hPQ
            simpa using hPQ
          rw [parseF_objBody]
          have hsk : skipWsL (34 :: P1) = 34 :: P1 := skipWsL_cons_of_not_ws _ (by decide)
          simp only [objBodyStep, hsk]
          rw [if_neg (by decide)]
          refine chainObj ((ih k (by omega)).2.2.2.1) ((ih k (by omega)).2.2.2.2.2)
            (h1 m (List.mem_cons_self m t)) (h2 m (List.mem_cons_self m t))
            (fun x hx => h1 x (List.mem_cons_of_mem m hx))
            (fun x hx => h2 x (List.mem_cons_of_mem m hx)) ?_ hQ
          rw [show memberText m ++ (membersTail t ++ [125]) =
            34 :: (m.1 ++ 34 :: 58 :: renderVal m.2 ++ (membersTail t ++ [125])) from by
            simp [memberText]]
          rw [h3]
          simp
  · -- object rest mode
    intro ms P Q h1 h2 hPQ hQ
    cases n with
    | zero => rfl
    | succ k =>
      cases ms with
      | nil =>
        rw [show membersTail [] = [] from by simp [membersTail], List.nil_append] at hPQ
        obtain rfl : P = [] := by
          rcases P with _ | ⟨a, P1⟩
          · rfl
          · exfalso
            obtain ⟨-, h3⟩ : (125 : Nat) = a ∧ [] = P1 ++ Q := by simpa using hPQ
            obtain ⟨-, rfl⟩ := List.append_eq_nil.mp h3.symm
            exact hQ rfl
        exact parseF_objRest_nil _
      | cons m t =>
        rw [membersTail_cons] at hPQ
        rw [show (44 :: (memberText m ++ membersTail t)) ++ [125] =
          44 :: (memberText m ++ (membersTail t ++ [125])) from by simp] at hPQ
        rcases P with _ | ⟨c, P1⟩
        · exact parseF_objRest_nil _
        · obtain ⟨rfl, h3⟩ : (44 : Nat) = c ∧
              memberText m ++ (membersTail t ++ [125]) = P1 ++ Q := by simpa using hPQ
          rw [parseF_objRest]
          have hsk : skipWsL (44 :: P1) = 44 :: P1 := skipWsL_cons_of_not_ws _ (by decide)
          simp only [objRestStep, hsk]
          rw [if_pos trivial]
          cases P1 with
          | nil =>
            rw [skipWsL_nil]
            simp [parseF_member_nil]
          | cons c2 P2 =>
            obtain rfl : (34 : Nat) = c2 := by
              rw [show memberText m ++ (membersTail t ++ [125]) =
                34 :: (m.1 ++ 34 :: 58 :: renderVal m.2 ++ (membersTail t ++ [125])) from by
                simp [memberText]] at h3
              simpa using (List.cons_eq_cons.mp h3).1
            rw [skipWsL_cons_of_not_ws _ (by decide)]
            exact chainObj ((ih k (by omega)).2.2.2.1) ((ih k (by omega)).2.2.2.2.2)
              (h1 m (List.mem_cons_self m t)) (h2 m (List.mem_cons_self m t))
              (fun x hx => h1 x (List.mem_cons_of_mem m hx))
              (fun x hx => h2 x (List.mem_cons_of_mem m hx))
              h3.symm hQ

theorem innerScan_stall_empty {buf : List Nat} (hs : skipPyWs buf = []) :
    innerScan buf = ([], some []) := by
  rw [innerScan]
  split
  · rfl
  next c t heq =>
    rw [hs] at heq
    exact absurd heq (by simp)

theorem innerScan_skip {buf : List Nat} {c : Nat} {t : List Nat}
    (hs : skipPyWs buf = c :: t) (hc : c = 91 ∨ c = 44) : innerScan buf = innerScan t := by
  rw [innerScan]
  split
  next heq =>
    rw [hs] at heq
    exact absurd heq (by simp)
  next c2 t2 heq =>
    rw [hs] at heq
    obtain ⟨rfl, rfl⟩ := List.cons_eq_cons.mp heq
    rw [if_pos hc]

theorem innerScan_close {buf : List Nat} {t : List Nat} (hs : skipPyWs buf = 93 :: t) :
    innerScan buf = ([], none) := by
  rw [innerScan]
  split
  next heq =>
    rw [hs] at heq
    exact absurd heq (by simp)
  next c2 t2 heq =>
    rw [hs] at heq
    obtain ⟨rfl, rfl⟩ := List.cons_eq_cons.mp heq
    rw [if_neg (by decide), if_pos rfl]

theorem innerScan_yield {buf : List Nat} {c : Nat} {t : List Nat} {p : JVal × List Nat}
    (hs : skipPyWs buf = c :: t) (h1 : ¬(c = 91 ∨ c = 44)) (h2 : c ≠ 93)
    (hp : parseVal (2 * (c :: t).length + 2) (c :: t) = some p) :
    innerScan buf = (p.1 :: (innerScan p.2).1, (innerScan p.2).2) := by
  rw [innerScan]
  split
  next heq =>
    rw [hs] at heq
    exact absurd heq (by simp)
  next c2 t2 heq =>
    rw [hs] at heq
    obtain ⟨rfl, rfl⟩ := List.cons_eq_cons.mp heq
    rw [if_neg h1, if_neg h2]
    split
    next p2 hp2 =>
      rw [hp] at hp2
      obtain rfl := Option.some_inj.mp hp2
      rfl
    next hp2 =>
      rw [hp] at hp2
      exact absurd hp2 (by simp)

theorem innerScan_stall_parse {buf : List Nat} {c : Nat} {t : List Nat}
    (hs : skipPyWs buf = c :: t) (h1 : ¬(c = 91 ∨ c = 44)) (h2 : c ≠ 93)
    (hp : parseVal (2 * (c :: t).length + 2) (c :: t) = none) :
    innerScan buf = ([], some (c :: t)) := by
  rw [innerScan]
  split
  next heq =>
    rw [hs] at heq
    exact absurd heq (by simp)
  next c2 t2 heq =>
    rw [hs] at heq
    obtain ⟨rfl, rfl⟩ := List.cons_eq_cons.mp heq
    rw [if_neg h1, if_neg h2]
    split
    next p2 hp2 =>
      rw [hp] at hp2
      exact absurd hp2 (by simp)
    next hp2 => rfl

theorem innerScan_nil : innerScan [] = ([], some []) :=
  innerScan_stall_empty rfl

/-- The inner scan only sees the buffer through its whitespace-skipped form. -/
theorem innerScan_congr {b1 b2 : List Nat} (h : skipPyWs b1 = skipPyWs b2) :
    innerScan b1 = innerScan b2 := by
  cases hs : skipPyWs b1 with
  | nil =>
    rw [innerScan_stall_empty hs, innerScan_stall_empty (h.symm.trans hs)]
  | cons c t =>
    have hs2 : skipPyWs b2 = c :: t := h.symm.trans hs
    by_cases h1 : c = 91 ∨ c = 44
    · rw [innerScan_skip hs h1, innerScan_skip hs2 h1]
    · by_cases h2 : c = 93
      · subst h2
        rw [innerScan_close hs, innerScan_close hs2]
      · cases hp : parseVal (2 * (c :: t).length + 2) (c :: t) with
        | some p => rw [innerScan_yield hs h1 h2 hp, innerScan_yield hs2 h1 h2 hp]
        | none => rw [innerScan_stall_parse hs h1 h2 hp, innerScan_stall_parse hs2 h1 h2 hp]

/-- A separator character of the streaming loop: whitespace, `[`, or `,`. -/
def sepChar (c : Nat) : Prop := isPySpace c = true ∨ c = 91 ∨ c = 44

/-- The streaming loop consumes any run of separator characters. -/
theorem innerScan_sep : ∀ (s r : List Nat), (∀ c ∈ s, sepChar c) →
    innerScan (s ++ r) = innerScan r := by
  intro s
  induction s with
  | nil => intro r _; rfl
  | cons c s1 ih =>
    intro r hsep
    rcases hsep c (by simp) with hws | hbr
    · have hcongr : skipPyWs (c :: (s1 ++ r)) = skipPyWs (s1 ++ r) := by
        simp [skipPyWs, List.dropWhile_cons, hws]
      rw [show (c :: s1) ++ r = c :: (s1 ++ r) from by simp]
      rw [innerScan_congr hcongr]
      exact ih r (fun d hd => hsep d (by simp [hd]))
    · have hnws : isPySpace c = false := by
        rcases hbr with rfl | rfl <;> decide
      have hs : skipPyWs (c :: (s1 ++ r)) = c :: (s1 ++ r) := by
        simp [skipPyWs, List.dropWhile_cons, hnws]
      rw [show (c :: s1) ++ r = c :: (s1 ++ r) from by simp]
      rw [innerScan_skip hs hbr]
      exact ih r (fun d hd => hsep d (by simp [hd]))

theorem renderVal_head_nonarr {v : JVal} (h : Wf v) (harr : ∀ xs, v ≠ JVal.arr xs) :
    ∃ c t, renderVal v = c :: t ∧ goodHead c ∧ c ≠ 91 := by
  cases h with
  | null => exact ⟨110, [117, 108, 108], by simp [renderVal], by simp [goodHead], by decide⟩
  | bool b =>
    cases b
    · exact ⟨102, [97, 108, 115, 101], by simp [renderVal], by simp [goodHead], by decide⟩
    · exact ⟨116, [114, 117, 101], by simp [renderVal], by simp [goodHead], by decide⟩
  | num lit hlit =>
    obtain ⟨c, t, hct, hc⟩ := numLit_head hlit
    refine ⟨c, t, by simp [renderVal, hct], ?_, ?_⟩
    · rcases hc with rfl | hd
      · simp [goodHead]
      · simp [goodHead, hd]
    · rcases hc with rfl | hd
      · decide
      · simp [isDigit] at hd
        omega
  | str s hs => exact ⟨34, s ++ [34], by simp [renderVal], by simp [goodHead], by decide⟩
  | arr xs hxs => exact absurd rfl (harr xs)
  | obj ms h1 h2 =>
    exact ⟨123, renderMembers ms ++ [125], by simp [renderVal], by simp [goodHead], by decide⟩

/-- Scanning a buffer that begins with a complete rendered non-array value
yields that value and continues on the rest. -/
theorem innerScan_elem {v : JVal} (r : List Nat) (hwf : Wf v)
    (harr : ∀ xs, v ≠ JVal.arr xs) (hb : numBoundary r) :
    innerScan (renderVal v ++ r) = (v :: (innerScan r).1, (innerScan r).2) := by
  obtain ⟨c, tl, hct, hgood, hc91⟩ := renderVal_head_nonarr hwf harr
  have hprops := goodHead_props hgood
  have hren : renderVal v ++ r = c :: (tl ++ r) := by rw [hct]; simp
  have hs : skipPyWs (renderVal v ++ r) = c :: (tl ++ r) := by
    rw [hren]
    simp [skipPyWs, List.dropWhile_cons, hprops.2.1]
  have h1 : ¬(c = 91 ∨ c = 44) := by
    rintro (rfl | rfl)
    · exact hc91 rfl
    · exact hprops.2.2.2.1 rfl
  have hp : parseVal (2 * (c :: (tl ++ r)).length + 2) (c :: (tl ++ r)) = some (v, r) := by
    rw [← hren]
    exact (parseF_rt _).1 v r hwf (by simp; omega) hb
  exact innerScan_yield hs h1 hprops.2.2.1 hp
/-- Values the streaming loop handles correctly at top level: not an array
(the loop mis-scans a leading `[`) and not a bare number (a truncated number
prefix parses as a complete number). -/
def scanSafe (v : JVal) : Prop :=
  (∀ xs, v ≠ JVal.arr xs) ∧ (∀ lit, v ≠ JVal.num lit)

theorem renderVal_head_safe {v : JVal} (h : Wf v) (hsafe : scanSafe v) :
    ∃ c t, renderVal v = c :: t ∧
      (c = 34 ∨ c = 123 ∨ c = 110 ∨ c = 116 ∨ c = 102) := by
  cases h with
  | null => exact ⟨110, [117, 108, 108], by simp [renderVal], by simp⟩
  | bool b =>
    cases b
    · exact ⟨102, [97, 108, 115, 101], by simp [renderVal], by simp⟩
    · exact ⟨116, [114, 117, 101], by simp [renderVal], by simp⟩
  | num lit hlit => exact absurd rfl (hsafe.2 lit)
  | str s hs => exact ⟨34, s ++ [34], by simp [renderVal], by simp⟩
  | arr xs hxs => exact absurd rfl (hsafe.1 xs)
  | obj ms h1 h2 =>
    exact ⟨123, renderMembers ms ++ [125], by simp [renderVal], by simp⟩

/-- Scanning a buffer that is a non-empty proper prefix of a rendered
scan-safe value stalls, leaving the whole buffer unconsumed. -/
theorem innerScan_elem_partial {v : JVal} {P Q : List Nat} (hwf : Wf v)
    (hsafe : scanSafe v) (hPQ : renderVal v = P ++ Q) (hQ : Q ≠ []) (hP : P ≠ []) :
    innerScan P = ([], some P) := by
  obtain ⟨c, tl, hct, hgood, hc91⟩ := renderVal_head_nonarr hwf hsafe.1
  have hprops := goodHead_props hgood
  obtain ⟨P1, rfl⟩ : ∃ P1, P = c :: P1 := by
    cases P with
    | nil => exact absurd rfl hP
    | cons a P1 =>
      rw [hct] at hPQ
      obtain rfl : c = a := by simpa using (List.cons_eq_cons.mp (by simpa using hPQ)).1
      exact ⟨P1, rfl⟩
  have hp : parseVal (2 * (c :: P1).length + 2) (c :: P1) = none := by
    rcases (parseF_pf (2 * (c :: P1).length + 2)).1 v (c :: P1) Q hwf hPQ hQ with
      hnone | ⟨lit, v', hv, -⟩
    · exact hnone
    · exact absurd hv (hsafe.2 lit)
  have hs : skipPyWs (c :: P1) = c :: P1 := by
    simp [skipPyWs, List.dropWhile_cons, hprops.2.1]
  have h1 : ¬(c = 91 ∨ c = 44) := by
    rintro (rfl | rfl)
    · exact hc91 rfl
    · exact hprops.2.2.2.1 rfl
  exact innerScan_stall_parse hs h1 hprops.2.2.1 hp

/-- The text of one scheduled part: its separator then the rendered element. -/
def partText (p : List Nat × JVal) : List Nat := p.1 ++ renderVal p.2

/-- The document tail still to be consumed: the remaining parts, closing
whitespace and the terminating bracket. -/
def restDoc (parts : List (List Nat × JVal)) (wend : List Nat) : List Nat :=
  (parts.map partText).flatten ++ wend ++ [93]

/-- Every character is a separator character. -/
def sepOk (s : List Nat) : Prop := ∀ c ∈ s, sepChar c

/-- Every character is JSON whitespace. -/
def wsOnly (s : List Nat) : Prop := ∀ c ∈ s, isWsChar c = true

/-- Scheduled parts with separator/wellformedness/safety conditions. -/
def partsOk (parts : List (List Nat × JVal)) : Prop :=
  ∀ p ∈ parts, sepOk p.1 ∧ Wf p.2 ∧ scanSafe p.2

theorem wsOnly_sepOk {s : List Nat} (h : wsOnly s) : sepOk s := by
  intro c hc
  left
  have := h c hc
  simp [isPySpace, this]

theorem sepOk_append {a b : List Nat} (ha : sepOk a) (hb : sepOk b) : sepOk (a ++ b) := by
  intro c hc
  rcases List.mem_append.mp hc with h | h
  · exact ha c h
  · exact hb c h

theorem sepChar_not_digit {c : Nat} (h : sepChar c) : isDigit c = false ∧ c ≠ 46 := by
  rcases h with h | rfl | rfl
  · simp [isPySpace, isWsChar] at h
    simp [isDigit]
    omega
  · exact ⟨by decide, by decide⟩
  · exact ⟨by decide, by decide⟩

theorem restDoc_cons (sp : List Nat) (v : JVal) (ps : List (List Nat × JVal))
    (wend : List Nat) :
    restDoc ((sp, v) :: ps) wend = sp ++ (renderVal v ++ restDoc ps wend) := by
  simp [restDoc, partText]

theorem restDoc_nil (wend : List Nat) : restDoc [] wend = wend ++ [93] := by
  simp [restDoc]

theorem restDoc_ne_nil (parts : List (List Nat × JVal)) (wend : List Nat) :
    restDoc parts wend ≠ [] := by
  simp [restDoc]

/-- The document tail never begins with a digit or a dot. -/
theorem restDoc_boundary {parts : List (List Nat × JVal)} {wend : List Nat}
    (hp : partsOk parts) (hw : wsOnly wend) : numBoundary (restDoc parts wend) := by
  cases parts with
  | nil =>
    rw [restDoc_nil]
    cases wend with
    | nil => exact numBoundary_cons _ (by decide) (by decide)
    | cons c t =>
      have := hw c (by simp)
      refine numBoundary_cons _ ?_ ?_
      · simp [isWsChar] at this
        simp [isDigit]
        omega
      · simp [isWsChar] at this
        omega
  | cons p ps =>
    cases p with
    | mk sp v =>
      rw [restDoc_cons]
      obtain ⟨hsep, hwf, hsafe⟩ := hp (sp, v) (by simp)
      cases sp with
      | nil =>
        obtain ⟨c, t, hct, hc⟩ := renderVal_head_safe hwf hsafe
        rw [List.nil_append, hct]
        refine numBoundary_cons _ ?_ ?_ <;> rcases hc with rfl | rfl | rfl | rfl | rfl <;>
          decide
      | cons c t =>
        have := sepChar_not_digit (hsep c (by simp))
        exact numBoundary_cons _ this.1 this.2

/-- One pass of the inner scan over a buffer that, together with the
still-unread input `R`, forms separators followed by the remaining document.
If the buffer holds the whole rest of the document the scan finishes at `]`
having yielded every element; otherwise it stalls, having yielded the
elements completely contained in the buffer, and the trimmed tail together
with `R` is again separators followed by a remaining document. -/
theorem scanLemma : ∀ (parts : List (List Nat × JVal)) (s buf R wend : List Nat),
    sepOk s → partsOk parts → wsOnly wend →
    buf ++ R = s ++ restDoc parts wend →
    (R = [] → innerScan buf = (parts.map (fun p => p.2), none)) ∧
    (R ≠ [] → ∃ k s2 parts2 wend2 T,
      innerScan buf = ((parts.take k).map (fun p => p.2), some T) ∧
      sepOk s2 ∧ partsOk parts2 ∧ wsOnly wend2 ∧
      parts2.map (fun p => p.2) = (parts.drop k).map (fun p => p.2) ∧
      T ++ R = s2 ++ restDoc parts2 wend2 ∧
      (T = [] ∨ (s2 = [] ∧ ∃ v ps V2, parts2 = ([], v) :: ps ∧
        renderVal v = T ++ V2 ∧ V2 ≠ [] ∧ T ≠ []))) := by
  intro parts
  induction parts with
  | nil =>
    intro s buf R wend hs hp hw hPQ
    rw [restDoc_nil] at hPQ
    rw [show s ++ (wend ++ [93]) = (s ++ wend) ++ [93] from by simp] at hPQ
    have hsep2 : sepOk (s ++ wend) := sepOk_append hs (wsOnly_sepOk hw)
    rcases List.append_eq_append_iff.mp hPQ with ⟨w, hw1, hw2⟩ | ⟨w, hw1, hw2⟩
    · -- buf is a prefix of the separators; R = w ++ [93]
      have hbufsep : sepOk buf := fun c hc => hsep2 c (by
        rw [hw1]; exact List.mem_append_left _ hc)
      have hscan : innerScan buf = ([], some []) := by
        have h2 := innerScan_sep buf [] hbufsep
        rw [List.append_nil] at h2
        rw [h2, innerScan_nil]
      constructor
      · intro hR
        rw [hR] at hw2
        exact absurd hw2 (by simp)
      · intro hR
        rcases List.append_eq_append_iff.mp hw1.symm with ⟨u, hu1, hu2⟩ | ⟨u, hu1, hu2⟩
        · -- s = buf ++ u, w = u ++ wend
          refine ⟨0, u, [], wend, [], by simpa using hscan, ?_, ?_, hw, by simp, ?_,
            Or.inl rfl⟩
          · intro c hc
            exact hs c (by rw [hu1]; exact List.mem_append_right _ hc)
          · intro p hp2
            simp at hp2
          · rw [List.nil_append, hw2, hu2, restDoc_nil]
            simp
        · -- buf = s ++ u, wend = u ++ w
          refine ⟨0, [], [], w, [], by simpa using hscan, ?_, ?_, ?_, by simp, ?_,
            Or.inl rfl⟩
          · intro c hc
            simp at hc
          · intro p hp2
            simp at hp2
          · intro c hc
            exact hw c (by rw [hu2]; exact List.mem_append_right _ hc)
          · rw [List.nil_append, hw2, restDoc_nil]
            simp
    · -- buf = (s ++ wend) ++ w, [93] = w ++ R
      rcases w with _ | ⟨w0, w1⟩
      · -- w = [], R = [93]
        rw [List.append_nil] at hw1
        have hR93 : R = [93] := by simpa using hw2.symm
        have hscan : innerScan buf = ([], some []) := by
          rw [hw1]
          have h2 := innerScan_sep (s ++ wend) [] hsep2
          rw [List.append_nil] at h2
          rw [h2, innerScan_nil]
        constructor
        · intro hR
          rw [hR] at hR93
          exact absurd hR93 (by simp)
        · intro hR
          refine ⟨0, [], [], [], [], by simpa using hscan, ?_, ?_, ?_, by simp, ?_,
            Or.inl rfl⟩
          · intro c hc
            simp at hc
          · intro p hp2
            simp at hp2
          · intro c hc
            simp at hc
          · rw [List.nil_append, hR93, restDoc_nil]
            rfl
      · -- w = 93 :: w1, hence w1 = [] and R = []
        obtain ⟨rfl, hrest⟩ : (93 : Nat) = w0 ∧ [] = w1 ++ R := by simpa using hw2
        obtain ⟨rfl, rfl⟩ := List.append_eq_nil.mp hrest.symm
        constructor
        · intro hR
          rw [hw1]
          rw [innerScan_sep (s ++ wend) [93] hsep2]
          rw [innerScan_close (show skipPyWs [93] = 93 :: [] from rfl)]
          rfl
        · intro hR
          exact absurd rfl hR
  | cons p ps ih =>
    obtain ⟨sp, v⟩ := p
    intro s buf R wend hs hp hw hPQ
    obtain ⟨hsep, hwf, hsafe⟩ := hp (sp, v) (by simp)
    have hpps : partsOk ps := fun q hq => hp q (by simp [hq])
    rw [restDoc_cons] at hPQ
    rw [show s ++ (sp ++ (renderVal v ++ restDoc ps wend)) =
      (s ++ sp) ++ (renderVal v ++ restDoc ps wend) from by simp] at hPQ
    have hssp : sepOk (s ++ sp) := sepOk_append hs hsep
    rcases List.append_eq_append_iff.mp hPQ with ⟨w, hw1, hw2⟩ | ⟨w, hw1, hw2⟩
    · -- s ++ sp = buf ++ w; R = w ++ (render v ++ restDoc ps wend)
      have hbufsep : sepOk buf := fun c hc => hssp c (by
        rw [hw1]; exact List.mem_append_left _ hc)
      have hscan : innerScan buf = ([], some []) := by
        have h2 := innerScan_sep buf [] hbufsep
        rw [List.append_nil] at h2
        rw [h2, innerScan_nil]
      have hRne : R ≠ [] := by
        rw [hw2]
        intro hcon
        obtain ⟨-, h3⟩ := List.append_eq_nil.mp hcon
        obtain ⟨h4, -⟩ := List.append_eq_nil.mp h3
        exact renderVal_ne_nil hwf h4
      constructor
      · intro hR
        exact absurd hR hRne
      · intro hR
        have hwsep : sepOk w := fun c hc => hssp c (by
          rw [hw1]; exact List.mem_append_right _ hc)
        refine ⟨0, w, ([], v) :: ps, wend, [], by simpa using hscan, hwsep, ?_, hw,
          by simp, ?_, Or.inl rfl⟩
        · intro q hq
          rcases List.mem_cons.mp hq with rfl | hq
          · exact ⟨fun c hc => absurd hc (by simp), hwf, hsafe⟩
          · exact hpps q hq
        · rw [List.nil_append, hw2, restDoc_cons, List.nil_append]
    · -- buf = (s ++ sp) ++ w; render v ++ restDoc ps wend = w ++ R
      have hscan0 : innerScan buf = innerScan w := by
        rw [hw1]
        exact innerScan_sep (s ++ sp) w hssp
      rcases List.append_eq_append_iff.mp hw2.symm with ⟨u, hu1, hu2⟩ | ⟨u, hu1, hu2⟩
      · -- render v = w ++ u; R = u ++ restDoc ps wend
        cases u with
        | nil =>
          -- w is exactly the rendered element
          rw [List.append_nil] at hu1
          have hRrest : R = restDoc ps wend := by simpa using hu2
          have helem : innerScan w = ([v], some []) := by
            rw [← hu1]
            have h3 := innerScan_elem ([] : List Nat) hwf hsafe.1 numBoundary_nil
            rw [List.append_nil] at h3
            rw [h3, innerScan_nil]
          constructor
          · intro hR
            rw [hR] at hRrest
            exact absurd hRrest.symm (restDoc_ne_nil ps wend)
          · intro hR
            refine ⟨1, [], ps, wend, [], ?_, ?_, hpps, hw, by simp, ?_, Or.inl rfl⟩
            · rw [hscan0, helem]
              simp
            · intro c hc
              simp at hc
            · rw [List.nil_append, hRrest, List.nil_append]
        | cons u0 u1 =>
          -- w is a proper prefix of the rendered element
          cases w with
          | nil =>
            have hRfull : R = renderVal v ++ restDoc ps wend := by
              rw [List.nil_append] at hu1
              rw [hu2, hu1]
            have hscan : innerScan buf = ([], some []) := by
              rw [hscan0, innerScan_nil]
            constructor
            · intro hR
              rw [hR] at hRfull
              exact absurd hRfull.symm (by
                intro hcon
                obtain ⟨h4, -⟩ := List.append_eq_nil.mp hcon
                exact renderVal_ne_nil hwf h4)
            · intro hR
              refine ⟨0, [], ([], v) :: ps, wend, [], by simpa using hscan, ?_, ?_, hw,
                by simp, ?_, Or.inl rfl⟩
              · intro c hc
                simp at hc
              · intro q hq
                rcases List.mem_cons.mp hq with rfl | hq
                · exact ⟨fun c hc => absurd hc (by simp), hwf, hsafe⟩
                · exact hpps q hq
              · simp [hRfull, restDoc_cons]
          | cons ww0 ww1 =>
            have hstall : innerScan (ww0 :: ww1) = ([], some (ww0 :: ww1)) :=
              innerScan_elem_partial hwf hsafe hu1 (by simp) (by simp)
            have hRne : R ≠ [] := by
              rw [hu2]
              simp
            constructor
            · intro hR
              exact absurd hR hRne
            · intro hR
              refine ⟨0, [], ([], v) :: ps, wend, ww0 :: ww1, ?_, ?_, ?_, hw,
                by simp, ?_, Or.inr ⟨rfl, v, ps, u0 :: u1, rfl, hu1, by simp, by simp⟩⟩
              · rw [hscan0, hstall]
                simp
              · intro c hc
                simp at hc
              · intro q hq
                rcases List.mem_cons.mp hq with rfl | hq
                · exact ⟨fun c hc => absurd hc (by simp), hwf, hsafe⟩
                · exact hpps q hq
              · rw [hu2, restDoc_cons, List.nil_append, List.nil_append,
                  ← List.append_assoc, ← hu1]
      · -- w = render v ++ u; restDoc ps wend = u ++ R
        have hbu : numBoundary u :=
          @numBoundary_of_append u R (by rw [← hu2]; exact restDoc_boundary hpps hw)
        have helem : innerScan w = (v :: (innerScan u).1, (innerScan u).2) := by
          rw [hu1]
          exact innerScan_elem u hwf hsafe.1 hbu
        have hih := ih [] u R wend (fun c hc => absurd hc (by simp)) hpps hw
          (by rw [List.nil_append, ← hu2])
        constructor
        · intro hR
          have h4 := hih.1 hR
          rw [hscan0, helem, h4]
          simp
        · intro hR
          obtain ⟨k2, s2, parts2, wend2, T, hscan2, hs2, hp2, hw2b, hmap2, heq2, hT2⟩ :=
            hih.2 hR
          refine ⟨k2 + 1, s2, parts2, wend2, T, ?_, hs2, hp2, hw2b, ?_, heq2, hT2⟩
          · rw [hscan0, helem, hscan2]
            simp
          · rw [List.drop_succ_cons]
            exact hmap2

/-- Feeding the document in chunks: when the chunks complete the document,
the streaming loop yields every element, in order, and terminates at `]` —
for every split of the document into chunks. -/
theorem streamLemma : ∀ (chunks : List (List Nat)) (B s : List Nat)
    (parts : List (List Nat × JVal)) (wend : List Nat),
    sepOk s → partsOk parts → wsOnly wend →
    B ++ chunks.flatten = s ++ restDoc parts wend →
    (B = [] ∨ (s = [] ∧ ∃ v ps V2, parts = ([], v) :: ps ∧ renderVal v = B ++ V2 ∧
      V2 ≠ [] ∧ B ≠ [])) →
    iterJsonArray chunks B = (parts.map (fun p => p.2), true) := by
  intro chunks
  induction chunks with
  | nil =>
    intro B s parts wend hs hp hw hPQ hB
    exfalso
    simp only [List.flatten_nil, List.append_nil] at hPQ
    rcases hB with rfl | ⟨rfl, v, ps, V2, rfl, hren, hV2, hBne⟩
    · obtain ⟨-, h2⟩ := List.append_eq_nil.mp hPQ.symm
      exact restDoc_ne_nil parts wend h2
    · rw [List.nil_append, restDoc_cons, List.nil_append] at hPQ
      have h1 := congrArg List.length hPQ
      have h2 := congrArg List.length hren
      have h3 : 0 < (restDoc ps wend).length :=
        List.length_pos.mpr (restDoc_ne_nil ps wend)
      have h4 : 0 < V2.length := List.length_pos.mpr hV2
      simp at h1 h2
      omega
  | cons c rest ih =>
    intro B s parts wend hs hp hw hPQ hB
    have hbufeq : (B ++ c) ++ rest.flatten = s ++ restDoc parts wend := by
      rw [List.append_assoc]
      simpa using hPQ
    have hscan := scanLemma parts s (B ++ c) rest.flatten wend hs hp hw hbufeq
    by_cases hR : rest.flatten = []
    · have h1 := hscan.1 hR
      simp only [iterJsonArray, h1]
    · obtain ⟨k, s2, parts2, wend2, T, hscan2, hs2, hp2, hw2, hmap2, heq2, hT2⟩ :=
        hscan.2 hR
      have hrec := ih T s2 parts2 wend2 hs2 hp2 hw2 heq2 hT2
      simp only [iterJsonArray, hscan2, hrec, hmap2]
      rw [← List.map_append, List.take_append_drop]

/-- Feeding a strictly truncated document: the loop yields only complete
elements — a prefix of the element list — and ends with the stream exhausted
before `]` was seen (second component `false`), raising nothing. -/
theorem streamTrunc : ∀ (chunks : List (List Nat)) (B s : List Nat)
    (parts : List (List Nat × JVal)) (wend M : List Nat),
    sepOk s → partsOk parts → wsOnly wend → M ≠ [] →
    B ++ chunks.flatten ++ M = s ++ restDoc parts wend →
    (B = [] ∨ (s = [] ∧ ∃ v ps V2, parts = ([], v) :: ps ∧ renderVal v = B ++ V2 ∧
      V2 ≠ [] ∧ B ≠ [])) →
    ∃ k, iterJsonArray chunks B = ((parts.take k).map (fun p => p.2), false) := by
  intro chunks
  induction chunks with
  | nil =>
    intro B s parts wend M hs hp hw hM hPQ hB
    simp only [List.flatten_nil, List.append_nil] at hPQ
    have hscan := scanLemma parts s B M wend hs hp hw hPQ
    obtain ⟨k, s2, parts2, wend2, T, hscan2, -, -, -, -, -, -⟩ := hscan.2 hM
    refine ⟨k, ?_⟩
    simp only [iterJsonArray, hscan2]
    rfl
  | cons c rest ih =>
    intro B s parts wend M hs hp hw hM hPQ hB
    have hbufeq : (B ++ c) ++ (rest.flatten ++ M) = s ++ restDoc parts wend := by
      rw [List.append_assoc]
      rw [show c ++ (rest.flatten ++ M) = (c ++ rest.flatten) ++ M from by simp]
      rw [show B ++ ((c ++ rest.flatten) ++ M) = (B ++ (c ++ rest.flatten)) ++ M from by
        simp]
      simpa using hPQ
    have hRne : rest.flatten ++ M ≠ [] := by
      intro hcon
      exact hM (List.append_eq_nil.mp hcon).2
    have hscan := scanLemma parts s (B ++ c) (rest.flatten ++ M) wend hs hp hw hbufeq
    obtain ⟨k, s2, parts2, wend2, T, hscan2, hs2, hp2, hw2, hmap2, heq2, hT2⟩ :=
      hscan.2 hRne
    have heq3 : T ++ rest.flatten ++ M = s2 ++ restDoc parts2 wend2 := by
      rw [List.append_assoc]
      exact heq2
    obtain ⟨k2, hrec⟩ := ih T s2 parts2 wend2 M hs2 hp2 hw2 hM heq3 hT2
    refine ⟨k + k2, ?_⟩
    simp only [iterJsonArray, hscan2, hrec]
    have htk : (parts2.take k2).map (fun p => p.2) =
        ((parts.drop k).take k2).map (fun p => p.2) := by
      rw [List.map_take, hmap2, ← List.map_take]
    rw [htk, ← List.map_append, ← List.take_add]
/-- `skipWsL` consumes a leading all-whitespace run. -/
theorem skipWsL_ws_append {w : List Nat} (x : List Nat) (h : wsOnly w) :
    skipWsL (w ++ x) = skipWsL x := by
  induction w with
  | nil => rfl
  | cons c t ih =>
    have hc := h c (by simp)
    rw [List.cons_append]
    rw [show skipWsL (c :: (t ++ x)) = skipWsL (t ++ x) from by
      simp [skipWsL, List.dropWhile_cons, hc]]
    exact ih (fun d hd => h d (by simp [hd]))

/-- The text of the elements after the first of a whitespace-laden JSON
array: for each, whitespace, a comma, whitespace, the rendered element. -/
def wsItemsText (items : List (List Nat × List Nat × JVal)) : List Nat :=
  (items.map (fun q => q.1 ++ 44 :: (q.2.1 ++ renderVal q.2.2))).flatten

/-- A JSON array document with at least one element and arbitrary
whitespace around the separators. -/
def wsArrayDoc (w0 : List Nat) (v0 : JVal) (items : List (List Nat × List Nat × JVal))
    (wend : List Nat) : List Nat :=
  91 :: (w0 ++ (renderVal v0 ++ (wsItemsText items ++ (wend ++ [93]))))

/-- An empty JSON array document with arbitrary interior whitespace. -/
def wsArrayDocEmpty (w : List Nat) : List Nat := 91 :: (w ++ [93])

theorem wsArr_rest_boundary {items : List (List Nat × List Nat × JVal)} {wend : List Nat}
    (hit : ∀ q ∈ items, wsOnly q.1) (hw : wsOnly wend) :
    numBoundary (wsItemsText items ++ (wend ++ [93])) := by
  cases items with
  | nil =>
    simp only [wsItemsText, List.map_nil, List.flatten_nil, List.nil_append]
    cases wend with
    | nil => exact numBoundary_cons _ (by decide) (by decide)
    | cons c t =>
      have hc := hw c (by simp)
      rw [List.cons_append]
      refine numBoundary_cons _ ?_ ?_
      · simp [isWsChar] at hc
        simp [isDigit]
        omega
      · simp [isWsChar] at hc
        omega
  | cons q t =>
    obtain ⟨a, b, v⟩ := q
    have ha := hit (a, b, v) (by simp)
    cases a with
    | nil =>
      rw [show wsItemsText (([], b, v) :: t) ++ (wend ++ [93])
          = 44 :: ((b ++ renderVal v) ++ (wsItemsText t ++ (wend ++ [93]))) from by
        simp [wsItemsText]]
      exact numBoundary_cons _ (by decide) (by decide)
    | cons c a1 =>
      have hc := ha c (by simp)
      rw [show wsItemsText ((c :: a1, b, v) :: t) ++ (wend ++ [93])
          = c :: ((a1 ++ 44 :: (b ++ renderVal v)) ++ (wsItemsText t ++ (wend ++ [93]))) from by
        simp [wsItemsText]]
      refine numBoundary_cons _ ?_ ?_
      · simp [isWsChar] at hc
        simp [isDigit]
        omega
      · simp [isWsChar] at hc
        omega

theorem valStep_arr (pArr : List Nat → Option (List JVal × List Nat))
    (pObj : List Nat → Option (List (List Nat × JVal) × List Nat)) (t : List Nat) :
    valStep pArr pObj (91 :: t) = (pArr t).map (fun p => (JVal.arr p.1, p.2)) := rfl

theorem arrBodyStep_close (pv : List Nat → Option (JVal × List Nat))
    (pr : List Nat → Option (List JVal × List Nat)) {l t : List Nat}
    (hs : skipWsL l = 93 :: t) : arrBodyStep pv pr l = some ([], t) := by
  simp only [arrBodyStep]
  split
  next heq =>
    rw [hs] at heq
    exact absurd heq (by simp)
  next c2 t2 heq =>
    rw [hs] at heq
    obtain ⟨rfl, rfl⟩ := List.cons_eq_cons.mp heq
    rw [if_pos rfl]

theorem arrBodyStep_elem (pv : List Nat → Option (JVal × List Nat))
    (pr : List Nat → Option (List JVal × List Nat)) {l : List Nat} {c : Nat}
    {t : List Nat} (hs : skipWsL l = c :: t) (hc : c ≠ 93) :
    arrBodyStep pv pr l
      = (pv (c :: t)).bind (fun p => (pr p.2).map (fun q => (p.1 :: q.1, q.2))) := by
  simp only [arrBodyStep]
  split
  next heq =>
    rw [hs] at heq
    exact absurd heq (by simp)
  next c2 t2 heq =>
    rw [hs] at heq
    obtain ⟨rfl, rfl⟩ := List.cons_eq_cons.mp heq
    rw [if_neg hc]

theorem arrRestStep_close (pv : List Nat → Option (JVal × List Nat))
    (pr : List Nat → Option (List JVal × List Nat)) {l t : List Nat}
    (hs : skipWsL l = 93 :: t) : arrRestStep pv pr l = some ([], t) := by
  simp only [arrRestStep]
  split
  next heq =>
    rw [hs] at heq
    exact absurd heq (by simp)
  next c2 t2 heq =>
    rw [hs] at heq
    obtain ⟨rfl, rfl⟩ := List.cons_eq_cons.mp heq
    rw [if_pos rfl]

theorem arrRestStep_comma (pv : List Nat → Option (JVal × List Nat))
    (pr : List Nat → Option (List JVal × List Nat)) {l t : List Nat}
    (hs : skipWsL l = 44 :: t) :
    arrRestStep pv pr l
      = (pv (skipWsL t)).bind (fun p => (pr p.2).map (fun q => (p.1 :: q.1, q.2))) := by
  simp only [arrRestStep]
  split
  next heq =>
    rw [hs] at heq
    exact absurd heq (by simp)
  next c2 t2 heq =>
    rw [hs] at heq
    obtain ⟨rfl, rfl⟩ := List.cons_eq_cons.mp heq
    rw [if_neg (by decide), if_pos rfl]

/-- The modelled scanner in `arrRest` mode accepts the whitespace-laden
tail of an array (comma-separated further elements, closing whitespace and
`]`), returning the elements. -/
theorem wsArr_parse_rest : ∀ (fuel : Nat) (items : List (List Nat × List Nat × JVal))
    (wend : List Nat),
    (∀ q ∈ items, wsOnly q.1 ∧ wsOnly q.2.1 ∧ Wf q.2.2) → wsOnly wend →
    (wsItemsText items ++ (wend ++ [93])).length + 1 ≤ fuel →
    parseF fuel .arrRest (wsItemsText items ++ (wend ++ [93]))
      = some (items.map (fun q => q.2.2), []) := by
  intro fuel
  induction fuel using Nat.strong_induction_on with
  | _ fuel ih =>
  intro items wend hit hw hlen
  obtain ⟨m, rfl⟩ : ∃ m, fuel = m + 1 := by
    cases fuel with
    | zero => exact absurd hlen (by omega)
    | succ k => exact ⟨k, rfl⟩
  cases items with
  | nil =>
    have hsk : skipWsL (wsItemsText [] ++ (wend ++ [93])) = 93 :: [] := by
      simp only [wsItemsText, List.map_nil, List.flatten_nil, List.nil_append]
      rw [skipWsL_ws_append _ hw]
      exact skipWsL_cons_of_not_ws [] (by decide)
    rw [parseF_arrRest, arrRestStep_close _ _ hsk]
    simp
  | cons q t =>
    obtain ⟨a, b, v⟩ := q
    obtain ⟨ha, hb, hv⟩ := hit (a, b, v) (by simp)
    have hitT : ∀ q2 ∈ t, wsOnly q2.1 ∧ wsOnly q2.2.1 ∧ Wf q2.2.2 :=
      fun q2 hq2 => hit q2 (by simp [hq2])
    have htext : wsItemsText ((a, b, v) :: t) ++ (wend ++ [93])
        = a ++ 44 :: (b ++ (renderVal v ++ (wsItemsText t ++ (wend ++ [93])))) := by
      simp [wsItemsText]
    have hsk : skipWsL (wsItemsText ((a, b, v) :: t) ++ (wend ++ [93]))
        = 44 :: (b ++ (renderVal v ++ (wsItemsText t ++ (wend ++ [93])))) := by
      rw [htext, skipWsL_ws_append _ ha]
      exact skipWsL_cons_of_not_ws _ (by decide)
    have hskv : skipWsL (b ++ (renderVal v ++ (wsItemsText t ++ (wend ++ [93]))))
        = renderVal v ++ (wsItemsText t ++ (wend ++ [93])) := by
      rw [skipWsL_ws_append _ hb]
      obtain ⟨c, tl, hct, hgood⟩ := renderVal_head hv
      rw [hct, List.cons_append]
      exact skipWsL_cons_of_not_ws _ (goodHead_props hgood).1
    have hrv1 : 1 ≤ (renderVal v).length := List.length_pos.mpr (renderVal_ne_nil hv)
    have hlen2 : a.length + 1 + (b.length + ((renderVal v).length
        + ((wsItemsText t).length + (wend.length + 1)))) + 1 ≤ m + 1 := by
      rw [htext] at hlen
      simp only [List.length_append, List.length_cons, List.length_nil] at hlen
      omega
    rw [parseF_arrRest, arrRestStep_comma _ _ hsk]
    rw [hskv]
    rw [(parseF_rt m).1 v (wsItemsText t ++ (wend ++ [93])) hv (by omega)
      (wsArr_rest_boundary (fun q2 hq2 => (hitT q2 hq2).1) hw)]
    rw [Option.some_bind]
    rw [ih m (by omega) t wend hitT hw
      (by
        simp only [List.length_append, List.length_cons, List.length_nil]
        omega)]
    simp

/-- The modelled scanner parses a whitespace-laden array document with at
least one element into exactly its elements, consuming the whole text. -/
theorem wsArr_parse (fuel : Nat) (w0 : List Nat) (v0 : JVal)
    (items : List (List Nat × List Nat × JVal)) (wend : List Nat)
    (hw0 : wsOnly w0) (hv0 : Wf v0)
    (hit : ∀ q ∈ items, wsOnly q.1 ∧ wsOnly q.2.1 ∧ Wf q.2.2) (hw : wsOnly wend)
    (hlen : (wsArrayDoc w0 v0 items wend).length + 1 ≤ fuel) :
    parseF fuel .val (wsArrayDoc w0 v0 items wend)
      = some (JVal.arr (v0 :: items.map (fun q => q.2.2)), []) := by
  obtain ⟨m, rfl⟩ : ∃ m, fuel = m + 2 := by
    have h2 : 2 ≤ (wsArrayDoc w0 v0 items wend).length := by
      simp only [wsArrayDoc, List.length_cons, List.length_append, List.length_nil]
      omega
    exact ⟨fuel - 2, by omega⟩
  have hrv1 : 1 ≤ (renderVal v0).length := List.length_pos.mpr (renderVal_ne_nil hv0)
  have hlen2 : 1 + (w0.length + ((renderVal v0).length
      + ((wsItemsText items).length + (wend.length + 1)))) + 1 ≤ m + 2 := by
    simp only [wsArrayDoc, List.length_cons, List.length_append, List.length_nil] at hlen
    omega
  rw [show wsArrayDoc w0 v0 items wend
      = 91 :: (w0 ++ (renderVal v0 ++ (wsItemsText items ++ (wend ++ [93])))) from rfl]
  rw [parseF_val, valStep_arr]
  have harrb : parseF (m + 1) .arrBody
      (w0 ++ (renderVal v0 ++ (wsItemsText items ++ (wend ++ [93]))))
      = some (v0 :: items.map (fun q => q.2.2), []) := by
    rw [parseF_arrBody]
    obtain ⟨c, tl, hct, hgood⟩ := renderVal_head hv0
    have hprops := goodHead_props hgood
    have hsk : skipWsL (w0 ++ (renderVal v0 ++ (wsItemsText items ++ (wend ++ [93]))))
        = c :: (tl ++ (wsItemsText items ++ (wend ++ [93]))) := by
      rw [skipWsL_ws_append _ hw0, hct, List.cons_append]
      exact skipWsL_cons_of_not_ws _ hprops.1
    rw [arrBodyStep_elem _ _ hsk hprops.2.2.1]
    rw [show c :: (tl ++ (wsItemsText items ++ (wend ++ [93])))
        = renderVal v0 ++ (wsItemsText items ++ (wend ++ [93])) from by
      rw [hct, List.cons_append]]
    rw [(parseF_rt m).1 v0 (wsItemsText items ++ (wend ++ [93])) hv0 (by omega)
      (wsArr_rest_boundary (fun q2 hq2 => (hit q2 hq2).1) hw)]
    rw [Option.some_bind]
    rw [wsArr_parse_rest m items wend hit hw
      (by
        simp only [List.length_append, List.length_cons, List.length_nil]
        omega)]
    simp
  rw [harrb]
  rfl

/-- The modelled scanner parses a whitespace-laden empty array document. -/
theorem wsArrEmpty_parse (fuel : Nat) (w : List Nat) (hw : wsOnly w)
    (hlen : (wsArrayDocEmpty w).length + 1 ≤ fuel) :
    parseF fuel .val (wsArrayDocEmpty w) = some (JVal.arr [], []) := by
  obtain ⟨m, rfl⟩ : ∃ m, fuel = m + 2 := by
    simp only [wsArrayDocEmpty, List.length_cons, List.length_append, List.length_nil] at hlen
    exact ⟨fuel - 2, by omega⟩
  rw [show wsArrayDocEmpty w = 91 :: (w ++ [93]) from rfl]
  rw [parseF_val, valStep_arr]
  have harrb : parseF (m + 1) .arrBody (w ++ [93]) = some ([], []) := by
    have hsk : skipWsL (w ++ [93]) = 93 :: [] := by
      rw [skipWsL_ws_append _ hw]
      exact skipWsL_cons_of_not_ws [] (by decide)
    rw [parseF_arrBody, arrBodyStep_close _ _ hsk]
  rw [harrb]
  rfl

theorem wsItems_restDoc : ∀ (items : List (List Nat × List Nat × JVal)) (wend : List Nat),
    restDoc (items.map (fun q => (q.1 ++ 44 :: q.2.1, q.2.2))) wend
      = wsItemsText items ++ (wend ++ [93]) := by
  intro items
  induction items with
  | nil =>
    intro wend
    simp [restDoc, wsItemsText]
  | cons q t ih =>
    intro wend
    obtain ⟨a, b, v⟩ := q
    rw [List.map_cons, restDoc_cons]
    rw [show wsItemsText ((a, b, v) :: t)
        = (a ++ 44 :: (b ++ renderVal v)) ++ wsItemsText t from by
      simp [wsItemsText]]
    rw [ih wend]
    simp

/-- The whitespace-laden array document, seen as the streaming loop sees
it: an opening separator run, then the scheduled parts, then the close. -/
theorem wsArrayDoc_stream (w0 : List Nat) (v0 : JVal)
    (items : List (List Nat × List Nat × JVal)) (wend : List Nat) :
    wsArrayDoc w0 v0 items wend
      = (91 :: w0)
        ++ restDoc (([], v0) :: items.map (fun q => (q.1 ++ 44 :: q.2.1, q.2.2))) wend := by
  rw [restDoc_cons, wsItems_restDoc]
  simp [wsArrayDoc]

/-- Streaming a whitespace-laden array document of scan-safe elements, in
any chunking, yields exactly the elements in order and finishes at `]`. -/
theorem wsArr_stream (w0 : List Nat) (v0 : JVal)
    (items : List (List Nat × List Nat × JVal)) (wend : List Nat)
    (chunks : List (List Nat))
    (hw0 : wsOnly w0) (hv0 : Wf v0) (hs0 : scanSafe v0)
    (hit : ∀ q ∈ items, wsOnly q.1 ∧ wsOnly q.2.1 ∧ Wf q.2.2 ∧ scanSafe q.2.2)
    (hw : wsOnly wend) (hch : chunks.flatten = wsArrayDoc w0 v0 items wend) :
    iterJsonArray chunks [] = (v0 :: items.map (fun q => q.2.2), true) := by
  have hres := streamLemma chunks [] (91 :: w0)
    (([], v0) :: items.map (fun q => (q.1 ++ 44 :: q.2.1, q.2.2))) wend
    (by
      intro c hc
      rcases List.mem_cons.mp hc with rfl | h
      · exact Or.inr (Or.inl rfl)
      · exact Or.inl (by simp [isPySpace, hw0 c h]))
    (by
      intro p hp
      rcases List.mem_cons.mp hp with rfl | h
      · exact ⟨fun c hc => absurd hc (List.not_mem_nil c), hv0, hs0⟩
      · obtain ⟨q, hq, rfl⟩ := List.mem_map.mp h
        obtain ⟨hq1, hq2, hq3, hq4⟩ := hit q hq
        refine ⟨?_, hq3, hq4⟩
        intro c hc
        simp at hc
        rcases hc with h1 | rfl | h2
        · exact Or.inl (by simp [isPySpace, hq1 c h1])
        · exact Or.inr (Or.inr rfl)
        · exact Or.inl (by simp [isPySpace, hq2 c h2]))
    hw
    (by rw [List.nil_append, hch, wsArrayDoc_stream])
    (Or.inl rfl)
  rw [show ((([], v0) :: items.map (fun q => (q.1 ++ 44 :: q.2.1, q.2.2))).map
      (fun p => p.2)) = v0 :: items.map (fun q => q.2.2) from by
    simp] at hres
  exact hres

/-- Streaming a whitespace-laden empty array document, in any chunking,
yields nothing and finishes at `]`. -/
theorem wsArrEmpty_stream (w : List Nat) (chunks : List (List Nat)) (hw : wsOnly w)
    (hch : chunks.flatten = wsArrayDocEmpty w) :
    iterJsonArray chunks [] = ([], true) := by
  have hres := streamLemma chunks [] (91 :: w) [] []
    (by
      intro c hc
      rcases List.mem_cons.mp hc with rfl | h
      · exact Or.inr (Or.inl rfl)
      · exact Or.inl (by simp [isPySpace, hw c h]))
    (by intro p hp; exact absurd hp (List.not_mem_nil p))
    (by intro c hc; exact absurd hc (List.not_mem_nil c))
    (by rw [List.nil_append, hch, restDoc_nil]; simp [wsArrayDocEmpty])
    (Or.inl rfl)
  simpa using hres

/-- One outer step of the streaming loop when the scan of the buffer plus
the next chunk finishes at `]`. -/
theorem iterJsonArray_cons_done (c : List Nat) (rest : List (List Nat)) (buf : List Nat)
    {ys : List JVal} (h : innerScan (buf ++ c) = (ys, none)) :
    iterJsonArray (c :: rest) buf = (ys, true) := by
  simp only [iterJsonArray]
  rw [h]

/-- One outer step of the streaming loop when the scan of the buffer plus
the next chunk stalls with trimmed tail `tail`. -/
theorem iterJsonArray_cons_stall (c : List Nat) (rest : List (List Nat))
    (buf tail : List Nat) {ys : List JVal}
    (h : innerScan (buf ++ c) = (ys, some tail)) :
    iterJsonArray (c :: rest) buf
      = (ys ++ (iterJsonArray rest tail).1, (iterJsonArray rest tail).2) := by
  simp only [iterJsonArray]
  rw [h]

/-- C2 (amended): for a whitespace-laden JSON array document whose elements
are well formed and scan-safe (no element is itself an array and no element
is a bare number), the streaming decoder `iter_json_array` yields exactly the
K elements, in source order, each equal to the corresponding element of the
reference full-document parse (`raw_decode` of the whole document), and the
yielded sequence is the same for every split of the document into read
chunks; likewise the empty array yields nothing.  Without the scan-safety
restriction the claim is false (see the counterexample). -/
theorem C2_streaming_matches_full_parse (w0 : List Nat) (v0 : JVal)
    (items : List (List Nat × List Nat × JVal)) (wend : List Nat)
    (chunks : List (List Nat)) (w : List Nat) (chunks2 : List (List Nat)) :
    (wsOnly w0 → Wf v0 → scanSafe v0 →
      (∀ q ∈ items, wsOnly q.1 ∧ wsOnly q.2.1 ∧ Wf q.2.2 ∧ scanSafe q.2.2) →
      wsOnly wend →
      parseVal ((wsArrayDoc w0 v0 items wend).length + 1) (wsArrayDoc w0 v0 items wend)
        = some (JVal.arr (v0 :: items.map (fun q => q.2.2)), []) ∧
      (chunks.flatten = wsArrayDoc w0 v0 items wend →
        iterJsonArray chunks [] = (v0 :: items.map (fun q => q.2.2), true))) ∧
    (wsOnly w →
      parseVal ((wsArrayDocEmpty w).length + 1) (wsArrayDocEmpty w)
        = some (JVal.arr [], []) ∧
      (chunks2.flatten = wsArrayDocEmpty w →
        iterJsonArray chunks2 [] = ([], true))) := by
  constructor
  · intro hw0 hv0 hs0 hit hw
    constructor
    · exact wsArr_parse _ w0 v0 items wend hw0 hv0
        (fun q hq => ⟨(hit q hq).1, (hit q hq).2.1, (hit q hq).2.2.1⟩) hw (le_refl _)
    · intro hch
      exact wsArr_stream w0 v0 items wend chunks hw0 hv0 hs0 hit hw hch
  · intro hww
    exact ⟨wsArrEmpty_parse _ w hww (le_refl _),
      fun hch => wsArrEmpty_stream w chunks2 hww hch⟩

theorem C2_streaming_matches_full_parse_witness :
    parseVal ((wsArrayDoc [] JVal.null [] []).length + 1) (wsArrayDoc [] JVal.null [] [])
      = some (JVal.arr [JVal.null], []) ∧
    iterJsonArray [wsArrayDoc [] JVal.null [] []] [] = ([JVal.null], true) := by
  have h := (C2_streaming_matches_full_parse [] JVal.null [] []
    [wsArrayDoc [] JVal.null [] []] [] []).1
    (fun c hc => absurd hc (List.not_mem_nil c)) Wf.null
    ⟨fun xs h2 => JVal.noConfusion h2, fun lit h2 => JVal.noConfusion h2⟩
    (fun q hq => absurd hq (List.not_mem_nil q))
    (fun c hc => absurd hc (List.not_mem_nil c))
  exact ⟨h.1, h.2 (by simp)⟩

/-- C2 counterexample: the literal claim fails.  First, the yielded sequence
is not chunking-independent: the five-character document `[123]` fed as one
chunk yields the single number `123`, but fed as the chunks `[12` and `3]`
it yields the two numbers `12` and `3` — a bare number split across a read
boundary is emitted as two separate elements.  Second, for the document
`[[null],[null]]` (two array elements; reference parse shown) the decoder
yields a single `null`: the inner `[` of an array element is skipped as if
it were a separator, so array elements are never yielded themselves. -/
theorem C2_streaming_matches_full_parse_cx :
    ([[91, 49, 50], [51, 93]] : List (List Nat)).flatten
      = ([[91, 49, 50, 51, 93]] : List (List Nat)).flatten ∧
    iterJsonArray [[91, 49, 50, 51, 93]] [] = ([JVal.num [49, 50, 51]], true) ∧
    iterJsonArray [[91, 49, 50], [51, 93]] []
      = ([JVal.num [49, 50], JVal.num [51]], true) ∧
    (iterJsonArray [[91, 49, 50, 51, 93]] []).1
      ≠ (iterJsonArray [[91, 49, 50], [51, 93]] []).1 ∧
    parseVal 16 [91, 91, 110, 117, 108, 108, 93, 44, 91, 110, 117, 108, 108, 93, 93]
      = some (JVal.arr [JVal.arr [JVal.null], JVal.arr [JVal.null]], []) ∧
    iterJsonArray [[91, 91, 110, 117, 108, 108, 93, 44, 91, 110, 117, 108, 108, 93, 93]] []
      = ([JVal.null], true) := by
  have h1 : innerScan [93] = ([], none) := @innerScan_close [93] [] rfl
  have h2 : innerScan [49, 50, 51, 93] = ([JVal.num [49, 50, 51]], none) := by
    rw [@innerScan_yield [49, 50, 51, 93] 49 [50, 51, 93] (JVal.num [49, 50, 51], [93])
      rfl (by decide) (by decide) rfl]
    show (JVal.num [49, 50, 51] :: (innerScan [93]).1, (innerScan [93]).2)
      = ([JVal.num [49, 50, 51]], none)
    rw [h1]
  have h3 : innerScan [91, 49, 50, 51, 93] = ([JVal.num [49, 50, 51]], none) := by
    rw [@innerScan_skip [91, 49, 50, 51, 93] 91 [49, 50, 51, 93] rfl (Or.inl rfl), h2]
  have h4 : innerScan [49, 50] = ([JVal.num [49, 50]], some []) := by
    rw [@innerScan_yield [49, 50] 49 [50] (JVal.num [49, 50], []) rfl
      (by decide) (by decide) rfl]
    show (JVal.num [49, 50] :: (innerScan []).1, (innerScan []).2)
      = ([JVal.num [49, 50]], some [])
    rw [innerScan_nil]
  have h5 : innerScan [91, 49, 50] = ([JVal.num [49, 50]], some []) := by
    rw [@innerScan_skip [91, 49, 50] 91 [49, 50] rfl (Or.inl rfl), h4]
  have h6 : innerScan [51, 93] = ([JVal.num [51]], none) := by
    rw [@innerScan_yield [51, 93] 51 [93] (JVal.num [51], [93]) rfl
      (by decide) (by decide) rfl]
    show (JVal.num [51] :: (innerScan [93]).1, (innerScan [93]).2) = ([JVal.num [51]], none)
    rw [h1]
  have hds1 : iterJsonArray [[91, 49, 50, 51, 93]] [] = ([JVal.num [49, 50, 51]], true) :=
    iterJsonArray_cons_done [91, 49, 50, 51, 93] [] [] h3
  have hin : iterJsonArray [[51, 93]] [] = ([JVal.num [51]], true) :=
    iterJsonArray_cons_done [51, 93] [] [] h6
  have hds2 : iterJsonArray [[91, 49, 50], [51, 93]] []
      = ([JVal.num [49, 50], JVal.num [51]], true) := by
    rw [iterJsonArray_cons_stall [91, 49, 50] [[51, 93]] [] [] h5, hin]
    rfl
  have h7 : innerScan [93, 44, 91, 110, 117, 108, 108, 93, 93] = ([], none) :=
    @innerScan_close [93, 44, 91, 110, 117, 108, 108, 93, 93]
      [44, 91, 110, 117, 108, 108, 93, 93] rfl
  have h8 : innerScan [110, 117, 108, 108, 93, 44, 91, 110, 117, 108, 108, 93, 93]
      = ([JVal.null], none) := by
    rw [@innerScan_yield [110, 117, 108, 108, 93, 44, 91, 110, 117, 108, 108, 93, 93] 110
      [117, 108, 108, 93, 44, 91, 110, 117, 108, 108, 93, 93]
      (JVal.null, [93, 44, 91, 110, 117, 108, 108, 93, 93]) rfl (by decide) (by decide) rfl]
    show (JVal.null :: (innerScan [93, 44, 91, 110, 117, 108, 108, 93, 93]).1,
      (innerScan [93, 44, 91, 110, 117, 108, 108, 93, 93]).2) = ([JVal.null], none)
    rw [h7]
  have h9 : innerScan [91, 110, 117, 108, 108, 93, 44, 91, 110, 117, 108, 108, 93, 93]
      = ([JVal.null], none) := by
    rw [@innerScan_skip [91, 110, 117, 108, 108, 93, 44, 91, 110, 117, 108, 108, 93, 93] 91
      [110, 117, 108, 108, 93, 44, 91, 110, 117, 108, 108, 93, 93] rfl (Or.inl rfl), h8]
  have h10 : innerScan [91, 91, 110, 117, 108, 108, 93, 44, 91, 110, 117, 108, 108, 93, 93]
      = ([JVal.null], none) := by
    rw [@innerScan_skip [91, 91, 110, 117, 108, 108, 93, 44, 91, 110, 117, 108, 108, 93, 93]
      91 [91, 110, 117, 108, 108, 93, 44, 91, 110, 117, 108, 108, 93, 93] rfl
      (Or.inl rfl), h9]
  refine ⟨rfl, hds1, hds2, ?_, rfl, ?_⟩
  · rw [hds1, hds2]
    simp
  · exact iterJsonArray_cons_done
      [91, 91, 110, 117, 108, 108, 93, 44, 91, 110, 117, 108, 108, 93, 93] [] [] h10

/-- C3 (amended): when the input ends before the closing `]`, the decoder
signals NO error: the `JSONDecodeError` is caught, the inner loop breaks,
and the generator silently ends, returning like a successful short
sequence.  When every element is scan-safe (neither an array nor a bare
number) the yielded sequence is exactly a prefix of the complete elements,
so no partially parsed element is emitted (first conjunct, for every cut
point and chunking).  Without that restriction even this fails: the
one-element document `[123]` truncated to `[12` silently yields the number
`12` (second conjunct), a value that is not among the document's elements
at all (third and fourth conjuncts). -/
theorem C3_truncation_silently_ends (chunks : List (List Nat)) (s : List Nat)
    (parts : List (List Nat × JVal)) (wend M : List Nat) :
    (sepOk s → partsOk parts → wsOnly wend → M ≠ [] →
      chunks.flatten ++ M = s ++ restDoc parts wend →
      ∃ k, iterJsonArray chunks [] = ((parts.take k).map (fun p => p.2), false)) ∧
    iterJsonArray [[91, 49, 50]] [] = ([JVal.num [49, 50]], false) ∧
    parseVal 7 [91, 49, 50, 51, 93] = some (JVal.arr [JVal.num [49, 50, 51]], []) ∧
    (∀ v, v ∈ [JVal.num [49, 50, 51]] → v ≠ JVal.num [49, 50]) := by
  refine ⟨?_, ?_, rfl, ?_⟩
  · intro hs hp hw hM heq
    exact streamTrunc chunks [] s parts wend M hs hp hw hM heq (Or.inl rfl)
  · have h4 : innerScan [49, 50] = ([JVal.num [49, 50]], some []) := by
      rw [@innerScan_yield [49, 50] 49 [50] (JVal.num [49, 50], []) rfl
        (by decide) (by decide) rfl]
      show (JVal.num [49, 50] :: (innerScan []).1, (innerScan []).2)
        = ([JVal.num [49, 50]], some [])
      rw [innerScan_nil]
    have h5 : innerScan [91, 49, 50] = ([JVal.num [49, 50]], some []) := by
      rw [@innerScan_skip [91, 49, 50] 91 [49, 50] rfl (Or.inl rfl), h4]
    rw [iterJsonArray_cons_stall [91, 49, 50] [] [] [] h5]
    show ([JVal.num [49, 50]] ++ (innerScan []).1, ((innerScan []).2).isNone)
      = ([JVal.num [49, 50]], false)
    rw [innerScan_nil]
    rfl
  · intro v hv
    simp at hv
    subst hv
    simp

theorem C3_truncation_silently_ends_witness :
    ∃ k, iterJsonArray [[91, 110]] []
      = (([(([] : List Nat), JVal.null)].take k).map (fun p => p.2), false) :=
  (C3_truncation_silently_ends [[91, 110]] [91] [(([] : List Nat), JVal.null)] []
    [117, 108, 108, 93]).1
    (by
      intro c hc
      simp at hc
      subst hc
      exact Or.inr (Or.inl rfl))
    (by
      intro p hp
      simp at hp
      subst hp
      exact ⟨fun c hc => absurd hc (List.not_mem_nil c), Wf.null,
        fun xs h2 => JVal.noConfusion h2, fun lit h2 => JVal.noConfusion h2⟩)
    (by intro c hc; exact absurd hc (List.not_mem_nil c))
    (by simp)
    (by simp [restDoc, partText, renderVal])

/-- C3 counterexample, refuting both halves of the literal claim.  On the
truncated input `[{` the streaming decoder raises nothing and yields
nothing: it returns the empty sequence with the normal end-of-input flag —
indistinguishable in kind from a successful short sequence, not a distinct
fatal error.  And the truncated input `[12` (of the document `[123]`)
silently EMITS the number `12`, parsed from the cut-off element's leading
digits — so a partially parsed element IS emitted. -/
theorem C3_truncation_silently_ends_cx :
    iterJsonArray [[91, 123]] [] = ([], false) ∧
    iterJsonArray [[91, 49, 50]] [] = ([JVal.num [49, 50]], false) := by
  constructor
  · have h1 : innerScan [123] = ([], some [123]) :=
      @innerScan_stall_parse [123] 123 [] rfl (by decide) (by decide) rfl
    have h2 : innerScan [91, 123] = ([], some [123]) := by
      rw [@innerScan_skip [91, 123] 91 [123] rfl (Or.inl rfl), h1]
    rw [iterJsonArray_cons_stall [91, 123] [] [] [123] h2]
    show ([] ++ (innerScan [123]).1, ((innerScan [123]).2).isNone) = ([], false)
    rw [h1]
    rfl
  · have h4 : innerScan [49, 50] = ([JVal.num [49, 50]], some []) := by
      rw [@innerScan_yield [49, 50] 49 [50] (JVal.num [49, 50], []) rfl
        (by decide) (by decide) rfl]
      show (JVal.num [49, 50] :: (innerScan []).1, (innerScan []).2)
        = ([JVal.num [49, 50]], some [])
      rw [innerScan_nil]
    have h5 : innerScan [91, 49, 50] = ([JVal.num [49, 50]], some []) := by
      rw [@innerScan_skip [91, 49, 50] 91 [49, 50] rfl (Or.inl rfl), h4]
    rw [iterJsonArray_cons_stall [91, 49, 50] [] [] [] h5]
    show ([JVal.num [49, 50]] ++ (innerScan []).1, ((innerScan []).2).isNone)
      = ([JVal.num [49, 50]], false)
    rw [innerScan_nil]
    rfl

/-- `encodings.cp1252.decoding_table`: the character each byte decodes to.
Bytes 0x00–0x7F and 0xA0–0xFF decode to themselves; 0x80–0x9F decode to the
Windows-1252 specials; the five undefined bytes carry U+FFFE, the marker the
codec treats as an error. -/
def cp1252DecodingTable (b : Nat) : Nat :=
  if b = 0x80 then 0x20AC
  else if b = 0x82 then 0x201A
  else if b = 0x83 then 0x0192
  else if b = 0x84 then 0x201E
  else if b = 0x85 then 0x2026
  else if b = 0x86 then 0x2020
  else if b = 0x87 then 0x2021
  else if b = 0x88 then 0x02C6
  else if b = 0x89 then 0x2030
  else if b = 0x8A then 0x0160
  else if b = 0x8B then 0x2039
  else if b = 0x8C then 0x0152
  else if b = 0x8E then 0x017D
  else if b = 0x91 then 0x2018
  else if b = 0x92 then 0x2019
  else if b = 0x93 then 0x201C
  else if b = 0x94 then 0x201D
  else if b = 0x95 then 0x2022
  else if b = 0x96 then 0x2013
  else if b = 0x97 then 0x2014
  else if b = 0x98 then 0x02DC
  else if b = 0x99 then 0x2122
  else if b = 0x9A then 0x0161
  else if b = 0x9B then 0x203A
  else if b = 0x9C then 0x0153
  else if b = 0x9E then 0x017E
  else if b = 0x9F then 0x0178
  else if b = 0x81 ∨ b = 0x8D ∨ b = 0x8F ∨ b = 0x90 ∨ b = 0x9D then 0xFFFE
  else b

/-- `CP1252_REVERSE`: code point back to the byte that decodes to it, built
from the decoding table with the undefined (U+FFFE) entries left out; a code
point not in the table has no entry (`KeyError` in the script). -/
def cp1252Reverse (code : Nat) : Option Nat :=
  if code = 0xFFFE then none
  else (List.range 256).find? (fun b => cp1252DecodingTable b == code)

/-- Decoding a byte string with the cp1252 codec: each byte becomes one
character; an undefined byte raises `UnicodeDecodeError` (`none`). -/
def cp1252DecodeBytes : List Nat → Option (List Nat)
  | [] => some []
  | b :: t =>
    if cp1252DecodingTable b = 0xFFFE then none
    else (cp1252DecodeBytes t).map (fun r => cp1252DecodingTable b :: r)

/-- `_convert_cp1252`: each character of the text becomes one byte — the
code point itself when it is at most 0xFF, otherwise the reverse-table
entry; a character over 0xFF with no entry raises `KeyError` (`none`). -/
def convertCp1252 : List Nat → Option (List Nat)
  | [] => some []
  | c :: t =>
    if c ≤ 0xFF then (convertCp1252 t).map (fun r => c :: r)
    else
      match cp1252Reverse c with
      | none => none
      | some b => (convertCp1252 t).map (fun r => b :: r)

/-- UTF-8 encoding of one scalar value. -/
def utf8EncodeChar (c : Nat) : List Nat :=
  if c < 0x80 then [c]
  else if c < 0x800 then [0xC0 + c / 64, 0x80 + c % 64]
  else if c < 0x10000 then
    [0xE0 + c / 4096, 0x80 + (c / 64) % 64, 0x80 + c % 64]
  else [0xF0 + c / 262144, 0x80 + (c / 4096) % 64, 0x80 + (c / 64) % 64, 0x80 + c % 64]

/-- UTF-8 encoding of a string of scalar values. -/
def utf8EncodeStr (cs : List Nat) : List Nat := (cs.map utf8EncodeChar).flatten

/-- A UTF-8 continuation byte: value between 0x80 and 0xBF, contributing
its low six bits. -/
def contByte (b : Nat) : Option Nat :=
  if 0x80 ≤ b ∧ b < 0xC0 then some (b - 0x80) else none

/-- One continuation byte off the front of the input. -/
def cont1 : List Nat → Option (Nat × List Nat)
  | [] => none
  | b :: t => (contByte b).map (fun v => (v, t))

/-- Two continuation bytes off the front of the input. -/
def cont2 : List Nat → Option (Nat × List Nat)
  | b2 :: b3 :: t =>
    (contByte b2).bind (fun v2 => (contByte b3).map (fun v3 => (v2 * 64 + v3, t)))
  | _ => none

/-- Three continuation bytes off the front of the input. -/
def cont3 : List Nat → Option (Nat × List Nat)
  | b2 :: b3 :: b4 :: t =>
    (contByte b2).bind (fun v2 => (contByte b3).bind (fun v3 =>
      (contByte b4).map (fun v4 => ((v2 * 64 + v3) * 64 + v4, t))))
  | _ => none

/-- A strict, complete UTF-8 decode of a whole byte string (fuel-indexed so
that it reduces definitionally; one unit of fuel per decoded character
suffices): a malformed sequence, an overlong form, a surrogate, or a
sequence cut off by the end of the input all fail (`none`). -/
def utf8DecodeF : Nat → List Nat → Option (List Nat)
  | _, [] => some []
  | 0, _ :: _ => none
  | n + 1, b :: t =>
    if b < 0x80 then (utf8DecodeF n t).map (fun r => b :: r)
    else if b < 0xC2 then none
    else if b < 0xE0 then
      (cont1 t).bind (fun p =>
        (utf8DecodeF n p.2).map (fun r => ((b - 0xC0) * 64 + p.1) :: r))
    else if b < 0xF0 then
      (cont2 t).bind (fun p =>
        if (b - 0xE0) * 4096 + p.1 < 0x800
            ∨ (0xD800 ≤ (b - 0xE0) * 4096 + p.1 ∧ (b - 0xE0) * 4096 + p.1 < 0xE000) then
          none
        else (utf8DecodeF n p.2).map (fun r => ((b - 0xE0) * 4096 + p.1) :: r))
    else if b < 0xF5 then
      (cont3 t).bind (fun p =>
        if (b - 0xF0) * 262144 + p.1 < 0x10000 ∨ 0x110000 ≤ (b - 0xF0) * 262144 + p.1 then
          none
        else (utf8DecodeF n p.2).map (fun r => ((b - 0xF0) * 262144 + p.1) :: r))
    else none

/-- What one part's fresh incremental decoder computes over the part, with
`decode(b'', final=True)` at the end: the strict, complete UTF-8 decode of
the part's whole byte content, raising `UnicodeDecodeError` (`none`) on any
malformed or cut-off sequence. -/
def utf8Decode (l : List Nat) : Option (List Nat) := utf8DecodeF l.length l

theorem utf8DecodeF_nil (n : Nat) : utf8DecodeF n [] = some [] := by
  cases n with
  | zero => rfl
  | succ k => rfl

theorem utf8DecodeF_cons (n b : Nat) (t : List Nat) :
    utf8DecodeF (n + 1) (b :: t)
      = (if b < 0x80 then (utf8DecodeF n t).map (fun r => b :: r)
        else if b < 0xC2 then none
        else if b < 0xE0 then
          (cont1 t).bind (fun p =>
            (utf8DecodeF n p.2).map (fun r => ((b - 0xC0) * 64 + p.1) :: r))
        else if b < 0xF0 then
          (cont2 t).bind (fun p =>
            if (b - 0xE0) * 4096 + p.1 < 0x800
                ∨ (0xD800 ≤ (b - 0xE0) * 4096 + p.1
                  ∧ (b - 0xE0) * 4096 + p.1 < 0xE000) then
              none
            else (utf8DecodeF n p.2).map (fun r => ((b - 0xE0) * 4096 + p.1) :: r))
        else if b < 0xF5 then
          (cont3 t).bind (fun p =>
            if (b - 0xF0) * 262144 + p.1 < 0x10000
                ∨ 0x110000 ≤ (b - 0xF0) * 262144 + p.1 then
              none
            else (utf8DecodeF n p.2).map (fun r => ((b - 0xF0) * 262144 + p.1) :: r))
        else none) := rfl

/-- `rebuild_gzip` over the fragment files: each part gets a FRESH
incremental UTF-8 decoder, its decoded text is converted back to bytes with
`_convert_cp1252`, and the parts' outputs are concatenated in order; a
decode or conversion error in any part raises (`none`).  (The 1MB read
chunking within a part is invisible: the incremental decoder carries its
state across reads of the same part, so a part contributes exactly the
strict decode of its whole byte content.) -/
def rebuildGzip : List (List Nat) → Option (List Nat)
  | [] => some []
  | p :: rest =>
    match utf8Decode p with
    | none => none
    | some txt =>
      match convertCp1252 txt with
      | none => none
      | some bs =>
        match rebuildGzip rest with
        | none => none
        | some out => some (bs ++ out)

/-- A Unicode scalar value: in range and not a surrogate. -/
def validScalar (c : Nat) : Prop :=
  c < 0x110000 ∧ ¬(0xD800 ≤ c ∧ c < 0xE000)

/-- One byte per character and never empty. -/
theorem utf8EncodeChar_len (c : Nat) : 1 ≤ (utf8EncodeChar c).length := by
  simp only [utf8EncodeChar]
  split_ifs <;> simp

/-- UTF-8 decode is a left inverse of UTF-8 encode on scalar values, for
any sufficient fuel. -/
theorem utf8_rtF : ∀ (cs : List Nat) (n : Nat), (∀ c ∈ cs, validScalar c) →
    (utf8EncodeStr cs).length ≤ n →
    utf8DecodeF n (utf8EncodeStr cs) = some cs := by
  intro cs
  induction cs with
  | nil =>
    intro n h hn
    exact utf8DecodeF_nil n
  | cons c t ih =>
    intro n h hn
    obtain ⟨hlt, hsur⟩ := h c (by simp)
    have hht : ∀ d ∈ t, validScalar d := fun d hd => h d (by simp [hd])
    have hsplit : (utf8EncodeStr (c :: t)).length
        = (utf8EncodeChar c).length + (utf8EncodeStr t).length := by
      simp [utf8EncodeStr]
    have hchar := utf8EncodeChar_len c
    obtain ⟨m, rfl⟩ : ∃ m, n = m + 1 := ⟨n - 1, by omega⟩
    have hrest : (utf8EncodeStr t).length ≤ m := by omega
    have ht := ih m hht hrest
    rw [show utf8EncodeStr (c :: t) = utf8EncodeChar c ++ utf8EncodeStr t from by
      simp [utf8EncodeStr]]
    by_cases h1 : c < 0x80
    · rw [show utf8EncodeChar c = [c] from by simp [utf8EncodeChar, h1]]
      rw [show ([c] : List Nat) ++ utf8EncodeStr t = c :: utf8EncodeStr t from rfl]
      rw [utf8DecodeF_cons, if_pos h1, ht]
      rfl
    · by_cases h2 : c < 0x800
      · rw [show utf8EncodeChar c = [0xC0 + c / 64, 0x80 + c % 64] from by
          simp [utf8EncodeChar, h1, h2]]
        rw [show ([0xC0 + c / 64, 0x80 + c % 64] : List Nat) ++ utf8EncodeStr t
            = (0xC0 + c / 64) :: ((0x80 + c % 64) :: utf8EncodeStr t) from rfl]
        rw [utf8DecodeF_cons, if_neg (by omega), if_neg (by omega), if_pos (by omega)]
        have hb2 : contByte (0x80 + c % 64) = some (0x80 + c % 64 - 0x80) := by
          simp only [contByte]
          rw [if_pos (by omega)]
        have hc1 : cont1 ((0x80 + c % 64) :: utf8EncodeStr t)
            = some (0x80 + c % 64 - 0x80, utf8EncodeStr t) := by
          simp only [cont1, hb2]
          rfl
        rw [hc1]
        simp only [Option.some_bind]
        rw [ht]
        have hX : (0xC0 + c / 64 - 0xC0) * 64 + (0x80 + c % 64 - 0x80) = c := by omega
        exact congrArg some (by rw [hX])
      · by_cases h3 : c < 0x10000
        · rw [show utf8EncodeChar c
              = [0xE0 + c / 4096, 0x80 + c / 64 % 64, 0x80 + c % 64] from by
            simp [utf8EncodeChar, h1, h2, h3]]
          rw [show ([0xE0 + c / 4096, 0x80 + c / 64 % 64, 0x80 + c % 64] : List Nat)
              ++ utf8EncodeStr t
              = (0xE0 + c / 4096) :: ((0x80 + c / 64 % 64)
                :: ((0x80 + c % 64) :: utf8EncodeStr t)) from rfl]
          rw [utf8DecodeF_cons, if_neg (by omega), if_neg (by omega), if_neg (by omega),
            if_pos (by omega)]
          have hb2 : contByte (0x80 + c / 64 % 64) = some (0x80 + c / 64 % 64 - 0x80) := by
            simp only [contByte]
            rw [if_pos (by omega)]
          have hb3 : contByte (0x80 + c % 64) = some (0x80 + c % 64 - 0x80) := by
            simp only [contByte]
            rw [if_pos (by omega)]
          have hc2 : cont2 ((0x80 + c / 64 % 64) :: ((0x80 + c % 64) :: utf8EncodeStr t))
              = some ((0x80 + c / 64 % 64 - 0x80) * 64 + (0x80 + c % 64 - 0x80),
                utf8EncodeStr t) := by
            simp only [cont2, hb2, hb3, Option.some_bind]
            rfl
          rw [hc2]
          simp only [Option.some_bind]
          rw [if_neg (by omega)]
          rw [ht]
          have hX : (0xE0 + c / 4096 - 0xE0) * 4096
              + ((0x80 + c / 64 % 64 - 0x80) * 64 + (0x80 + c % 64 - 0x80)) = c := by
            omega
          exact congrArg some (by rw [hX])
        · rw [show utf8EncodeChar c
              = [0xF0 + c / 262144, 0x80 + c / 4096 % 64, 0x80 + c / 64 % 64,
                0x80 + c % 64] from by
            simp [utf8EncodeChar, h1, h2, h3]]
          rw [show ([0xF0 + c / 262144, 0x80 + c / 4096 % 64, 0x80 + c / 64 % 64,
                0x80 + c % 64] : List Nat) ++ utf8EncodeStr t
              = (0xF0 + c / 262144) :: ((0x80 + c / 4096 % 64) :: ((0x80 + c / 64 % 64)
                :: ((0x80 + c % 64) :: utf8EncodeStr t))) from rfl]
          rw [utf8DecodeF_cons, if_neg (by omega), if_neg (by omega), if_neg (by omega),
            if_neg (by omega), if_pos (by omega)]
          have hb2 : contByte (0x80 + c / 4096 % 64)
              = some (0x80 + c / 4096 % 64 - 0x80) := by
            simp only [contByte]
            rw [if_pos (by omega)]
          have hb3 : contByte (0x80 + c / 64 % 64) = some (0x80 + c / 64 % 64 - 0x80) := by
            simp only [contByte]
            rw [if_pos (by omega)]
          have hb4 : contByte (0x80 + c % 64) = some (0x80 + c % 64 - 0x80) := by
            simp only [contByte]
            rw [if_pos (by omega)]
          have hc3 : cont3 ((0x80 + c / 4096 % 64) :: ((0x80 + c / 64 % 64)
                :: ((0x80 + c % 64) :: utf8EncodeStr t)))
              = some (((0x80 + c / 4096 % 64 - 0x80) * 64 + (0x80 + c / 64 % 64 - 0x80))
                  * 64 + (0x80 + c % 64 - 0x80), utf8EncodeStr t) := by
            simp only [cont3, hb2, hb3, hb4, Option.some_bind]
            rfl
          rw [hc3]
          simp only [Option.some_bind]
          rw [if_neg (by omega)]
          rw [ht]
          have hX : (0xF0 + c / 262144 - 0xF0) * 262144
              + (((0x80 + c / 4096 % 64 - 0x80) * 64 + (0x80 + c / 64 % 64 - 0x80)) * 64
                + (0x80 + c % 64 - 0x80)) = c := by
            omega
          exact congrArg some (by rw [hX])

/-- UTF-8 decode is a left inverse of UTF-8 encode on scalar values. -/
theorem utf8_rt (cs : List Nat) (h : ∀ c ∈ cs, validScalar c) :
    utf8Decode (utf8EncodeStr cs) = some cs :=
  utf8_rtF cs (utf8EncodeStr cs).length h (le_refl _)

set_option maxRecDepth 10000 in
set_option maxHeartbeats 1000000 in
/-- Per byte: the cp1252 decoding table followed by `_convert_cp1252`'s
byte choice returns the original byte, for every defined byte. -/
theorem cp1252_table_inverse : ∀ b < 256, cp1252DecodingTable b ≠ 0xFFFE →
    (cp1252DecodingTable b ≤ 0xFF → cp1252DecodingTable b = b)
    ∧ (0xFF < cp1252DecodingTable b → cp1252Reverse (cp1252DecodingTable b) = some b) := by
  decide

set_option maxRecDepth 10000 in
/-- Every defined cp1252 table entry is a Unicode scalar value. -/
theorem cp1252_table_scalar : ∀ b < 256, cp1252DecodingTable b ≠ 0xFFFE →
    cp1252DecodingTable b < 0x110000
    ∧ ¬(0xD800 ≤ cp1252DecodingTable b ∧ cp1252DecodingTable b < 0xE000) := by
  decide

/-- `_convert_cp1252` inverts the cp1252 decode of any defined byte string. -/
theorem convert_decode : ∀ (bs : List Nat),
    (∀ b ∈ bs, b < 256 ∧ cp1252DecodingTable b ≠ 0xFFFE) →
    convertCp1252 (bs.map cp1252DecodingTable) = some bs := by
  intro bs
  induction bs with
  | nil => intro h; rfl
  | cons b t ih =>
    intro h
    obtain ⟨hb, hnd⟩ := h b (by simp)
    have ht := ih (fun d hd => h d (by simp [hd]))
    rw [List.map_cons]
    simp only [convertCp1252]
    by_cases hle : cp1252DecodingTable b ≤ 0xFF
    · rw [if_pos hle, ht]
      have hbb := (cp1252_table_inverse b hb hnd).1 hle
      exact congrArg some (by rw [hbb])
    · rw [if_neg hle]
      have hrev := (cp1252_table_inverse b hb hnd).2 (by omega)
      simp [hrev, ht]

/-- `rebuild_gzip` reproduces the original bytes when every fragment
boundary falls on a character boundary of the corrupted text. -/
theorem rebuildGzip_parts : ∀ (parts : List (List Nat)),
    (∀ p ∈ parts, ∀ b ∈ p, b < 256 ∧ cp1252DecodingTable b ≠ 0xFFFE) →
    rebuildGzip (parts.map (fun p => utf8EncodeStr (p.map cp1252DecodingTable)))
      = some parts.flatten := by
  intro parts
  induction parts with
  | nil => intro h; rfl
  | cons p rest ih =>
    intro h
    have hp := h p (by simp)
    have hdec : utf8Decode (utf8EncodeStr (p.map cp1252DecodingTable))
        = some (p.map cp1252DecodingTable) := by
      apply utf8_rt
      intro c hc
      obtain ⟨b, hb, rfl⟩ := List.mem_map.mp hc
      obtain ⟨hb1, hb2⟩ := hp b hb
      exact ⟨(cp1252_table_scalar b hb1 hb2).1, (cp1252_table_scalar b hb1 hb2).2⟩
    have hconv := convert_decode p hp
    have hrest := ih (fun q hq => h q (by simp [hq]))
    rw [List.map_cons]
    simp only [rebuildGzip, hdec, hconv, hrest]
    simp

/-- A character `_convert_cp1252` can convert: code point at most 0xFF, or
present in the reverse table. -/
def convertibleChar (c : Nat) : Prop := c ≤ 0xFF ∨ (cp1252Reverse c).isSome = true

/-- `_convert_cp1252` succeeds on convertible text, one byte per character. -/
theorem convert_total : ∀ (s : List Nat), (∀ c ∈ s, convertibleChar c) →
    ∃ b, convertCp1252 s = some b ∧ b.length = s.length := by
  intro s
  induction s with
  | nil => intro h; exact ⟨[], rfl, rfl⟩
  | cons c t ih =>
    intro h
    obtain ⟨bt, hbt, hlen⟩ := ih (fun d hd => h d (by simp [hd]))
    by_cases hle : c ≤ 0xFF
    · refine ⟨c :: bt, ?_, by simp [hlen]⟩
      simp only [convertCp1252]
      rw [if_pos hle, hbt]
      rfl
    · rcases h c (by simp) with hc | hsome
      · exact absurd hc hle
      · obtain ⟨b, hb⟩ := Option.isSome_iff_exists.mp hsome
        refine ⟨b :: bt, ?_, by simp [hlen]⟩
        simp only [convertCp1252]
        rw [if_neg hle]
        simp [hb, hbt]

/-- `_convert_cp1252` distributes over concatenation. -/
theorem convert_append : ∀ (s1 s2 : List Nat) (b1 b2 : List Nat),
    convertCp1252 s1 = some b1 → convertCp1252 s2 = some b2 →
    convertCp1252 (s1 ++ s2) = some (b1 ++ b2) := by
  intro s1
  induction s1 with
  | nil =>
    intro s2 b1 b2 h1 h2
    have h1x : (some ([] : List Nat)) = some b1 := h1
    obtain rfl : b1 = [] := by simpa using h1x.symm
    simpa using h2
  | cons c t ih =>
    intro s2 b1 b2 h1 h2
    rw [List.cons_append]
    simp only [convertCp1252] at h1 ⊢
    by_cases hle : c ≤ 0xFF
    · rw [if_pos hle] at h1 ⊢
      cases hbt : convertCp1252 t with
      | none =>
        rw [hbt] at h1
        exact absurd h1 (by simp)
      | some bt =>
        rw [hbt] at h1
        obtain rfl : c :: bt = b1 := by simpa using h1
        rw [ih s2 bt b2 hbt h2]
        simp
    · rw [if_neg hle] at h1 ⊢
      cases hrev : cp1252Reverse c with
      | none =>
        simp only [hrev] at h1
        exact absurd h1 (by simp)
      | some b =>
        simp only [hrev] at h1 ⊢
        cases hbt : convertCp1252 t with
        | none =>
          rw [hbt] at h1
          exact absurd h1 (by simp)
        | some bt =>
          rw [hbt] at h1
          obtain rfl : b :: bt = b1 := by simpa using h1
          rw [ih s2 bt b2 hbt h2]
          simp

/-- C1 (amended): the recovery round-trips — `rebuild_gzip` over the
fragments reproduces the original byte stream — whenever every fragment
boundary falls on a CHARACTER boundary of the corrupted (cp1252-decoded,
then UTF-8 encoded) text; equivalently, for every split of the original
defined bytes into parts, each encoded separately.  The restriction is
necessary: a fresh incremental decoder is created per fragment, so a
mid-character split raises instead of round-tripping (see counterexample). -/
theorem C1_rebuild_roundtrip_char_boundaries (parts : List (List Nat))
    (h : ∀ p ∈ parts, ∀ b ∈ p, b < 256 ∧ cp1252DecodingTable b ≠ 0xFFFE) :
    rebuildGzip (parts.map (fun p => utf8EncodeStr (p.map cp1252DecodingTable)))
      = some parts.flatten :=
  rebuildGzip_parts parts h

set_option maxRecDepth 2000 in
theorem C1_rebuild_roundtrip_char_boundaries_witness :
    rebuildGzip (([[0x80], [65, 66]] : List (List Nat)).map
        (fun p => utf8EncodeStr (p.map cp1252DecodingTable)))
      = some ([[0x80], [65, 66]] : List (List Nat)).flatten :=
  C1_rebuild_roundtrip_char_boundaries [[0x80], [65, 66]] (by decide)

/-- C1 counterexample: the original byte 0x80 is cp1252-decoded to U+20AC,
UTF-8 encoded as E2 82 AC; splitting those three bytes into the fragments
`E2` and `82 AC` — a split inside one multi-byte sequence — makes
`rebuild_gzip` raise `UnicodeDecodeError` (`none`): the decoder is created
fresh for each fragment, so the pending bytes are not carried across the
boundary.  The unsplit fragment list reproduces the original byte. -/
theorem C1_rebuild_roundtrip_char_boundaries_cx :
    cp1252DecodeBytes [0x80] = some [0x20AC] ∧
    utf8EncodeStr [0x20AC] = [0xE2, 0x82, 0xAC] ∧
    ([[0xE2], [0x82, 0xAC]] : List (List Nat)).flatten = [0xE2, 0x82, 0xAC] ∧
    rebuildGzip [[0xE2], [0x82, 0xAC]] = none ∧
    rebuildGzip [[0xE2, 0x82, 0xAC]] = some [0x80] :=
  ⟨rfl, rfl, rfl, rfl, by decide⟩

/-- C10: on convertible text (every character's code point at most 0xFF or
in the reverse table), `_convert_cp1252` emits exactly one byte per input
character — output length equals input length — and distributes over
concatenation. -/
theorem C10_convert_one_byte_per_char (s1 s2 : List Nat)
    (h1 : ∀ c ∈ s1, convertibleChar c) (h2 : ∀ c ∈ s2, convertibleChar c) :
    ∃ b1 b2, convertCp1252 s1 = some b1 ∧ convertCp1252 s2 = some b2 ∧
      b1.length = s1.length ∧ b2.length = s2.length ∧
      convertCp1252 (s1 ++ s2) = some (b1 ++ b2) := by
  obtain ⟨b1, hb1, hl1⟩ := convert_total s1 h1
  obtain ⟨b2, hb2, hl2⟩ := convert_total s2 h2
  exact ⟨b1, b2, hb1, hb2, hl1, hl2, convert_append s1 s2 b1 b2 hb1 hb2⟩

theorem C10_convert_one_byte_per_char_witness :
    ∃ b1 b2, convertCp1252 [65] = some b1 ∧ convertCp1252 [0x20AC] = some b2 ∧
      b1.length = ([65] : List Nat).length ∧ b2.length = ([0x20AC] : List Nat).length ∧
      convertCp1252 ([65] ++ [0x20AC]) = some (b1 ++ b2) :=
  C10_convert_one_byte_per_char [65] [0x20AC]
    (by
      intro c hc
      simp at hc
      subst hc
      exact Or.inl (by decide))
    (by
      intro c hc
      simp at hc
      subst hc
      exact Or.inr (by decide))

/-- Python truthiness of a numeric literal: zero iff every character is a
zero digit, a sign, or a dot. -/
def numIsZero (lit : List Nat) : Bool :=
  lit.all (fun c => c == 48 || c == 45 || c == 46)

/-- Python truthiness of a JSON-parsed value: `None`, `False`, zero,
and empty containers/strings are falsy. -/
def jTruthy : JVal → Bool
  | JVal.null => false
  | JVal.bool b => b
  | JVal.num lit => !numIsZero lit
  | JVal.str s => !s.isEmpty
  | JVal.arr xs => !xs.isEmpty
  | JVal.obj ms => !ms.isEmpty

/-- Python `str.strip()`: drop whitespace from both ends (ASCII range). -/
def pyStrip (s : List Nat) : List Nat :=
  ((s.dropWhile (fun c => isPySpace c)).reverse.dropWhile (fun c => isPySpace c)).reverse

/-- Python `str.lower()` (ASCII range). -/
def pyLower (s : List Nat) : List Nat :=
  s.map (fun c => if 65 ≤ c && c ≤ 90 then c + 32 else c)

/-- Python `str()` of a JSON-parsed value.  Strings pass through; `None`,
`True`, `False` take their Python spellings; a number takes its literal
text (canonical for the inputs at hand); the container cases take the JSON
rendering as a stand-in for Python repr — no claim below inspects them. -/
def pyStr : JVal → List Nat
  | JVal.null => [78, 111, 110, 101]
  | JVal.bool true => [84, 114, 117, 101]
  | JVal.bool false => [70, 97, 108, 115, 101]
  | JVal.num lit => lit
  | JVal.str s => s
  | JVal.arr xs => renderVal (JVal.arr xs)
  | JVal.obj ms => renderVal (JVal.obj ms)

/-- Python `row.get(key)`: the value in the parsed-JSON dict, `None` when
absent; a duplicated JSON key keeps the last occurrence, as `json.loads`
does. -/
def jGet (ms : List (List Nat × JVal)) (k : List Nat) : JVal :=
  match ms.reverse.find? (fun m => m.1 == k) with
  | some m => m.2
  | none => JVal.null

/-- Python `value or None`. -/
def jOrNone (v : JVal) : JVal := if jTruthy v then v else JVal.null

/-- `stripped.startswith('(') and stripped.endswith(')')`. -/
def parenWrapped (t : List Nat) : Bool :=
  t.head? == some 40 && t.getLast? == some 41

/-- `_normalize_number`: falsy input returns `None`; a string is stripped,
one enclosing parenthesis pair is removed (without re-trimming), empty
becomes `None`; a truthy non-string hits `value.strip()` and raises
`AttributeError` (`none`). -/
def normalizeNumber : JVal → Option (Option (List Nat))
  | JVal.str s =>
    if s.isEmpty then some none
    else
      if parenWrapped (pyStrip s) then
        some (if (((pyStrip s).drop 1).dropLast).isEmpty then none
          else some (((pyStrip s).drop 1).dropLast))
      else some (if (pyStrip s).isEmpty then none else some (pyStrip s))
  | v => if jTruthy v then none else some none

/-- `_normalize_list`: falsy becomes `[]`; a list keeps its truthy items,
stringified; any other truthy value becomes a one-element list. -/
def normalizeList : JVal → List (List Nat)
  | JVal.arr xs => if xs.isEmpty then [] else (xs.filter (fun x => jTruthy x)).map pyStr
  | v => if jTruthy v then [pyStr v] else []

/-- `_normalize_neo`: booleans pass through, numbers map to truthiness,
strings are stripped and lowercased and matched against y/yes/true and
n/no/false; everything else is `None`. -/
def normalizeNeo : JVal → Option Bool
  | JVal.bool b => some b
  | JVal.num lit => some (!numIsZero lit)
  | JVal.str s =>
    if pyLower (pyStrip s) == [121] || pyLower (pyStrip s) == [121, 101, 115]
        || pyLower (pyStrip s) == [116, 114, 117, 101] then some true
    else if pyLower (pyStrip s) == [110] || pyLower (pyStrip s) == [110, 111]
        || pyLower (pyStrip s) == [102, 97, 108, 115, 101] then some false
    else none
  | _ => none

/-- The comet name extraction of `build_index`: when the designation
contains `(` and ends with `)`, the text after the LAST `(`
(`rsplit('(', 1)`), with the final `)` removed, stripped, empty → `None`;
otherwise no name. -/
def cometName (s : List Nat) : Option (List Nat) :=
  if s.contains 40 && s.getLast? == some 41 then
    if (pyStrip ((s.reverse.takeWhile (fun c => !(c == 40))).reverse.dropLast)).isEmpty then
      none
    else some (pyStrip ((s.reverse.takeWhile (fun c => !(c == 40))).reverse.dropLast))
  else none

def kNumberRaw : List Nat := [78, 117, 109, 98, 101, 114]
def kNameRaw : List Nat := [78, 97, 109, 101]
def kPrincipalDesigRaw : List Nat := [80, 114, 105, 110, 99, 105, 112, 97, 108, 95, 100, 101, 115, 105, 103]
def kOtherDesigsRaw : List Nat := [79, 116, 104, 101, 114, 95, 100, 101, 115, 105, 103, 115]
def kHRaw : List Nat := [72]
def kGRaw : List Nat := [71]
def kEpochRaw : List Nat := [69, 112, 111, 99, 104]
def kOrbitTypeRaw : List Nat := [79, 114, 98, 105, 116, 95, 116, 121, 112, 101]
def kNeoRaw : List Nat := [78, 101, 111]
def kDesigAndNameRaw : List Nat := [68, 101, 115, 105, 103, 110, 97, 116, 105, 111, 110, 95, 97, 110, 100, 95, 110, 97, 109, 101]
def kProvPackedRaw : List Nat := [80, 114, 111, 118, 105, 115, 105, 111, 110, 97, 108, 95, 112, 97, 99, 107, 101, 100, 95, 100, 101, 115, 105, 103]

def kType : List Nat := [116, 121, 112, 101]
def kNumber : List Nat := [110, 117, 109, 98, 101, 114]
def kName : List Nat := [110, 97, 109, 101]
def kPrincipal : List Nat := [112, 114, 105, 110, 99, 105, 112, 97, 108]
def kOther : List Nat := [111, 116, 104, 101, 114]
def kH : List Nat := [104]
def kG : List Nat := [103]
def kEpoch : List Nat := [101, 112, 111, 99, 104]
def kOrbit : List Nat := [111, 114, 98, 105, 116]
def kNeo : List Nat := [110, 101, 111]
def kDesignation : List Nat := [100, 101, 115, 105, 103, 110, 97, 116, 105, 111, 110]
def kPacked : List Nat := [112, 97, 99, 107, 101, 100]
def sAst : List Nat := [97, 115, 116]
def sCom : List Nat := [99, 111, 109]
def kMetadata : List Nat := [109, 101, 116, 97, 100, 97, 116, 97]
def kAsteroidCount : List Nat := [97, 115, 116, 101, 114, 111, 105, 100, 67, 111, 117, 110, 116]
def kCometCount : List Nat := [99, 111, 109, 101, 116, 67, 111, 117, 110, 116]
def kSource : List Nat := [115, 111, 117, 114, 99, 101]
def kEntries : List Nat := [101, 110, 116, 114, 105, 101, 115]
def sSourceText : List Nat := [74, 80, 76, 32, 83, 66, 68, 66, 32, 109, 112, 99, 111, 114, 98, 95, 101, 120, 116, 101, 110, 100, 101, 100, 32, 43, 32, 99, 111, 109, 101, 116, 32, 101, 108, 115]

def optStr : Option (List Nat) → JVal
  | none => JVal.null
  | some s => JVal.str s

def optBool : Option Bool → JVal
  | none => JVal.null
  | some b => JVal.bool b

/-- One normalized asteroid record of `build_index` (the dict literal of
the asteroid loop); `none` when `_normalize_number` raises. -/
def asteroidEntry (row : List (List Nat × JVal)) : Option JVal :=
  match normalizeNumber (jGet row kNumberRaw) with
  | none => none
  | some numv =>
    some (JVal.obj
      [(kType, JVal.str sAst),
       (kNumber, optStr numv),
       (kName, jOrNone (jGet row kNameRaw)),
       (kPrincipal, jOrNone (jGet row kPrincipalDesigRaw)),
       (kOther, JVal.arr ((normalizeList (jGet row kOtherDesigsRaw)).map JVal.str)),
       (kH, jGet row kHRaw),
       (kG, jGet row kGRaw),
       (kEpoch, jGet row kEpochRaw),
       (kOrbit, jOrNone (jGet row kOrbitTypeRaw)),
       (kNeo, optBool (normalizeNeo (jGet row kNeoRaw)))])

/-- Is this value the Python string `'('`? (`==` inside `in`.) -/
def isParenStr : JVal → Bool
  | JVal.str s => s == [40]
  | _ => false

/-- The comet record for a given (truthy-or-defaulted) designation value.
A string designation takes the name split; `'(' in designation` raises
`TypeError` on a number or `True`; on a list or dict it is a membership
test, and only when it succeeds does `.endswith` then raise. -/
def cometEntryD : JVal → List (List Nat × JVal) → Option JVal
  | JVal.str s, row =>
    some (JVal.obj
      [(kType, JVal.str sCom),
       (kDesignation, JVal.str s),
       (kName, optStr (cometName s)),
       (kPacked, jOrNone (jGet row kProvPackedRaw)),
       (kOrbit, jOrNone (jGet row kOrbitTypeRaw)),
       (kH, jGet row kHRaw),
       (kG, jGet row kGRaw)])
  | JVal.arr xs, row =>
    if xs.any (fun x => isParenStr x) then none
    else
      some (JVal.obj
        [(kType, JVal.str sCom),
         (kDesignation, JVal.arr xs),
         (kName, JVal.null),
         (kPacked, jOrNone (jGet row kProvPackedRaw)),
         (kOrbit, jOrNone (jGet row kOrbitTypeRaw)),
         (kH, jGet row kHRaw),
         (kG, jGet row kGRaw)])
  | JVal.obj ms, row =>
    if ms.any (fun m => m.1 == [40]) then none
    else
      some (JVal.obj
        [(kType, JVal.str sCom),
         (kDesignation, JVal.obj ms),
         (kName, JVal.null),
         (kPacked, jOrNone (jGet row kProvPackedRaw)),
         (kOrbit, jOrNone (jGet row kOrbitTypeRaw)),
         (kH, jGet row kHRaw),
         (kG, jGet row kGRaw)])
  | _, _ => none

/-- One normalized comet record of `build_index`'s comet loop:
`designation = row.get('Designation_and_name') or ''` then the dict
literal; `none` when the name split raises. -/
def cometEntry (row : List (List Nat × JVal)) : Option JVal :=
  cometEntryD
    (if jTruthy (jGet row kDesigAndNameRaw) then jGet row kDesigAndNameRaw
      else JVal.str []) row

/-- `row` as the asteroid loop uses it: `.get` on a non-dict raises. -/
def rowEntryAst : JVal → Option JVal
  | JVal.obj ms => asteroidEntry ms
  | _ => none

/-- `row` as the comet loop uses it. -/
def rowEntryCom : JVal → Option JVal
  | JVal.obj ms => cometEntry ms
  | _ => none

/-- The asteroid loop: append the normalized record, then stop as soon as
the list has reached the cap (`if len(asteroids) >= ASTEROID_LIMIT: break`).
`limit` is the remaining capacity. -/
def astLoop : Nat → List JVal → Option (List JVal)
  | _, [] => some []
  | limit, r :: rest =>
    match rowEntryAst r with
    | none => none
    | some e =>
      if limit ≤ 1 then some [e]
      else (astLoop (limit - 1) rest).map (fun l => e :: l)

/-- The comet loop: every row, no cap. -/
def cometLoop : List JVal → Option (List JVal)
  | [] => some []
  | r :: rest =>
    match rowEntryCom r with
    | none => none
    | some e => (cometLoop rest).map (fun l => e :: l)

/-- The decimal literal of a count, as `json.dump` writes it. -/
def natLit (n : Nat) : List Nat := (Nat.toDigits 10 n).map Char.toNat

/-- The payload `build_index` assembles: metadata with the two counts and
the source line, then the asteroid records followed by the comet records. -/
def buildIndexPayload (limit : Nat) (astRows cometRows : List JVal) : Option JVal :=
  match astLoop limit astRows with
  | none => none
  | some asts =>
    match cometLoop cometRows with
    | none => none
    | some coms =>
      some (JVal.obj
        [(kMetadata, JVal.obj
          [(kAsteroidCount, JVal.num (natLit asts.length)),
           (kCometCount, JVal.num (natLit coms.length)),
           (kSource, JVal.str sSourceText)]),
         (kEntries, JVal.arr (asts ++ coms))])

theorem dropWhile_head_false (p : Nat → Bool) : ∀ (l : List Nat) (c : Nat),
    (l.dropWhile p).head? = some c → p c = false := by
  intro l
  induction l with
  | nil =>
    intro c h
    simp at h
  | cons a t ih =>
    intro c h
    rw [List.dropWhile_cons] at h
    by_cases hp : p a = true
    · rw [if_pos hp] at h
      exact ih c h
    · rw [if_neg hp] at h
      simp at h
      rw [← h]
      exact Bool.not_eq_true _ |>.mp hp

theorem head_of_strip_keep (p : Nat → Bool) (u : List Nat) (c : Nat)
    (h : ((u.reverse.dropWhile p).reverse).head? = some c) : u.head? = some c := by
  have hdec : u = (u.reverse.dropWhile p).reverse ++ (u.reverse.takeWhile p).reverse := by
    have h1 : u.reverse.takeWhile p ++ u.reverse.dropWhile p = u.reverse :=
      List.takeWhile_append_dropWhile p u.reverse
    have h2 := congrArg List.reverse h1
    rw [List.reverse_append, List.reverse_reverse] at h2
    exact h2.symm
  cases hx : (u.reverse.dropWhile p).reverse with
  | nil =>
    rw [hx] at h
    simp at h
  | cons a t =>
    rw [hx] at h
    simp at h
    rw [hdec, hx]
    simp [h]

/-- The head of a stripped string is not whitespace. -/
theorem pyStrip_head_not_space (s : List Nat) (c : Nat)
    (h : (pyStrip s).head? = some c) : isPySpace c = false :=
  dropWhile_head_false _ s c
    (head_of_strip_keep (fun d => isPySpace d) (s.dropWhile (fun d => isPySpace d)) c h)

/-- The last character of a stripped string is not whitespace. -/
theorem pyStrip_last_not_space (s : List Nat) (c : Nat)
    (h : (pyStrip s).getLast? = some c) : isPySpace c = false := by
  rw [show pyStrip s
      = ((s.dropWhile (fun d => isPySpace d)).reverse.dropWhile
          (fun d => isPySpace d)).reverse from rfl] at h
  rw [List.getLast?_reverse] at h
  exact dropWhile_head_false _ _ c h

theorem takeWhile_all_append (p : Nat → Bool) : ∀ (l1 l2 : List Nat),
    (∀ x ∈ l1, p x = true) → (l1 ++ l2).takeWhile p = l1 ++ l2.takeWhile p := by
  intro l1
  induction l1 with
  | nil =>
    intro l2 h
    rfl
  | cons c t ih =>
    intro l2 h
    rw [List.cons_append, List.takeWhile_cons, if_pos (h c (by simp))]
    rw [ih l2 (fun x hx => h x (by simp [hx]))]
    simp

/-- `_normalize_number` returns (does not raise) whenever the value is
falsy or a string. -/
theorem normalizeNumber_total (v : JVal)
    (h : jTruthy v = true → ∃ s, v = JVal.str s) :
    ∃ o, normalizeNumber v = some o := by
  cases v with
  | str s =>
    simp only [normalizeNumber]
    split_ifs <;> exact ⟨_, rfl⟩
  | null => exact ⟨none, rfl⟩
  | bool b =>
    cases b with
    | false => exact ⟨none, rfl⟩
    | true =>
      obtain ⟨s, hs⟩ := h rfl
      exact absurd hs (by simp)
  | num lit =>
    cases hb : jTruthy (JVal.num lit) with
    | false =>
      refine ⟨none, ?_⟩
      simp [normalizeNumber, hb]
    | true =>
      obtain ⟨s, hs⟩ := h hb
      exact absurd hs (by simp)
  | arr xs =>
    cases hb : jTruthy (JVal.arr xs) with
    | false =>
      refine ⟨none, ?_⟩
      simp [normalizeNumber, hb]
    | true =>
      obtain ⟨s, hs⟩ := h hb
      exact absurd hs (by simp)
  | obj ms =>
    cases hb : jTruthy (JVal.obj ms) with
    | false =>
      refine ⟨none, ?_⟩
      simp [normalizeNumber, hb]
    | true =>
      obtain ⟨s, hs⟩ := h hb
      exact absurd hs (by simp)

/-- The asteroid loop yields exactly the first `limit` rows' records, in
order, when every row normalizes. -/
theorem astLoop_spec : ∀ (rows : List JVal) (limit : Nat), 1 ≤ limit →
    (∀ r ∈ rows, ∃ e, rowEntryAst r = some e) →
    ∃ asts, astLoop limit rows = some asts ∧
      asts.map some = (rows.take limit).map rowEntryAst ∧
      asts.length = min limit rows.length := by
  intro rows
  induction rows with
  | nil =>
    intro limit h1 h2
    exact ⟨[], rfl, by simp, by simp⟩
  | cons r rest ih =>
    intro limit h1 h2
    obtain ⟨e, he⟩ := h2 r (by simp)
    by_cases hl : limit ≤ 1
    · obtain rfl : limit = 1 := by omega
      refine ⟨[e], ?_, ?_, ?_⟩
      · simp [astLoop, he]
      · simp [he]
      · simp
    · have h2t : ∀ q ∈ rest, ∃ e2, rowEntryAst q = some e2 :=
        fun q hq => h2 q (by simp [hq])
      obtain ⟨asts, ha1, ha2, ha3⟩ := ih (limit - 1) (by omega) h2t
      refine ⟨e :: asts, ?_, ?_, ?_⟩
      · simp only [astLoop, he]
        rw [if_neg hl, ha1]
        rfl
      · obtain ⟨k, rfl⟩ : ∃ k, limit = k + 1 := ⟨limit - 1, by omega⟩
        rw [List.take_succ_cons, List.map_cons, List.map_cons, he]
        rw [show (k + 1 - 1 : Nat) = k from rfl] at ha2
        rw [ha2]
      · obtain ⟨k, rfl⟩ : ∃ k, limit = k + 1 := ⟨limit - 1, by omega⟩
        rw [show (k + 1 - 1 : Nat) = k from rfl] at ha3
        simp only [List.length_cons, ha3, Nat.succ_min_succ]

/-- The comet loop yields every row's record, in order, when every row
normalizes. -/
theorem cometLoop_spec : ∀ (rows : List JVal),
    (∀ r ∈ rows, ∃ e, rowEntryCom r = some e) →
    ∃ coms, cometLoop rows = some coms ∧
      coms.map some = rows.map rowEntryCom ∧
      coms.length = rows.length := by
  intro rows
  induction rows with
  | nil =>
    intro h
    exact ⟨[], rfl, by simp, by simp⟩
  | cons r rest ih =>
    intro h
    obtain ⟨e, he⟩ := h r (by simp)
    obtain ⟨coms, h1, h2, h3⟩ := ih (fun q hq => h q (by simp [hq]))
    refine ⟨e :: coms, ?_, ?_, ?_⟩
    · simp only [cometLoop, he, h1]
      rfl
    · rw [List.map_cons, List.map_cons, he, h2]
    · simp [h3]

/-- C4 (amended): normalization of a raw record — asteroid or comet kind —
never raises and yields the fixed closed key set of its kind, PROVIDED the
number-like field (`Number` / `Designation_and_name`) is absent, falsy, or
a string.  Without that proviso the claim is false: `_normalize_number`
calls `.strip()` on any truthy value and the comet branch evaluates
`'(' in designation`, so a numeric field raises (see counterexample). -/
theorem C4_normalization_total (ms ms2 : List (List Nat × JVal))
    (hnum : jTruthy (jGet ms kNumberRaw) = true → ∃ s, jGet ms kNumberRaw = JVal.str s)
    (hdes : jTruthy (jGet ms2 kDesigAndNameRaw) = true →
      ∃ s, jGet ms2 kDesigAndNameRaw = JVal.str s) :
    (∃ fields, asteroidEntry ms = some (JVal.obj fields) ∧
      fields.map (fun f => f.1)
        = [kType, kNumber, kName, kPrincipal, kOther, kH, kG, kEpoch, kOrbit, kNeo]) ∧
    (∃ fields, cometEntry ms2 = some (JVal.obj fields) ∧
      fields.map (fun f => f.1)
        = [kType, kDesignation, kName, kPacked, kOrbit, kH, kG]) := by
  constructor
  · obtain ⟨o, ho⟩ := normalizeNumber_total _ hnum
    refine ⟨[(kType, JVal.str sAst), (kNumber, optStr o),
      (kName, jOrNone (jGet ms kNameRaw)),
      (kPrincipal, jOrNone (jGet ms kPrincipalDesigRaw)),
      (kOther, JVal.arr ((normalizeList (jGet ms kOtherDesigsRaw)).map JVal.str)),
      (kH, jGet ms kHRaw), (kG, jGet ms kGRaw), (kEpoch, jGet ms kEpochRaw),
      (kOrbit, jOrNone (jGet ms kOrbitTypeRaw)),
      (kNeo, optBool (normalizeNeo (jGet ms kNeoRaw)))], ?_, rfl⟩
    simp only [asteroidEntry, ho]
  · by_cases ht : jTruthy (jGet ms2 kDesigAndNameRaw) = true
    · obtain ⟨s, hs⟩ := hdes ht
      refine ⟨[(kType, JVal.str sCom), (kDesignation, JVal.str s),
        (kName, optStr (cometName s)),
        (kPacked, jOrNone (jGet ms2 kProvPackedRaw)),
        (kOrbit, jOrNone (jGet ms2 kOrbitTypeRaw)),
        (kH, jGet ms2 kHRaw), (kG, jGet ms2 kGRaw)], ?_, rfl⟩
      have hd : (if jTruthy (jGet ms2 kDesigAndNameRaw) then jGet ms2 kDesigAndNameRaw
          else JVal.str []) = JVal.str s := by
        rw [if_pos ht, hs]
      simp only [cometEntry, hd]
      rfl
    · refine ⟨[(kType, JVal.str sCom), (kDesignation, JVal.str []),
        (kName, optStr (cometName [])),
        (kPacked, jOrNone (jGet ms2 kProvPackedRaw)),
        (kOrbit, jOrNone (jGet ms2 kOrbitTypeRaw)),
        (kH, jGet ms2 kHRaw), (kG, jGet ms2 kGRaw)], ?_, rfl⟩
      have hd : (if jTruthy (jGet ms2 kDesigAndNameRaw) then jGet ms2 kDesigAndNameRaw
          else JVal.str []) = JVal.str [] := by
        rw [if_neg ht]
      simp only [cometEntry, hd]
      rfl

theorem C4_normalization_total_witness :
    (∃ fields, asteroidEntry [] = some (JVal.obj fields) ∧
      fields.map (fun f => f.1)
        = [kType, kNumber, kName, kPrincipal, kOther, kH, kG, kEpoch, kOrbit, kNeo]) ∧
    (∃ fields, cometEntry [] = some (JVal.obj fields) ∧
      fields.map (fun f => f.1)
        = [kType, kDesignation, kName, kPacked, kOrbit, kH, kG]) :=
  C4_normalization_total [] []
    (fun h => absurd h (by decide)) (fun h => absurd h (by decide))

/-- C4 counterexample: a wrong-typed field makes normalization raise.  An
asteroid raw record whose `Number` is the JSON number 42 hits
`(42).strip()` — `AttributeError`; a comet raw record whose
`Designation_and_name` is the JSON number 5 hits `'(' in 5` —
`TypeError`.  Both are modelled as `none`: no record is produced. -/
theorem C4_normalization_total_cx :
    asteroidEntry [(kNumberRaw, JVal.num [52, 50])] = none ∧
    cometEntry [(kDesigAndNameRaw, JVal.num [53])] = none := ⟨rfl, rfl⟩

/-- C5 (amended): for EVERY raw record that normalizes, and every output
key separately: the key is never omitted (each kind's full key list is
always present, in order), and a missing or absent (JSON null) source
value is emitted as JSON null under its fixed key — with TWO exceptions,
not one: the asteroid field `other` is always an array (empty when its
source is missing), and the comet field `designation` is the EMPTY STRING,
not null, when the raw `Designation_and_name` is missing
(`row.get(...) or ''`). -/
theorem C5_missing_emitted_null (ms : List (List Nat × JVal)) :
    (∀ fields, asteroidEntry ms = some (JVal.obj fields) →
      (jGet ms kNumberRaw = JVal.null → jGet fields kNumber = JVal.null) ∧
      (jGet ms kNameRaw = JVal.null → jGet fields kName = JVal.null) ∧
      (jGet ms kPrincipalDesigRaw = JVal.null → jGet fields kPrincipal = JVal.null) ∧
      (∃ xs, jGet fields kOther = JVal.arr xs) ∧
      (jGet ms kOtherDesigsRaw = JVal.null → jGet fields kOther = JVal.arr []) ∧
      (jGet ms kHRaw = JVal.null → jGet fields kH = JVal.null) ∧
      (jGet ms kGRaw = JVal.null → jGet fields kG = JVal.null) ∧
      (jGet ms kEpochRaw = JVal.null → jGet fields kEpoch = JVal.null) ∧
      (jGet ms kOrbitTypeRaw = JVal.null → jGet fields kOrbit = JVal.null) ∧
      (jGet ms kNeoRaw = JVal.null → jGet fields kNeo = JVal.null) ∧
      fields.map (fun f => f.1)
        = [kType, kNumber, kName, kPrincipal, kOther, kH, kG, kEpoch, kOrbit, kNeo]) ∧
    (∀ fields, cometEntry ms = some (JVal.obj fields) →
      (jGet ms kProvPackedRaw = JVal.null → jGet fields kPacked = JVal.null) ∧
      (jGet ms kOrbitTypeRaw = JVal.null → jGet fields kOrbit = JVal.null) ∧
      (jGet ms kHRaw = JVal.null → jGet fields kH = JVal.null) ∧
      (jGet ms kGRaw = JVal.null → jGet fields kG = JVal.null) ∧
      (jGet ms kDesigAndNameRaw = JVal.null →
        jGet fields kDesignation = JVal.str [] ∧ jGet fields kName = JVal.null) ∧
      fields.map (fun f => f.1)
        = [kType, kDesignation, kName, kPacked, kOrbit, kH, kG]) := by
  constructor
  · intro fields he
    cases hn : normalizeNumber (jGet ms kNumberRaw) with
    | none =>
      simp only [asteroidEntry, hn] at he
      exact absurd he (by simp)
    | some numv =>
      simp only [asteroidEntry, hn] at he
      have h1 := Option.some_inj.mp he
      have h2 : [(kType, JVal.str sAst), (kNumber, optStr numv),
          (kName, jOrNone (jGet ms kNameRaw)),
          (kPrincipal, jOrNone (jGet ms kPrincipalDesigRaw)),
          (kOther, JVal.arr ((normalizeList (jGet ms kOtherDesigsRaw)).map JVal.str)),
          (kH, jGet ms kHRaw), (kG, jGet ms kGRaw), (kEpoch, jGet ms kEpochRaw),
          (kOrbit, jOrNone (jGet ms kOrbitTypeRaw)),
          (kNeo, optBool (normalizeNeo (jGet ms kNeoRaw)))] = fields :=
        JVal.obj.inj h1
      subst h2
      refine ⟨?_, ?_, ?_, ?_, ?_, ?_, ?_, ?_, ?_, ?_, rfl⟩
      · intro hmiss
        rw [hmiss] at hn
        have h3 : (some (none : Option (List Nat))
            : Option (Option (List Nat))) = some numv := hn
        obtain rfl : numv = none := (Option.some_inj.mp h3).symm
        rfl
      · intro hmiss
        show jOrNone (jGet ms kNameRaw) = JVal.null
        rw [hmiss]
        rfl
      · intro hmiss
        show jOrNone (jGet ms kPrincipalDesigRaw) = JVal.null
        rw [hmiss]
        rfl
      · exact ⟨(normalizeList (jGet ms kOtherDesigsRaw)).map JVal.str, rfl⟩
      · intro hmiss
        show JVal.arr ((normalizeList (jGet ms kOtherDesigsRaw)).map JVal.str)
          = JVal.arr []
        rw [hmiss]
        rfl
      · intro hmiss
        exact hmiss
      · intro hmiss
        exact hmiss
      · intro hmiss
        exact hmiss
      · intro hmiss
        show jOrNone (jGet ms kOrbitTypeRaw) = JVal.null
        rw [hmiss]
        rfl
      · intro hmiss
        show optBool (normalizeNeo (jGet ms kNeoRaw)) = JVal.null
        rw [hmiss]
        rfl
  · intro fields he
    have he2 : cometEntryD
        (if jTruthy (jGet ms kDesigAndNameRaw) then jGet ms kDesigAndNameRaw
          else JVal.str []) ms = some (JVal.obj fields) := he
    cases hdv : (if jTruthy (jGet ms kDesigAndNameRaw) then jGet ms kDesigAndNameRaw
        else JVal.str []) with
    | null =>
      rw [hdv] at he2
      exact absurd he2 (by simp [cometEntryD])
    | bool b =>
      rw [hdv] at he2
      exact absurd he2 (by simp [cometEntryD])
    | num lit =>
      rw [hdv] at he2
      exact absurd he2 (by simp [cometEntryD])
    | str ds =>
      rw [hdv] at he2
      have h1 := Option.some_inj.mp he2
      have h2 : [(kType, JVal.str sCom), (kDesignation, JVal.str ds),
          (kName, optStr (cometName ds)),
          (kPacked, jOrNone (jGet ms kProvPackedRaw)),
          (kOrbit, jOrNone (jGet ms kOrbitTypeRaw)),
          (kH, jGet ms kHRaw), (kG, jGet ms kGRaw)] = fields := JVal.obj.inj h1
      subst h2
      refine ⟨?_, ?_, fun h => h, fun h => h, ?_, rfl⟩
      · intro hmiss
        show jOrNone (jGet ms kProvPackedRaw) = JVal.null
        rw [hmiss]
        rfl
      · intro hmiss
        show jOrNone (jGet ms kOrbitTypeRaw) = JVal.null
        rw [hmiss]
        rfl
      · intro hmiss
        rw [hmiss] at hdv
        have h9 : JVal.str [] = JVal.str ds := hdv
        obtain rfl : ds = [] := (JVal.str.inj h9).symm
        exact ⟨rfl, rfl⟩
    | arr xs =>
      rw [hdv] at he2
      by_cases hany : xs.any (fun x => isParenStr x) = true
      · rw [show cometEntryD (JVal.arr xs) ms = none from by
          simp [cometEntryD, hany]] at he2
        exact absurd he2 (by simp)
      · have h0 : cometEntryD (JVal.arr xs) ms = some (JVal.obj
            [(kType, JVal.str sCom), (kDesignation, JVal.arr xs), (kName, JVal.null),
             (kPacked, jOrNone (jGet ms kProvPackedRaw)),
             (kOrbit, jOrNone (jGet ms kOrbitTypeRaw)),
             (kH, jGet ms kHRaw), (kG, jGet ms kGRaw)]) := by
          simp only [cometEntryD]
          rw [if_neg hany]
        rw [h0] at he2
        have h1 := Option.some_inj.mp he2
        have h2 : [(kType, JVal.str sCom), (kDesignation, JVal.arr xs),
            (kName, JVal.null), (kPacked, jOrNone (jGet ms kProvPackedRaw)),
            (kOrbit, jOrNone (jGet ms kOrbitTypeRaw)),
            (kH, jGet ms kHRaw), (kG, jGet ms kGRaw)] = fields := JVal.obj.inj h1
        subst h2
        refine ⟨?_, ?_, fun h => h, fun h => h, ?_, rfl⟩
        · intro hmiss
          show jOrNone (jGet ms kProvPackedRaw) = JVal.null
          rw [hmiss]
          rfl
        · intro hmiss
          show jOrNone (jGet ms kOrbitTypeRaw) = JVal.null
          rw [hmiss]
          rfl
        · intro hmiss
          rw [hmiss] at hdv
          exact absurd (show JVal.str [] = JVal.arr xs from hdv) (by simp)
    | obj ms2 =>
      rw [hdv] at he2
      by_cases hany : ms2.any (fun m => m.1 == [40]) = true
      · rw [show cometEntryD (JVal.obj ms2) ms = none from by
          simp [cometEntryD, hany]] at he2
        exact absurd he2 (by simp)
      · have h0 : cometEntryD (JVal.obj ms2) ms = some (JVal.obj
            [(kType, JVal.str sCom), (kDesignation, JVal.obj ms2), (kName, JVal.null),
             (kPacked, jOrNone (jGet ms kProvPackedRaw)),
             (kOrbit, jOrNone (jGet ms kOrbitTypeRaw)),
             (kH, jGet ms kHRaw), (kG, jGet ms kGRaw)]) := by
          simp only [cometEntryD]
          rw [if_neg hany]
        rw [h0] at he2
        have h1 := Option.some_inj.mp he2
        have h2 : [(kType, JVal.str sCom), (kDesignation, JVal.obj ms2),
            (kName, JVal.null), (kPacked, jOrNone (jGet ms kProvPackedRaw)),
            (kOrbit, jOrNone (jGet ms kOrbitTypeRaw)),
            (kH, jGet ms kHRaw), (kG, jGet ms kGRaw)] = fields := JVal.obj.inj h1
        subst h2
        refine ⟨?_, ?_, fun h => h, fun h => h, ?_, rfl⟩
        · intro hmiss
          show jOrNone (jGet ms kProvPackedRaw) = JVal.null
          rw [hmiss]
          rfl
        · intro hmiss
          show jOrNone (jGet ms kOrbitTypeRaw) = JVal.null
          rw [hmiss]
          rfl
        · intro hmiss
          rw [hmiss] at hdv
          exact absurd (show JVal.str [] = JVal.obj ms2 from hdv) (by simp)

theorem C5_missing_emitted_null_witness :
    jGet [(kType, JVal.str sAst), (kNumber, JVal.null), (kName, JVal.null),
      (kPrincipal, JVal.null), (kOther, JVal.arr []), (kH, JVal.null),
      (kG, JVal.null), (kEpoch, JVal.null), (kOrbit, JVal.null),
      (kNeo, JVal.null)] kNumber = JVal.null ∧
    jGet [(kType, JVal.str sAst), (kNumber, JVal.null), (kName, JVal.null),
      (kPrincipal, JVal.null), (kOther, JVal.arr []), (kH, JVal.null),
      (kG, JVal.null), (kEpoch, JVal.null), (kOrbit, JVal.null),
      (kNeo, JVal.null)] kOther = JVal.arr [] ∧
    jGet [(kType, JVal.str sCom), (kDesignation, JVal.str []), (kName, JVal.null),
      (kPacked, JVal.null), (kOrbit, JVal.null), (kH, JVal.null),
      (kG, JVal.null)] kDesignation = JVal.str [] ∧
    jGet [(kType, JVal.str sCom), (kDesignation, JVal.str []), (kName, JVal.null),
      (kPacked, JVal.null), (kOrbit, JVal.null), (kH, JVal.null),
      (kG, JVal.null)] kName = JVal.null := by
  have hA := (C5_missing_emitted_null []).1
    [(kType, JVal.str sAst), (kNumber, JVal.null), (kName, JVal.null),
     (kPrincipal, JVal.null), (kOther, JVal.arr []), (kH, JVal.null),
     (kG, JVal.null), (kEpoch, JVal.null), (kOrbit, JVal.null),
     (kNeo, JVal.null)] rfl
  have hB := (C5_missing_emitted_null []).2
    [(kType, JVal.str sCom), (kDesignation, JVal.str []), (kName, JVal.null),
     (kPacked, JVal.null), (kOrbit, JVal.null), (kH, JVal.null),
     (kG, JVal.null)] rfl
  exact ⟨hA.1 rfl, hA.2.2.2.2.1 rfl, (hB.2.2.2.2.1 rfl).1, (hB.2.2.2.2.1 rfl).2⟩

/-- C5 counterexample: a comet record whose raw `Designation_and_name`
field is absent has `designation` equal to the empty string — not null as
claimed. -/
theorem C5_missing_emitted_null_cx :
    cometEntry [] = some (JVal.obj
      [(kType, JVal.str sCom), (kDesignation, JVal.str []), (kName, JVal.null),
       (kPacked, JVal.null), (kOrbit, JVal.null), (kH, JVal.null),
       (kG, JVal.null)]) ∧
    JVal.str [] ≠ JVal.null := ⟨rfl, by simp⟩

/-- C6: with more asteroid rows than the cap, the assembled index holds
exactly `cap` asteroid records — the first `cap` source rows' records, in
order — and `metadata.asteroidCount` equals the cap; the comet source is
streamed to completion with no cap and `metadata.cometCount` equals the
number of comet rows. -/
theorem C6_asteroid_cap (limit : Nat) (astRows cometRows : List JVal)
    (hlim : 1 ≤ limit) (hM : limit ≤ astRows.length)
    (hast : ∀ r ∈ astRows, ∃ e, rowEntryAst r = some e)
    (hcom : ∀ r ∈ cometRows, ∃ e, rowEntryCom r = some e) :
    ∃ asts coms,
      astLoop limit astRows = some asts ∧
      cometLoop cometRows = some coms ∧
      asts.length = limit ∧
      asts.map some = (astRows.take limit).map rowEntryAst ∧
      coms.length = cometRows.length ∧
      coms.map some = cometRows.map rowEntryCom ∧
      buildIndexPayload limit astRows cometRows = some (JVal.obj
        [(kMetadata, JVal.obj
          [(kAsteroidCount, JVal.num (natLit limit)),
           (kCometCount, JVal.num (natLit cometRows.length)),
           (kSource, JVal.str sSourceText)]),
         (kEntries, JVal.arr (asts ++ coms))]) := by
  obtain ⟨asts, h1, h2, h3⟩ := astLoop_spec astRows limit hlim hast
  obtain ⟨coms, h4, h5, h6⟩ := cometLoop_spec cometRows hcom
  have hlen : asts.length = limit := by
    rw [h3, Nat.min_eq_left hM]
  refine ⟨asts, coms, h1, h4, hlen, h2, h6, h5, ?_⟩
  simp only [buildIndexPayload, h1, h4, hlen, h6]

theorem C6_asteroid_cap_witness :
    ∃ asts coms,
      astLoop 1 [JVal.obj [], JVal.obj []] = some asts ∧
      cometLoop [JVal.obj []] = some coms ∧
      asts.length = 1 ∧
      asts.map some = (([JVal.obj [], JVal.obj []] : List JVal).take 1).map rowEntryAst ∧
      coms.length = ([JVal.obj []] : List JVal).length ∧
      coms.map some = ([JVal.obj []] : List JVal).map rowEntryCom ∧
      buildIndexPayload 1 [JVal.obj [], JVal.obj []] [JVal.obj []] = some (JVal.obj
        [(kMetadata, JVal.obj
          [(kAsteroidCount, JVal.num (natLit 1)),
           (kCometCount, JVal.num (natLit ([JVal.obj []] : List JVal).length)),
           (kSource, JVal.str sSourceText)]),
         (kEntries, JVal.arr (asts ++ coms))]) :=
  C6_asteroid_cap 1 [JVal.obj [], JVal.obj []] [JVal.obj []] (by decide) (by decide)
    (by
      intro r hr
      rcases List.mem_cons.mp hr with rfl | hr2
      · exact ⟨_, rfl⟩
      · rcases List.mem_cons.mp hr2 with rfl | hr3
        · exact ⟨_, rfl⟩
        · exact absurd hr3 (List.not_mem_nil r))
    (by
      intro r hr
      rcases List.mem_cons.mp hr with rfl | hr2
      · exact ⟨_, rfl⟩
      · exact absurd hr2 (List.not_mem_nil r))

/-- C7: the comet designation-and-name split.  (1) For a string
designation the record keeps the WHOLE original string under
`designation` and puts the extracted name (or null) under `name`.
(2) Without a `(` somewhere and a `)` at the very end there is no name.
(3) When the string ends with a parenthesized group — any prefix, then
`(`, then group text free of `(`, then the trailing `)` — the name is the
group text trimmed, empty-after-trim becoming none.  (4) The end-to-end
example of the spec. -/
theorem C7_comet_name_split :
    (∀ (s : List Nat) (row : List (List Nat × JVal)),
      jGet row kDesigAndNameRaw = JVal.str s → s ≠ [] →
      cometEntry row = some (JVal.obj
        [(kType, JVal.str sCom), (kDesignation, JVal.str s),
         (kName, optStr (cometName s)),
         (kPacked, jOrNone (jGet row kProvPackedRaw)),
         (kOrbit, jOrNone (jGet row kOrbitTypeRaw)),
         (kH, jGet row kHRaw), (kG, jGet row kGRaw)])) ∧
    (∀ s : List Nat, s.contains 40 = false ∨ s.getLast? ≠ some 41 →
      cometName s = none) ∧
    (∀ a m : List Nat, 40 ∉ m →
      cometName (a ++ 40 :: (m ++ [41]))
        = (if (pyStrip m).isEmpty then none else some (pyStrip m))) ∧
    cometEntry
      [(kDesigAndNameRaw, JVal.str [49, 80, 47, 49, 54, 56, 50, 32, 81, 49, 32, 40, 72, 97, 108, 108, 101, 121, 41]),
       (kHRaw, JVal.num [53, 46, 53]), (kGRaw, JVal.num [48, 46, 49, 53])]
      = some (JVal.obj
        [(kType, JVal.str sCom),
         (kDesignation, JVal.str [49, 80, 47, 49, 54, 56, 50, 32, 81, 49, 32, 40, 72, 97, 108, 108, 101, 121, 41]),
         (kName, JVal.str [72, 97, 108, 108, 101, 121]),
         (kPacked, JVal.null), (kOrbit, JVal.null),
         (kH, JVal.num [53, 46, 53]), (kG, JVal.num [48, 46, 49, 53])]) := by
  refine ⟨?_, ?_, ?_, rfl⟩
  · intro s row hget hne
    have ht : jTruthy (jGet row kDesigAndNameRaw) = true := by
      rw [hget]
      cases s with
      | nil => exact absurd rfl hne
      | cons c t => rfl
    have hd : (if jTruthy (jGet row kDesigAndNameRaw) then jGet row kDesigAndNameRaw
        else JVal.str []) = JVal.str s := by
      rw [if_pos ht, hget]
    simp only [cometEntry, hd]
    rfl
  · intro s h
    have hc : (s.contains 40 && s.getLast? == some 41) = false := by
      rcases h with h | h
      · rw [h]
        rfl
      · have h2 : (s.getLast? == some 41) = false := by
          rw [beq_eq_false_iff_ne]
          exact h
        rw [h2, Bool.and_false]
    simp only [cometName, hc]
    rfl
  · intro a m hm
    have hsum : a ++ 40 :: (m ++ [41]) = (a ++ 40 :: m) ++ [41] := by simp
    have hcontains : (a ++ 40 :: (m ++ [41])).contains 40 = true := by
      simp
    have hlast : (a ++ 40 :: (m ++ [41])).getLast? = some 41 := by
      rw [hsum, List.getLast?_concat]
    have hcond : ((a ++ 40 :: (m ++ [41])).contains 40
        && ((a ++ 40 :: (m ++ [41])).getLast? == some 41)) = true := by
      rw [hcontains, hlast]
      rfl
    have hrev : (a ++ 40 :: (m ++ [41])).reverse
        = 41 :: (m.reverse ++ (40 :: a.reverse)) := by
      simp
    have htake : ((a ++ 40 :: (m ++ [41])).reverse.takeWhile (fun c => !(c == 40)))
        = 41 :: m.reverse := by
      rw [hrev, List.takeWhile_cons]
      rw [if_pos (by decide)]
      rw [takeWhile_all_append _ m.reverse (40 :: a.reverse)
        (by
          intro x hx
          have hxm : x ∈ m := by simpa using hx
          have : x ≠ 40 := fun hcon => hm (hcon ▸ hxm)
          simp [this])]
      rw [List.takeWhile_cons, if_neg (by decide)]
      simp
    have htail : ((a ++ 40 :: (m ++ [41])).reverse.takeWhile
        (fun c => !(c == 40))).reverse.dropLast = m := by
      rw [htake]
      rw [show (41 :: m.reverse).reverse = m ++ [41] from by simp]
      exact List.dropLast_concat
    simp only [cometName, hcond]
    rw [if_pos trivial, htail]

theorem C7_comet_name_split_witness :
    cometName ([49, 80, 47, 49, 54, 56, 50, 32, 81, 49, 32] ++ 40 :: ([72, 97, 108, 108, 101, 121] ++ [41]))
      = (if (pyStrip [72, 97, 108, 108, 101, 121]).isEmpty then none
        else some (pyStrip [72, 97, 108, 108, 101, 121])) :=
  C7_comet_name_split.2.2.1 [49, 80, 47, 49, 54, 56, 50, 32, 81, 49, 32] [72, 97, 108, 108, 101, 121] (by decide)

/-- C8 (amended): `_normalize_number` on a string TRIMS FIRST and then
strips one enclosing parenthesis pair, without re-trimming: a falsy string
gives none; it always returns; when the trimmed string is not
parenthesis-wrapped the result is exactly the trimmed string and indeed
carries no leading or trailing whitespace; but when a parenthesis pair is
stripped the result is the raw interior, whose inner whitespace survives
(so the claimed "never has leading or trailing whitespace" fails — see the
counterexample). -/
theorem C8_number_strip_order (s : List Nat) :
    (jTruthy (JVal.str s) = false → normalizeNumber (JVal.str s) = some none) ∧
    (∃ o, normalizeNumber (JVal.str s) = some o) ∧
    (∀ r, normalizeNumber (JVal.str s) = some (some r) →
      (parenWrapped (pyStrip s) = false →
        r = pyStrip s
          ∧ (∀ c, r.head? = some c → isPySpace c = false)
          ∧ (∀ c, r.getLast? = some c → isPySpace c = false)) ∧
      (parenWrapped (pyStrip s) = true → r = ((pyStrip s).drop 1).dropLast)) := by
  refine ⟨?_, ?_, ?_⟩
  · intro h
    have he : s.isEmpty = true := by
      simpa [jTruthy] using h
    simp [normalizeNumber, he]
  · simp only [normalizeNumber]
    split_ifs <;> exact ⟨_, rfl⟩
  · intro r hr
    have h0 : normalizeNumber (JVal.str s)
        = (if s.isEmpty then some none
          else if parenWrapped (pyStrip s) then
            some (if (((pyStrip s).drop 1).dropLast).isEmpty then none
              else some (((pyStrip s).drop 1).dropLast))
          else some (if (pyStrip s).isEmpty then none else some (pyStrip s))) := rfl
    rw [h0] at hr
    by_cases he : s.isEmpty = true
    · rw [if_pos he] at hr
      exact absurd hr (by simp)
    · rw [if_neg he] at hr
      by_cases hp : parenWrapped (pyStrip s) = true
      · rw [if_pos hp] at hr
        refine ⟨fun hfalse => absurd hp (by simp [hfalse]), fun _ => ?_⟩
        by_cases hi : (((pyStrip s).drop 1).dropLast).isEmpty = true
        · rw [if_pos hi] at hr
          exact absurd hr (by simp)
        · rw [if_neg hi] at hr
          exact (Option.some_inj.mp (Option.some_inj.mp hr)).symm
      · rw [if_neg hp] at hr
        refine ⟨fun _ => ?_, fun htrue => absurd htrue hp⟩
        by_cases hi : (pyStrip s).isEmpty = true
        · rw [if_pos hi] at hr
          exact absurd hr (by simp)
        · rw [if_neg hi] at hr
          have h1 := (Option.some_inj.mp (Option.some_inj.mp hr)).symm
          refine ⟨h1, ?_, ?_⟩
          · intro c hc
            rw [h1] at hc
            exact pyStrip_head_not_space s c hc
          · intro c hc
            rw [h1] at hc
            exact pyStrip_last_not_space s c hc

theorem C8_number_strip_order_witness :
    ([52, 51, 51] : List Nat) = pyStrip [32, 52, 51, 51, 32] :=
  (((C8_number_strip_order [32, 52, 51, 51, 32]).2.2 [52, 51, 51]
    (by decide)).1 (by decide)).1

/-- C8 counterexample: on the string `( 433 )` the code trims (nothing to
trim), strips the parenthesis pair and returns ` 433 ` — WITH its leading
and trailing spaces, since stripping happens before, not after, the
parenthesis removal; for comparison ` (433) ` does give `433`. -/
theorem C8_number_strip_order_cx :
    normalizeNumber (JVal.str [40, 32, 52, 51, 51, 32, 41])
      = some (some [32, 52, 51, 51, 32]) ∧
    ([32, 52, 51, 51, 32] : List Nat).head? = some 32 ∧
    isPySpace 32 = true ∧
    normalizeNumber (JVal.str [32, 40, 52, 51, 51, 41, 32])
      = some (some [52, 51, 51]) := by
  refine ⟨by decide, rfl, rfl, by decide⟩

/-- C9: the near-Earth flag normalization: native booleans pass through;
a number maps to its truthiness; a string is trimmed and lowercased and
mapped to true on y/yes/true, to false on n/no/false, and to none
otherwise; null, arrays and objects map to none, never to false. -/
theorem C9_neo_mapping :
    (∀ b, normalizeNeo (JVal.bool b) = some b) ∧
    (∀ lit, normalizeNeo (JVal.num lit) = some (jTruthy (JVal.num lit))) ∧
    (∀ s : List Nat,
      ((pyLower (pyStrip s) = [121] ∨ pyLower (pyStrip s) = [121, 101, 115]
          ∨ pyLower (pyStrip s) = [116, 114, 117, 101]) →
        normalizeNeo (JVal.str s) = some true) ∧
      ((pyLower (pyStrip s) = [110] ∨ pyLower (pyStrip s) = [110, 111]
          ∨ pyLower (pyStrip s) = [102, 97, 108, 115, 101]) →
        normalizeNeo (JVal.str s) = some false) ∧
      ((pyLower (pyStrip s) ≠ [121] ∧ pyLower (pyStrip s) ≠ [121, 101, 115]
          ∧ pyLower (pyStrip s) ≠ [116, 114, 117, 101] ∧ pyLower (pyStrip s) ≠ [110]
          ∧ pyLower (pyStrip s) ≠ [110, 111]
          ∧ pyLower (pyStrip s) ≠ [102, 97, 108, 115, 101]) →
        normalizeNeo (JVal.str s) = none)) ∧
    normalizeNeo JVal.null = none ∧
    (∀ xs, normalizeNeo (JVal.arr xs) = none) ∧
    (∀ ms, normalizeNeo (JVal.obj ms) = none) := by
  refine ⟨fun b => rfl, fun lit => rfl, ?_, rfl, fun xs => rfl, fun ms => rfl⟩
  intro s
  refine ⟨?_, ?_, ?_⟩
  · intro h
    rcases h with h | h | h <;> simp [normalizeNeo, h]
  · intro h
    rcases h with h | h | h <;> simp [normalizeNeo, h]
  · intro h
    obtain ⟨h1, h2, h3, h4, h5, h6⟩ := h
    simp [normalizeNeo, h1, h2, h3, h4, h5, h6]

theorem C9_neo_mapping_witness :
    normalizeNeo (JVal.str [32, 89, 101, 115, 32]) = some true :=
  (C9_neo_mapping.2.2.1 [32, 89, 101, 115, 32]).1 (Or.inr (Or.inl (by decide)))

end SBDB
